import Mathlib

/-!
# jx tokenizer (`src/jx_parser.c`): shallow embedding and verified properties

The C tokenizer is embedded function by function.

* The input buffer `js` is a list of byte values (`Nat`); `len` is passed
  separately, as in C.  A read `js[i]` is only ever made with `i < len`; the
  caller's contract is `len ≤ js.length`, and a read past the list yields the
  byte 0.  The comparisons the code makes on bytes (`< 32`, `>= 127`, the
  hexadecimal ranges) give the same answer for signed and unsigned `char`, so
  bytes are kept as naturals.
* The token array `nodes` is `Option (List jx_node)`: `none` is the C `NULL`
  (count mode), `some l` a caller array of `l.length` entries holding whatever
  the caller left in them.  `nnodes` is the capacity handed to the call.
  Pointers to tokens are indices; every read or write of `nodes[i]` goes
  through an `Option`-returning lookup and a miss is the outcome `fault`.
* `pos`, `toknext` are `unsigned` in C and `toksuper`, `count`, the token
  fields are `int`; buffers and arrays are taken shorter than `2^31`, where
  none of the arithmetic wraps, so `Nat`/`Int` are exact.  The only
  subtraction on an unsigned which can reach zero, `toknext - 1` stored into
  the `int toksuper`, is `-1` in both readings.
* Loops are recursions on a fuel argument.  Where the fuel can run out
  although the C loop would go on, the outcome is `hang`.
-/

set_option autoImplicit false

namespace Jx

/-- Modelled from the spec: `jx_type.h` is not among the sources; the spec
lists the token kinds Object, Array, String, Number, Boolean, Null. -/
inductive jx_type
  | JX_OBJECT
  | JX_ARRAY
  | JX_STRING
  | JX_NUMBER
  | JX_BOOL
  | JX_NULL
deriving DecidableEq, Repr

open jx_type

/-- Modelled from the spec: `jx_error.h` is not among the sources; the spec
names two error kinds, both told apart from a token count by `r < 0` in the
code.  `JX_INVAL` is the spec's InvalidSyntax. -/
def JX_INVAL : Int := -2

/-- Modelled from the spec: `jx_error.h` is not among the sources.  `JX_NOMEM`
is the spec's OutOfTokenSpace. -/
def JX_NOMEM : Int := -1

/-- Modelled from the spec: `struct jx_node` (`jx_node.h`) is not among the
sources; its fields are the ones `jx_parser.c` reads and writes (`type`,
`start`, `end`, `size`, `parent`).  `end` is a Lean keyword, hence `end_`. -/
structure jx_node where
  type : jx_type
  start : Int
  end_ : Int
  size : Int
  parent : Int
deriving DecidableEq, Repr

/-- The `struct jx_parser` of `jx_parser.h`. -/
structure jx_parser_st where
  bits : Int
  nnodes : Int
  pos : Nat
  toknext : Nat
  toksuper : Int
deriving DecidableEq, Repr

/-- The data a call works on: the parser state and the token array. -/
structure Mem where
  parser : jx_parser_st
  nodes : Option (List jx_node)
deriving DecidableEq, Repr

/-- What a call (or a piece of one) comes to: it returns `r` and leaves the
memory `m`; or it faults (an access outside the token array, the failed
`assert` of `primitive_type`); or it never returns. -/
inductive Outcome
  | ret (r : Int) (m : Mem)
  | fault
  | hang
deriving DecidableEq, Repr

/-- `parser_init`: every field is overwritten. -/
def parser_init (bits : Int) : jx_parser_st :=
  { bits := bits, nnodes := 0, pos := 0, toknext := 0, toksuper := -1 }

/-- The byte `js[i]`. -/
def byteAt (js : List Nat) (i : Nat) : Nat := js.getD i 0

/-- The token `nodes[i]` for an `int` index. -/
def nodeAt (nodes : List jx_node) (i : Int) : Option jx_node :=
  if i < 0 then none else nodes[i.toNat]?

/-- Write through a token pointer: `nodes[i]` becomes `f nodes[i]`. -/
def updNode (f : jx_node → jx_node) : List jx_node → Nat → List jx_node
  | [], _ => []
  | t :: ts, 0 => f t :: ts
  | t :: ts, i + 1 => t :: updNode f ts i

/-- What `node_alloc` hands back. -/
inductive Alloc
  | null
  | fault
  | tok (i : Nat) (parser : jx_parser_st) (nodes : List jx_node)
deriving DecidableEq, Repr

/-- Modelled from the spec: `node_alloc` (`jx_node.h`) is not among the
sources.  It fails (NULL) when `toknext >= nnodes`; otherwise it takes
`nodes[toknext]`, sets `start = end = -1`, `size = 0`, `parent = -1`, and
increments `toknext`.  The token's `type` is left as it was. -/
def node_alloc (parser : jx_parser_st) (nnodes : Nat) (nodes : List jx_node) : Alloc :=
  if parser.toknext ≥ nnodes then Alloc.null
  else if parser.toknext < nodes.length then
    Alloc.tok parser.toknext { parser with toknext := parser.toknext + 1 }
      (updNode (fun t => { t with start := -1, end_ := -1, size := 0, parent := -1 })
        nodes parser.toknext)
  else Alloc.fault

/-- `fill_node`. -/
def fill_node (token : jx_node) (type : jx_type) (start end_ : Int) : jx_node :=
  { token with type := type, start := start, end_ := end_, size := 0 }

/-- `primitive_type`; `none` is the failed `assert`. -/
def primitive_type (c : Nat) : Option jx_type :=
  if c = 45 ∨ (48 ≤ c ∧ c ≤ 57) then some JX_NUMBER   -- '-', '0'..'9'
  else if c = 116 ∨ c = 102 then some JX_BOOL           -- 't', 'f'
  else if c = 110 then some JX_NULL                     -- 'n'
  else none

/-- The bytes on which `parse_primitive` jumps to `found`:
tab, CR, LF, space, ',', ']', '}'. -/
def isDelim (c : Nat) : Bool :=
  c = 9 || c = 13 || c = 10 || c = 32 || c = 44 || c = 93 || c = 125

/-- How the loop of `parse_primitive` ends: by `goto found` with
`parser->pos = q`; by `JX_INVAL` (a byte outside 32..126, or the loop running
off the input); or not at all. -/
inductive PrimScan
  | found (q : Nat)
  | inval
  | hang
deriving DecidableEq, Repr

/-- The loop of `parse_primitive`, from `pos`. -/
def primitive_loop (js : List Nat) (len : Nat) : Nat → Nat → PrimScan
  | 0, pos => if pos < len ∧ byteAt js pos ≠ 0 then PrimScan.hang else PrimScan.inval
  | fuel + 1, pos =>
    if pos < len ∧ byteAt js pos ≠ 0 then
      if isDelim (byteAt js pos) then PrimScan.found pos
      else if byteAt js pos < 32 ∨ byteAt js pos ≥ 127 then PrimScan.inval
      else primitive_loop js len fuel (pos + 1)
    else PrimScan.inval

/-- `parse_primitive`.  The `parser->pos--` after `found` is `q - 1`: the
function is static and `parser_parse` only calls it on a byte that starts a
primitive, which is no delimiter, so `q` is past the start and nothing wraps. -/
def parse_primitive (m : Mem) (js : List Nat) (len : Nat) (num_tokens : Nat) : Outcome :=
  let start := m.parser.pos
  match primitive_loop js len (len - start) start with
  | PrimScan.hang => Outcome.hang
  | PrimScan.inval => Outcome.ret JX_INVAL { m with parser := { m.parser with pos := start } }
  | PrimScan.found q =>
    match m.nodes with
    | none => Outcome.ret 0 { m with parser := { m.parser with pos := q - 1 } }
    | some tokens =>
      match node_alloc m.parser num_tokens tokens with
      | Alloc.null => Outcome.ret JX_NOMEM { m with parser := { m.parser with pos := start } }
      | Alloc.fault => Outcome.fault
      | Alloc.tok i parser tokens =>
        match primitive_type (byteAt js start) with
        | none => Outcome.fault
        | some ty =>
          Outcome.ret 0
            { parser := { parser with pos := q - 1 },
              nodes := some (updNode
                (fun t => { fill_node t ty start q with parent := parser.toksuper }) tokens i) }

/-- The hexadecimal test of `parse_string`: 0-9, A-F, a-f. -/
def isHex (c : Nat) : Bool :=
  (48 ≤ c && c ≤ 57) || (65 ≤ c && c ≤ 70) || (97 ≤ c && c ≤ 102)

/-- The `\u` loop of `parse_string`, `n` rounds left (`i < 4`): `some q` when
the loop ends with `parser->pos = q`, `none` when it returns `JX_INVAL`. -/
def hex_loop (js : List Nat) (len : Nat) : Nat → Nat → Option Nat
  | 0, pos => some pos
  | n + 1, pos =>
    if pos < len ∧ byteAt js pos ≠ 0 then
      if isHex (byteAt js pos) then hex_loop js len n (pos + 1) else none
    else some pos

/-- The backslash branch of `parse_string`, entered with `parser->pos` on the
backslash and `pos + 1 < len`: `some q` is the `parser->pos` it leaves,
`none` the return of `JX_INVAL`. -/
def escape (js : List Nat) (len : Nat) (pos : Nat) : Option Nat :=
  let c := byteAt js (pos + 1)
  if c = 34 ∨ c = 47 ∨ c = 92 ∨ c = 98 ∨ c = 102 ∨ c = 114 ∨ c = 110 ∨ c = 116 then
    some (pos + 1)
  else if c = 117 then
    match hex_loop js len 4 (pos + 2) with
    | none => none
    | some q => some (q - 1)
  else none

/-- The loop of `parse_string`, from `pos`; `start` is the offset of the
opening quote. -/
def string_loop (m : Mem) (js : List Nat) (len : Nat) (num_tokens : Nat) (start : Nat) :
    Nat → Nat → Outcome
  | 0, pos =>
    if pos < len ∧ byteAt js pos ≠ 0 then Outcome.hang
    else Outcome.ret JX_INVAL { m with parser := { m.parser with pos := start } }
  | fuel + 1, pos =>
    if pos < len ∧ byteAt js pos ≠ 0 then
      if byteAt js pos = 34 then
        match m.nodes with
        | none => Outcome.ret 0 { m with parser := { m.parser with pos := pos } }
        | some tokens =>
          match node_alloc { m.parser with pos := pos } num_tokens tokens with
          | Alloc.null =>
            Outcome.ret JX_NOMEM { m with parser := { m.parser with pos := start } }
          | Alloc.fault => Outcome.fault
          | Alloc.tok i parser tokens =>
            Outcome.ret 0
              { parser := parser,
                nodes := some (updNode
                  (fun t => { fill_node t JX_STRING (start + 1) pos with
                              parent := parser.toksuper }) tokens i) }
      else if byteAt js pos = 92 ∧ pos + 1 < len then
        match escape js len pos with
        | none => Outcome.ret JX_INVAL { m with parser := { m.parser with pos := start } }
        | some q => string_loop m js len num_tokens start fuel (q + 1)
      else string_loop m js len num_tokens start fuel (pos + 1)
    else Outcome.ret JX_INVAL { m with parser := { m.parser with pos := start } }

/-- `parse_string`. -/
def parse_string (m : Mem) (js : List Nat) (len : Nat) (num_tokens : Nat) : Outcome :=
  let start := m.parser.pos
  string_loop m js len num_tokens start (len - (start + 1)) (start + 1)

/-- How one round of the main loop's `switch` ends: by `break`, with the local
`count` and the memory as they are then, or by leaving the function. -/
inductive Flow
  | next (count : Int) (m : Mem)
  | stop (o : Outcome)
deriving DecidableEq, Repr

/-- The `for (;;)` walk of the closing-bracket case, with `token = &nodes[i]`.
`type` is the kind the bracket closes, `pos` is `parser->pos`. -/
def close_walk (parser : jx_parser_st) (nodes : List jx_node) (type : jx_type) (count : Int) :
    Nat → Int → Flow
  | 0, _ => Flow.stop Outcome.hang
  | fuel + 1, i =>
    match nodeAt nodes i with
    | none => Flow.stop Outcome.fault
    | some token =>
      if token.start ≠ -1 ∧ token.end_ = -1 then
        if token.type ≠ type then
          Flow.stop (Outcome.ret JX_INVAL { parser := parser, nodes := some nodes })
        else
          Flow.next count
            { parser := { parser with toksuper := token.parent },
              nodes := some (updNode (fun t => { t with end_ := (parser.pos : Int) + 1 })
                nodes i.toNat) }
      else if token.parent = -1 then
        if token.type ≠ type ∨ parser.toksuper = -1 then
          Flow.stop (Outcome.ret JX_INVAL { parser := parser, nodes := some nodes })
        else Flow.next count { parser := parser, nodes := some nodes }
      else close_walk parser nodes type count fuel token.parent

/-- The `switch` case for '{' and '['; `c` is the byte. -/
def case_open (c : Nat) (nnodes : Nat) (count : Int) (m : Mem) : Flow :=
  match m.nodes with
  | none => Flow.next (count + 1) m
  | some nodes =>
    match node_alloc m.parser nnodes nodes with
    | Alloc.null => Flow.stop (Outcome.ret JX_NOMEM m)
    | Alloc.fault => Flow.stop Outcome.fault
    | Alloc.tok token parser nodes =>
      let ty := if c = 123 then JX_OBJECT else JX_ARRAY
      let opened : List jx_node → List jx_node := fun ns =>
        updNode (fun t => { t with type := ty, start := (parser.pos : Int) }) ns token
      if parser.toksuper ≠ -1 then
        match nodeAt nodes parser.toksuper with
        | none => Flow.stop Outcome.fault
        | some t =>
          if t.type = JX_OBJECT then
            Flow.stop (Outcome.ret JX_INVAL { parser := parser, nodes := some nodes })
          else
            let nodes := updNode (fun t => { t with size := t.size + 1 }) nodes
              parser.toksuper.toNat
            let nodes := updNode (fun t => { t with parent := parser.toksuper }) nodes token
            Flow.next (count + 1)
              { parser := { parser with toksuper := (parser.toknext : Int) - 1 },
                nodes := some (opened nodes) }
      else
        Flow.next (count + 1)
          { parser := { parser with toksuper := (parser.toknext : Int) - 1 },
            nodes := some (opened nodes) }

/-- The `switch` case for '}' and ']'; `c` is the byte. -/
def case_close (c : Nat) (count : Int) (m : Mem) : Flow :=
  match m.nodes with
  | none => Flow.next count m
  | some nodes =>
    let type := if c = 125 then JX_OBJECT else JX_ARRAY
    if m.parser.toknext < 1 then Flow.stop (Outcome.ret JX_INVAL m)
    else close_walk m.parser nodes type count (nodes.length + 1) ((m.parser.toknext : Int) - 1)

/-- What the string and primitive cases do after their sub-scanner has
returned `r >= 0`: `count++` and, in fill mode with `toksuper` set,
`nodes[toksuper].size++`. -/
def count_child (count : Int) (m : Mem) : Flow :=
  match m.nodes with
  | none => Flow.next (count + 1) m
  | some nodes =>
    if m.parser.toksuper ≠ -1 then
      match nodeAt nodes m.parser.toksuper with
      | none => Flow.stop Outcome.fault
      | some _ =>
        Flow.next (count + 1)
          { m with nodes := some (updNode (fun t => { t with size := t.size + 1 }) nodes
              m.parser.toksuper.toNat) }
    else Flow.next (count + 1) m

/-- The `switch` case for '"'. -/
def case_string (js : List Nat) (len : Nat) (nnodes : Nat) (count : Int) (m : Mem) : Flow :=
  match parse_string m js len nnodes with
  | Outcome.hang => Flow.stop Outcome.hang
  | Outcome.fault => Flow.stop Outcome.fault
  | Outcome.ret r m => if r < 0 then Flow.stop (Outcome.ret r m) else count_child count m

/-- The `switch` case for ','. -/
def case_comma (count : Int) (m : Mem) : Flow :=
  match m.nodes with
  | none => Flow.next count m
  | some nodes =>
    if m.parser.toksuper ≠ -1 then
      match nodeAt nodes m.parser.toksuper with
      | none => Flow.stop Outcome.fault
      | some t =>
        if t.type ≠ JX_ARRAY ∧ t.type ≠ JX_OBJECT then
          Flow.next count { m with parser := { m.parser with toksuper := t.parent } }
        else Flow.next count m
    else Flow.next count m

/-- The placement test of the primitive case: `some false` when it returns
`JX_INVAL`, `none` when `nodes[toksuper]` is outside the array. -/
def placed (m : Mem) : Option Bool :=
  match m.nodes with
  | none => some true
  | some nodes =>
    if m.parser.toksuper ≠ -1 then
      match nodeAt nodes m.parser.toksuper with
      | none => none
      | some t => some (!(t.type = JX_OBJECT ∨ (t.type = JX_STRING ∧ t.size ≠ 0)))
    else some true

/-- The `switch` case for '-', the digits, 't', 'f' and 'n'. -/
def case_primitive (js : List Nat) (len : Nat) (nnodes : Nat) (count : Int) (m : Mem) : Flow :=
  match placed m with
  | none => Flow.stop Outcome.fault
  | some false => Flow.stop (Outcome.ret JX_INVAL m)
  | some true =>
    match parse_primitive m js len nnodes with
    | Outcome.hang => Flow.stop Outcome.hang
    | Outcome.fault => Flow.stop Outcome.fault
    | Outcome.ret r m => if r < 0 then Flow.stop (Outcome.ret r m) else count_child count m

/-- The bytes that start a primitive: '-', a digit, 't', 'f', 'n'. -/
def isPrimStart (c : Nat) : Prop :=
  c = 45 ∨ (48 ≤ c ∧ c ≤ 57) ∨ c = 116 ∨ c = 102 ∨ c = 110

instance (c : Nat) : Decidable (isPrimStart c) := by
  unfold isPrimStart; infer_instance

/-- The body of the main loop of `parser_parse`: the `switch` on
`c = js[parser->pos]`. -/
def parse_step (js : List Nat) (len : Nat) (nnodes : Nat) (count : Int) (m : Mem) : Flow :=
  let c := byteAt js m.parser.pos
  if c = 123 ∨ c = 91 then case_open c nnodes count m              -- '{', '['
  else if c = 125 ∨ c = 93 then case_close c count m               -- '}', ']'
  else if c = 34 then case_string js len nnodes count m            -- '"'
  else if c = 9 ∨ c = 13 ∨ c = 10 ∨ c = 32 then Flow.next count m  -- tab, CR, LF, space
  else if c = 58 then                                              -- ':'
    Flow.next count { m with parser := { m.parser with toksuper := (m.parser.toknext : Int) - 1 } }
  else if c = 44 then case_comma count m                           -- ','
  else if isPrimStart c then case_primitive js len nnodes count m
  else Flow.stop (Outcome.ret JX_INVAL m)

/-- The loop after the main loop: `for (i = toknext - 1; i >= 0; i--)`, with
`n = i + 1`.  `some true`: a token with `start` set and `end` unset was met. -/
def unmatched (nodes : List jx_node) : Nat → Option Bool
  | 0 => some false
  | i + 1 =>
    match nodes[i]? with
    | none => none
    | some t => if t.start ≠ -1 ∧ t.end_ = -1 then some true else unmatched nodes i

/-- The part of `parser_parse` after the main loop. -/
def parse_finish (count : Int) (m : Mem) : Outcome :=
  match m.nodes with
  | none => Outcome.ret count m
  | some nodes =>
    match unmatched nodes m.parser.toknext with
    | none => Outcome.fault
    | some true => Outcome.ret JX_INVAL m
    | some false => Outcome.ret count m

/-- The `parser->pos++` of the main loop. -/
def bump (m : Mem) : Mem :=
  { m with parser := { m.parser with pos := m.parser.pos + 1 } }

/-- The main loop of `parser_parse` followed by the end-of-input check. -/
def parse_loop (js : List Nat) (len : Nat) (nnodes : Nat) : Nat → Int → Mem → Outcome
  | 0, count, m =>
    if m.parser.pos < len ∧ byteAt js m.parser.pos ≠ 0 then Outcome.hang
    else parse_finish count m
  | fuel + 1, count, m =>
    if m.parser.pos < len ∧ byteAt js m.parser.pos ≠ 0 then
      match parse_step js len nnodes count m with
      | Flow.stop o => o
      | Flow.next count m => parse_loop js len nnodes fuel count (bump m)
    else parse_finish count m

/-- `parser_parse`. -/
def parser_parse (parser : jx_parser_st) (len : Nat) (js : List Nat) (nnodes : Nat)
    (nodes : Option (List jx_node)) : Outcome :=
  parse_loop js len nnodes (len - parser.pos) (parser.toknext : Int)
    { parser := parser, nodes := nodes }


/-! ## Definitions used by the statements and proofs -/

/-- The search of `parse_string` for the closing quote on its own: the loop of
`string_loop` with the allocation at the quote left out. -/
def string_scan (js : List Nat) (len : Nat) : Nat → Nat → PrimScan
  | 0, pos => if pos < len ∧ byteAt js pos ≠ 0 then PrimScan.hang else PrimScan.inval
  | fuel + 1, pos =>
    if pos < len ∧ byteAt js pos ≠ 0 then
      if byteAt js pos = 34 then PrimScan.found pos
      else if byteAt js pos = 92 ∧ pos + 1 < len then
        match escape js len pos with
        | none => PrimScan.inval
        | some q => string_scan js len fuel (q + 1)
      else string_scan js len fuel (pos + 1)
    else PrimScan.inval

/-- What `parse_string` does once it stands on the closing quote at `q`. -/
def string_close (m : Mem) (num_tokens : Nat) (start q : Nat) : Outcome :=
  match m.nodes with
  | none => Outcome.ret 0 { m with parser := { m.parser with pos := q } }
  | some tokens =>
    match node_alloc { m.parser with pos := q } num_tokens tokens with
    | Alloc.null => Outcome.ret JX_NOMEM { m with parser := { m.parser with pos := start } }
    | Alloc.fault => Outcome.fault
    | Alloc.tok i parser tokens =>
      Outcome.ret 0
        { parser := parser,
          nodes := some (updNode
            (fun t => { fill_node t JX_STRING (start + 1) q with
                        parent := parser.toksuper }) tokens i) }

/-- The lexical view of one round of the main loop at `pos`, the same in count
and fill mode: the number of tokens the round counts and the `parser->pos` it
leaves (before the loop's `pos++`); `none` when the byte, the string or the
primitive at `pos` is refused. -/
def lex (js : List Nat) (len : Nat) (pos : Nat) : Option (Int × Nat) :=
  let c := byteAt js pos
  if c = 123 ∨ c = 91 then some (1, pos)
  else if c = 125 ∨ c = 93 then some (0, pos)
  else if c = 34 then
    match string_scan js len (len - (pos + 1)) (pos + 1) with
    | PrimScan.found q => some (1, q)
    | _ => none
  else if c = 9 ∨ c = 13 ∨ c = 10 ∨ c = 32 then some (0, pos)
  else if c = 58 then some (0, pos)
  else if c = 44 then some (0, pos)
  else if isPrimStart c then
    match primitive_loop js len (len - pos) pos with
    | PrimScan.found q => some (1, q - 1)
    | _ => none
  else none

/-- The byte that opens a container of the given kind. -/
def opener : jx_type → Nat
  | JX_OBJECT => 123
  | _ => 91

/-- The byte that closes a container of the given kind. -/
def closer : jx_type → Nat
  | JX_OBJECT => 125
  | _ => 93

/-- A written token is well formed against the input when the scanner stands
at `pos`: a container starts on its opening bracket before `pos` and, once
closed, ends right after the matching closing bracket; a string lies between
two quotes; a primitive is a run of printable non-delimiter bytes followed by a
delimiter, of the kind its first byte gives. -/
def TokOK (js : List Nat) (len pos : Nat) (t : jx_node) : Prop :=
  ((t.type = JX_OBJECT ∨ t.type = JX_ARRAY) ∧
    0 ≤ t.start ∧ t.start < (pos : Int) ∧ byteAt js t.start.toNat = opener t.type ∧
      (t.end_ = -1 ∨ (t.start < t.end_ ∧ byteAt js (t.end_ - 1).toNat = closer t.type))) ∨
  (t.type = JX_STRING ∧
    1 ≤ t.start ∧ t.start ≤ t.end_ ∧ t.end_ < (len : Int) ∧
      byteAt js (t.start - 1).toNat = 34 ∧ byteAt js t.end_.toNat = 34) ∨
  ((t.type = JX_NUMBER ∨ t.type = JX_BOOL ∨ t.type = JX_NULL) ∧
    0 ≤ t.start ∧ t.start < t.end_ ∧ t.end_ < (len : Int) ∧
      (∀ j : Nat, t.start ≤ (j : Int) → (j : Int) < t.end_ →
        32 ≤ byteAt js j ∧ byteAt js j ≤ 126 ∧ isDelim (byteAt js j) = false) ∧
      isDelim (byteAt js t.end_.toNat) = true ∧
      primitive_type (byteAt js t.start.toNat) = some t.type)

/-- The invariant of the main loop in fill mode, at the loop head: `count`
is `toknext`; `toknext` is within the array; `toksuper` is -1 or the index of a
written token; every written token has its parent before it and is well
formed; the array has `L` entries. -/
def Inv (js : List Nat) (len L : Nat) (count : Int) (m : Mem) : Prop :=
  ∃ ns, m.nodes = some ns ∧ count = (m.parser.toknext : Int) ∧
    m.parser.toknext ≤ ns.length ∧
    -1 ≤ m.parser.toksuper ∧ m.parser.toksuper < (m.parser.toknext : Int) ∧
    (∀ i, i < m.parser.toknext → ∃ t, ns[i]? = some t ∧
      -1 ≤ t.parent ∧ t.parent < (i : Int) ∧ TokOK js len m.parser.pos t) ∧
    ns.length = L

/-- The bytes at which a token starts: '{', '[', '"' and the first byte of a
primitive. -/
def tokenStart (c : Nat) : Prop :=
  c = 123 ∨ c = 91 ∨ c = 34 ∨ isPrimStart c

instance (c : Nat) : Decidable (tokenStart c) := by
  unfold tokenStart; infer_instance

/-- How a round that scans a token links it: the token gets the index
`toknext` had, its parent is the `toksuper` of before, its size 0; the token
`toksuper` referred to has its size incremented and is otherwise as it was;
the other written tokens are as they were. -/
def Linked (m m' : Mem) : Prop :=
  ∃ toks toks' t, m.nodes = some toks ∧ m'.nodes = some toks' ∧
    m'.parser.toknext = m.parser.toknext + 1 ∧
    toks'[m.parser.toknext]? = some t ∧ t.parent = m.parser.toksuper ∧ t.size = 0 ∧
    (∀ (s : Nat) (ts : jx_node), (s : Int) = m.parser.toksuper → toks[s]? = some ts →
      toks'[s]? = some { ts with size := ts.size + 1 }) ∧
    (∀ (j : Nat) (tj : jx_node), j < m.parser.toknext → (j : Int) ≠ m.parser.toksuper →
      toks[j]? = some tj → toks'[j]? = some tj)

/-- What one round of the main loop may come to, in fill mode from a state
`m` in which the invariant holds: a `break` agrees with the lexical view and
keeps the invariant, and links the token it scans, if any; a return is `JX_INVAL`, or `JX_NOMEM` with nothing
changed and `toknext` at the capacity; a fault needs an array shorter than
the capacity; the round always ends. -/
def StepOK (js : List Nat) (len L nnodes : Nat) (c : Int) (m : Mem) : Flow → Prop
  | Flow.next c' m' =>
    (∃ d, lex js len m.parser.pos = some (d, m'.parser.pos) ∧ c' = c + d) ∧
      m'.parser.bits = m.parser.bits ∧ m'.parser.nnodes = m.parser.nnodes ∧
      (tokenStart (byteAt js m.parser.pos) → Linked m m') ∧
      Inv js len L c' (bump m')
  | Flow.stop (Outcome.ret r m') =>
    r = JX_INVAL ∨
      (r = JX_NOMEM ∧ m' = m ∧ nnodes ≤ m.parser.toknext ∧
        ∃ p, lex js len m.parser.pos = some (1, p))
  | Flow.stop Outcome.fault => L < nnodes
  | Flow.stop Outcome.hang => False

/-- What one round of the main loop may come to, from any state and in either
mode: a `break` agrees with the lexical view, adds what it counts to `count`,
allocates at most one token (and only below the capacity) and keeps the mode;
a return is `JX_INVAL`, or `JX_NOMEM` at a token start with nothing changed
and `toknext` at or above the capacity. -/
def StepGen (js : List Nat) (len nnodes : Nat) (c : Int) (m : Mem) : Flow → Prop
  | Flow.next c' m' =>
    (∃ d, lex js len m.parser.pos = some (d, m'.parser.pos) ∧ c' = c + d) ∧
      (m'.parser.toknext = m.parser.toknext ∨
        (m.parser.toknext < nnodes ∧ m'.parser.toknext = m.parser.toknext + 1)) ∧
      (m.nodes = none ↔ m'.nodes = none)
  | Flow.stop (Outcome.ret r m') =>
    r = JX_INVAL ∨
      (r = JX_NOMEM ∧ m' = m ∧ nnodes ≤ m.parser.toknext ∧
        tokenStart (byteAt js m.parser.pos) ∧ ∃ p, lex js len m.parser.pos = some (1, p))
  | Flow.stop Outcome.fault => True
  | Flow.stop Outcome.hang => True

/-- The loop-head states of the main loop: `Rounds js len nnodes c m c' m'`
when, started at the loop head with `count = c` and memory `m`, the loop
stands at the loop head with `count = c'` and memory `m'` after some number
of completed rounds (each one a `break` out of the `switch` followed by
`pos++`). -/
inductive Rounds (js : List Nat) (len nnodes : Nat) (c : Int) (m : Mem) : Int → Mem → Prop
  | refl : Rounds js len nnodes c m c m
  | step (c1 : Int) (m1 : Mem) (c2 : Int) (m2 : Mem) :
      Rounds js len nnodes c m c1 m1 →
      (m1.parser.pos < len ∧ byteAt js m1.parser.pos ≠ 0) →
      parse_step js len nnodes c1 m1 = Flow.next c2 m2 →
      Rounds js len nnodes c m c2 (bump m2)

/-- Index safety of a parser state over a token array, for a capacity: the
array holds at least `nnodes` entries, `toknext` is within the capacity,
`toksuper` is -1 or the index of a written token, and every written token has
its parent before it, that parent being -1 or the index of a written token;
and a written token whose parent is of kind Object is a String. -/
def Safe (nnodes : Nat) (parser : jx_parser_st) (ns : List jx_node) : Prop :=
  nnodes ≤ ns.length ∧ parser.toknext ≤ nnodes ∧
    -1 ≤ parser.toksuper ∧ parser.toksuper < (parser.toknext : Int) ∧
    ∀ i, i < parser.toknext → ∃ t, ns[i]? = some t ∧
      -1 ≤ t.parent ∧ t.parent < (i : Int) ∧
      ∀ tp, 0 ≤ t.parent → ns[t.parent.toNat]? = some tp → tp.type = JX_OBJECT →
        t.type = JX_STRING

/-- `Safe` for a memory in fill mode. -/
def MemSafe (nnodes : Nat) (m : Mem) : Prop :=
  ∃ ns, m.nodes = some ns ∧ Safe nnodes m.parser ns

/-- What one round of the main loop comes to from an index-safe memory in fill
mode: it ends, without a fault, and whether it ends by `break` or by a return
the memory it leaves is index-safe. -/
def StepSafe (nnodes : Nat) : Flow → Prop
  | Flow.next _ m' => MemSafe nnodes m'
  | Flow.stop (Outcome.ret _ m') => MemSafe nnodes m'
  | Flow.stop Outcome.fault => False
  | Flow.stop Outcome.hang => False

/-- The states a caller can hold for a token array of capacity `nnodes`: the
state `parser_init` makes, over any array of at least `nnodes` entries, and
every state a call of `parser_parse` leaves, in fill mode (on that array) or
in count mode, whatever the buffer, its length and the result of the call. -/
inductive Reach (nnodes : Nat) : jx_parser_st → List jx_node → Prop
  | init (bits : Int) (ns : List jx_node) : nnodes ≤ ns.length →
      Reach nnodes (parser_init bits) ns
  | fill (parser : jx_parser_st) (ns : List jx_node) (len : Nat) (js : List Nat) (r : Int)
      (parser' : jx_parser_st) (ns' : List jx_node) :
      Reach nnodes parser ns →
      parser_parse parser len js nnodes (some ns) =
        Outcome.ret r { parser := parser', nodes := some ns' } →
      Reach nnodes parser' ns'
  | count (parser : jx_parser_st) (ns : List jx_node) (len : Nat) (js : List Nat)
      (nnodes0 : Nat) (r : Int) (parser' : jx_parser_st) :
      Reach nnodes parser ns →
      parser_parse parser len js nnodes0 none =
        Outcome.ret r { parser := parser', nodes := none } →
      Reach nnodes parser' ns

/-! ### Concrete inputs -/

/-- An array entry as a caller may leave it. -/
def blank : jx_node :=
  { type := JX_NULL, start := 0, end_ := 0, size := 0, parent := 0 }

/-- The 15 bytes `{"a":1,"b":"x"}`. -/
def in_members : List Nat :=
  [123, 34, 97, 34, 58, 49, 44, 34, 98, 34, 58, 34, 120, 34, 125]

/-- The tokens of `{"a":1,"b":"x"}`. -/
def toks_members : List jx_node :=
  [{ type := JX_OBJECT, start := 0, end_ := 15, size := 2, parent := -1 },
   { type := JX_STRING, start := 2, end_ := 3, size := 1, parent := 0 },
   { type := JX_NUMBER, start := 5, end_ := 6, size := 0, parent := 1 },
   { type := JX_STRING, start := 8, end_ := 9, size := 1, parent := 0 },
   { type := JX_STRING, start := 12, end_ := 13, size := 0, parent := 3 }]

/-- The memory after `{"a":1,"b":"x"}` has been scanned into five entries. -/
def mem_members : Mem :=
  { parser := { bits := 0, nnodes := 0, pos := 15, toknext := 5, toksuper := -1 },
    nodes := some toks_members }

/-- The memory after `{"a":1,"b":"x"}` has been scanned in count mode. -/
def mem_members_count : Mem :=
  { parser := { bits := 0, nnodes := 0, pos := 15, toknext := 0, toksuper := -1 },
    nodes := none }

/-- The 7 bytes `[1] [2]`. -/
def in_two_arrays : List Nat := [91, 49, 93, 32, 91, 50, 93]

/-- The memory after the first 3 bytes of `[1] [2]` have been scanned into
four entries. -/
def mem_first_array : Mem :=
  { parser := { bits := 0, nnodes := 0, pos := 3, toknext := 2, toksuper := -1 },
    nodes := some
      [{ type := JX_ARRAY, start := 0, end_ := 3, size := 1, parent := -1 },
       { type := JX_NUMBER, start := 1, end_ := 2, size := 0, parent := 0 },
       blank, blank] }

/-- The 6 bytes `{"a":1`. -/
def in_unclosed : List Nat := [123, 34, 97, 34, 58, 49]

/-- The memory in which the scan of `{"a":1,"b":"x"}` into four entries
stops, at the opening quote of `"x"` (offset 11). -/
def mem_members_full : Mem :=
  { parser := { bits := 0, nnodes := 0, pos := 11, toknext := 4, toksuper := 3 },
    nodes := some
      [{ type := JX_OBJECT, start := 0, end_ := -1, size := 2, parent := -1 },
       { type := JX_STRING, start := 2, end_ := 3, size := 1, parent := 0 },
       { type := JX_NUMBER, start := 5, end_ := 6, size := 0, parent := 1 },
       { type := JX_STRING, start := 8, end_ := 9, size := 0, parent := 0 }] }

/-- The 4 bytes `[]:]`. -/
def in_stray_close : List Nat := [91, 93, 58, 93]

/-- The 4 bytes `null`. -/
def in_null : List Nat := [110, 117, 108, 108]

/-- The 5 bytes `null` and a line feed. -/
def in_null_lf : List Nat := [110, 117, 108, 108, 10]

/-- The 6 bytes `{"k":}`. -/
def in_missing_value : List Nat := [123, 34, 107, 34, 58, 125]

/-- The 14 bytes `{"a":"x""b":2}`: two members with no comma between them. -/
def in_no_comma : List Nat := [123, 34, 97, 34, 58, 34, 120, 34, 34, 98, 34, 58, 50, 125]

/-- The memory at the loop head of the scan of `{"a":1,"b":"x"}` into five
entries when the scanner reaches the `1` (offset 5), after the key `"a"` and
the `:`. -/
def mem_at_value : Mem :=
  { parser := { bits := 0, nnodes := 0, pos := 5, toknext := 2, toksuper := 1 },
    nodes := some
      [{ type := JX_OBJECT, start := 0, end_ := -1, size := 1, parent := -1 },
       { type := JX_STRING, start := 2, end_ := 3, size := 0, parent := 0 },
       blank, blank, blank] }

/-- The memory the round for that `1` leaves. -/
def mem_after_value : Mem :=
  { parser := { bits := 0, nnodes := 0, pos := 5, toknext := 3, toksuper := 1 },
    nodes := some
      [{ type := JX_OBJECT, start := 0, end_ := -1, size := 1, parent := -1 },
       { type := JX_STRING, start := 2, end_ := 3, size := 1, parent := 0 },
       { type := JX_NUMBER, start := 5, end_ := 6, size := 0, parent := 1 },
       blank, blank] }

/-- The 5 bytes `1 1 1`. -/
def in_ones : List Nat := [49, 32, 49, 32, 49]

/-- The memory after the first 4 bytes of `1 1 1` have been scanned into two
entries. -/
def mem_ones : Mem :=
  { parser := { bits := 0, nnodes := 0, pos := 4, toknext := 2, toksuper := -1 },
    nodes := some
      [{ type := JX_NUMBER, start := 0, end_ := 1, size := 0, parent := -1 },
       { type := JX_NUMBER, start := 2, end_ := 3, size := 0, parent := -1 }] }

/-- The 5 bytes `{1:2}`. -/
def in_bare_key : List Nat := [123, 49, 58, 50, 125]

/-- The memory at the loop head of the scan of `{1:2}` into three entries when
the scanner reaches the `1` (offset 1), after the `{`. -/
def mem_bare_key : Mem :=
  { parser := { bits := 0, nnodes := 0, pos := 1, toknext := 1, toksuper := 0 },
    nodes := some
      [{ type := JX_OBJECT, start := 0, end_ := -1, size := 0, parent := -1 }, blank, blank] }

/-- The 2 bytes `{{`. -/
def in_two_open : List Nat := [123, 123]

/-- The bytes a backslash may stand before, `u` apart:
'"', '/', '\', 'b', 'f', 'r', 'n', 't'. -/
def simpleEscape (c : Nat) : Prop :=
  c = 34 ∨ c = 47 ∨ c = 92 ∨ c = 98 ∨ c = 102 ∨ c = 114 ∨ c = 110 ∨ c = 116

instance (c : Nat) : Decidable (simpleEscape c) := by
  unfold simpleEscape; infer_instance

/-- The rest of a string literal, from offset `p` on, is bad or incomplete.
This follows the words of the specification, not the code: the literal has no
closing quote before the end of the input (the length, or a NUL byte); or,
after plain bytes and complete escapes, it holds a backslash followed by a byte
that is none of '"', '\', '/', 'b', 'f', 'n', 'r', 't', 'u'; or a `\u` followed
by fewer than four hexadecimal digits before a non-hexadecimal byte or the end
of the input. -/
inductive BadString (js : List Nat) (len : Nat) : Nat → Prop
  | unclosed (p : Nat) : ¬ (p < len ∧ byteAt js p ≠ 0) → BadString js len p
  | plain (p : Nat) : (p < len ∧ byteAt js p ≠ 0) → byteAt js p ≠ 34 → byteAt js p ≠ 92 →
      BadString js len (p + 1) → BadString js len p
  | last_backslash (p : Nat) : p < len → byteAt js p = 92 → len ≤ p + 1 → BadString js len p
  | bad_escape (p : Nat) : byteAt js p = 92 → p + 1 < len →
      ¬ simpleEscape (byteAt js (p + 1)) → byteAt js (p + 1) ≠ 117 → BadString js len p
  | escaped (p : Nat) : byteAt js p = 92 → p + 1 < len → simpleEscape (byteAt js (p + 1)) →
      BadString js len (p + 2) → BadString js len p
  | short_unicode (p k : Nat) : byteAt js p = 92 → p + 1 < len → byteAt js (p + 1) = 117 →
      k < 4 → (∀ i, i < k → p + 2 + i < len ∧ isHex (byteAt js (p + 2 + i)) = true) →
      p + 2 + k < len → byteAt js (p + 2 + k) ≠ 0 → isHex (byteAt js (p + 2 + k)) = false →
      BadString js len p
  | unicode (p k : Nat) : byteAt js p = 92 → p + 1 < len → byteAt js (p + 1) = 117 →
      k ≤ 4 → (∀ i, i < k → p + 2 + i < len ∧ isHex (byteAt js (p + 2 + i)) = true) →
      (k < 4 → ¬ (p + 2 + k < len ∧ byteAt js (p + 2 + k) ≠ 0)) →
      BadString js len (p + 2 + k) → BadString js len p

/-- The 8 bytes `"ab\u00"`. -/
def in_bad_escape : List Nat := [34, 97, 98, 92, 117, 48, 48, 34]

/-- The bytes of `seg` stand in the buffer `js` from offset `p` on. -/
def SegAt (js : List Nat) (p : Nat) (seg : List Nat) : Prop :=
  ∀ i, i < seg.length → byteAt js (p + i) = byteAt seg i

/-- The literals of a list written one after the other with a ',' between
them: `p1,p2,...,pn`. -/
def commaSep : List (List Nat) → List Nat
  | [] => []
  | [l] => l
  | l :: l' :: ls => l ++ 44 :: commaSep (l' :: ls)

/-- The input `[p1,p2,...,pn]`. -/
def in_array (lits : List (List Nat)) : List Nat := 91 :: (commaSep lits ++ [93])

/-- The input `[p1,p2,...,pn,]`, with a ',' before the closing bracket. -/
def in_array_comma (lits : List (List Nat)) : List Nat := 91 :: (commaSep lits ++ [44, 93])

/-- The Array token that starts at offset 0, with no parent. -/
def arrayTok (end_ size : Int) : jx_node :=
  { type := JX_ARRAY, start := 0, end_ := end_, size := size, parent := -1 }

/-- The Number token of the literal `l` that stands at offset `p` and is an
element of token 0. -/
def numTok (p : Nat) (l : List Nat) : jx_node :=
  { type := JX_NUMBER, start := (p : Int), end_ := ((p + l.length : Nat) : Int), size := 0,
    parent := 0 }

/-- The Number tokens of the literals of `p1,p2,...,pn` standing from offset
`p` on, in input order. -/
def numTokens : Nat → List (List Nat) → List jx_node
  | _, [] => []
  | p, l :: ls => numTok p l :: numTokens (p + l.length + 1) ls

/-- The 4 bytes `[1,]`. -/
def in_trailing_comma : List Nat := [91, 49, 44, 93]

/-- The 8 bytes `{"a":1,}`. -/
def in_trailing_member : List Nat := [123, 34, 97, 34, 58, 49, 44, 125]

/-- The 12 bytes `{"a":"b""c"}`: a key followed by two string values. -/
def in_two_values : List Nat := [123, 34, 97, 34, 58, 34, 98, 34, 34, 99, 34, 125]

/-- The 10 bytes `{"a":"b"1}`: a key followed by a string value and a number. -/
def in_value_number : List Nat := [123, 34, 97, 34, 58, 34, 98, 34, 49, 125]

/-- A token is open: its `start` is set and its `end` is not. -/
def isOpen (t : jx_node) : Prop := t.start ≠ -1 ∧ t.end_ = -1

instance (t : jx_node) : Decidable (isOpen t) := by
  unfold isOpen; infer_instance

/-- A token is an Object or an Array. -/
def isContainer (t : jx_node) : Prop := t.type = JX_OBJECT ∨ t.type = JX_ARRAY

instance (t : jx_node) : Decidable (isContainer t) := by
  unfold isContainer; infer_instance

/-- The chain of parents from index `i` runs to -1 through tokens that are
open or are no containers (String or primitive tokens). -/
inductive GoodChain (ns : List jx_node) : Int → Prop
  | root : GoodChain ns (-1)
  | link (i : Int) (t : jx_node) : nodeAt ns i = some t → (isOpen t ∨ ¬ isContainer t) →
      GoodChain ns t.parent → GoodChain ns i

/-- The chain of parents from index `i` reaches `s` through tokens that are
not open: the path the walk of the closing-bracket case takes. -/
inductive Via (ns : List jx_node) : Int → Int → Prop
  | refl (i : Int) : Via ns i i
  | up (i : Int) (t : jx_node) (s : Int) : nodeAt ns i = some t → ¬ isOpen t →
      Via ns t.parent s → Via ns i s

/-- The loop stands right after a String or primitive token: the token
allocated last is no container and `toksuper` is still its parent. -/
def AfterScalar (m : Mem) : Prop :=
  match m.nodes with
  | none => False
  | some ns =>
    match nodeAt ns ((m.parser.toknext : Int) - 1) with
    | none => False
    | some t => ¬ isContainer t ∧ t.parent = m.parser.toksuper

instance (m : Mem) : Decidable (AfterScalar m) := by
  unfold AfterScalar
  split
  · infer_instance
  · split <;> infer_instance

/-- The loop-head states of a run in which every ':' comes right after a String
or primitive token: `Rounds` with that condition on the rounds for ':'. -/
inductive KeyRounds (js : List Nat) (len nnodes : Nat) (c : Int) (m : Mem) : Int → Mem → Prop
  | refl : KeyRounds js len nnodes c m c m
  | step (c1 : Int) (m1 : Mem) (c2 : Int) (m2 : Mem) :
      KeyRounds js len nnodes c m c1 m1 →
      (m1.parser.pos < len ∧ byteAt js m1.parser.pos ≠ 0) →
      parse_step js len nnodes c1 m1 = Flow.next c2 m2 →
      (byteAt js m1.parser.pos = 58 → AfterScalar m1) →
      KeyRounds js len nnodes c m c2 (bump m2)

/-- The nesting discipline of a parser state over a token array: a written
token that is open is a container; the chain of parents from `toksuper` runs
through tokens that are open or no containers; and the chain of parents from
the token allocated last reaches `toksuper` through tokens that are not open. -/
def Chained (parser : jx_parser_st) (ns : List jx_node) : Prop :=
  (∀ i t, i < parser.toknext → ns[i]? = some t → isOpen t → isContainer t) ∧
    GoodChain ns parser.toksuper ∧
    Via ns ((parser.toknext : Int) - 1) parser.toksuper

/-- What a round that ends by `break` leaves, in fill mode: a memory that
keeps the nesting discipline. -/
def StepChained : Flow → Prop
  | Flow.next _ m' => ∃ ns', m'.nodes = some ns' ∧ Chained m'.parser ns'
  | Flow.stop _ => True

/-- The memory `m'` has the `toksuper` of `m`, and the token array of `m` but
for the entry at `toknext`. -/
def SameSuper (m m' : Mem) : Prop :=
  m'.parser.toksuper = m.parser.toksuper ∧
    ∀ ns, m.nodes = some ns →
      ∃ ns', m'.nodes = some ns' ∧ ∀ i, i ≠ m.parser.toknext → ns'[i]? = ns[i]?

/-- The 3 bytes `[]:`. -/
def in_closed_colon : List Nat := [91, 93, 58]

/-! ## Theorems -/

theorem length_updNode (f : jx_node → jx_node) (ns : List jx_node) (i : Nat) :
    (updNode f ns i).length = ns.length := by
  induction ns generalizing i with
  | nil => simp [updNode]
  | cons t ts ih => cases i <;> simp [updNode, ih]

theorem getElem?_updNode (f : jx_node → jx_node) (ns : List jx_node) (i j : Nat) :
    (updNode f ns i)[j]? = if j = i then (ns[j]?).map f else ns[j]? := by
  induction ns generalizing i j with
  | nil => simp [updNode]
  | cons t ts ih =>
    cases i with
    | zero => cases j <;> simp [updNode]
    | succ i => cases j <;> simp [updNode, ih]

theorem nodeAt_updNode (f : jx_node → jx_node) (ns : List jx_node) (i : Nat) (j : Int) :
    nodeAt (updNode f ns i) j = if j = (i : Int) then (nodeAt ns j).map f else nodeAt ns j := by
  unfold nodeAt
  by_cases hj : j < 0
  · have : j ≠ (i : Int) := by omega
    simp [hj, this]
  · simp only [hj, if_false, getElem?_updNode]
    have : (j.toNat = i) ↔ (j = (i : Int)) := by omega
    simp only [this]

theorem nodeAt_natCast (ns : List jx_node) (i : Nat) : nodeAt ns (i : Int) = ns[i]? := by
  simp [nodeAt]

/-! ### The primitive loop -/

theorem primitive_loop_found (js : List Nat) (len : Nat) :
    ∀ fuel pos q, primitive_loop js len fuel pos = PrimScan.found q →
      pos ≤ q ∧ q < len ∧ isDelim (byteAt js q) = true ∧
      ∀ j, pos ≤ j → j < q →
        isDelim (byteAt js j) = false ∧ 32 ≤ byteAt js j ∧ byteAt js j < 127 := by
  intro fuel
  induction fuel with
  | zero =>
    intro pos q h
    simp only [primitive_loop] at h
    split at h <;> simp at h
  | succ n ih =>
    intro pos q h
    simp only [primitive_loop] at h
    split at h
    · rename_i hc
      split at h
      · rename_i hd
        injection h with h
        subst h
        exact ⟨le_refl _, hc.1, hd, fun j h1 h2 => by omega⟩
      · rename_i hd
        split at h
        · simp at h
        · rename_i hr
          obtain ⟨h1, h2, h3, h4⟩ := ih _ _ h
          refine ⟨by omega, h2, h3, fun j hj1 hj2 => ?_⟩
          by_cases hj : j = pos
          · subst hj
            refine ⟨by simpa using hd, by omega, by omega⟩
          · exact h4 j (by omega) hj2
    · simp at h

theorem primitive_loop_no_hang (js : List Nat) (len : Nat) :
    ∀ fuel pos, len - pos ≤ fuel → primitive_loop js len fuel pos ≠ PrimScan.hang := by
  intro fuel
  induction fuel with
  | zero =>
    intro pos h
    have : ¬ pos < len := by omega
    simp [primitive_loop, this]
  | succ n ih =>
    intro pos h
    simp only [primitive_loop]
    split
    · split
      · simp
      · split
        · simp
        · exact ih _ (by omega)
    · simp

theorem primitive_loop_fuel (js : List Nat) (len : Nat) :
    ∀ f1 f2 pos, len - pos ≤ f1 → len - pos ≤ f2 →
      primitive_loop js len f1 pos = primitive_loop js len f2 pos := by
  intro f1
  induction f1 with
  | zero =>
    intro f2 pos h1 h2
    have : ¬ pos < len := by omega
    cases f2 <;> simp [primitive_loop, this]
  | succ n ih =>
    intro f2 pos h1 h2
    cases f2 with
    | zero =>
      have : ¬ pos < len := by omega
      simp [primitive_loop, this]
    | succ k =>
      simp only [primitive_loop]
      split
      · split
        · rfl
        · split
          · rfl
          · exact ih _ _ (by omega) (by omega)
      · rfl

/-- A primitive found within the first `k` bytes is found, at the same place,
within any longer prefix and with any larger fuel. -/
theorem primitive_loop_len_mono (js : List Nat) (k L : Nat) (hkL : k ≤ L) :
    ∀ fuel fuel' pos q, fuel ≤ fuel' → primitive_loop js k fuel pos = PrimScan.found q →
      primitive_loop js L fuel' pos = PrimScan.found q := by
  intro fuel
  induction fuel with
  | zero =>
    intro fuel' pos q _ h
    simp only [primitive_loop] at h
    split at h <;> simp at h
  | succ n ih =>
    intro fuel' pos q hf h
    obtain ⟨n', rfl⟩ : ∃ n', fuel' = n' + 1 := ⟨fuel' - 1, by omega⟩
    simp only [primitive_loop] at h ⊢
    split at h
    · rename_i hc
      have hc2 : pos < L ∧ byteAt js pos ≠ 0 := ⟨by omega, hc.2⟩
      rw [if_pos hc2]
      split at h
      · rename_i hd
        rw [if_pos hd]; exact h
      · rename_i hd
        rw [if_neg hd]
        split at h
        · simp at h
        · rename_i hr
          rw [if_neg hr]
          exact ih _ _ _ (by omega) h
    · simp at h

/-! ### The string loop -/

theorem hex_loop_ge (js : List Nat) (len : Nat) :
    ∀ n pos q, hex_loop js len n pos = some q → pos ≤ q := by
  intro n
  induction n with
  | zero => intro pos q h; simp [hex_loop] at h; omega
  | succ n ih =>
    intro pos q h
    simp only [hex_loop] at h
    split at h
    · split at h
      · have := ih _ _ h; omega
      · simp at h
    · simp at h; omega

theorem hex_loop_len_mono (js : List Nat) (k L : Nat) (hkL : k ≤ L) :
    ∀ n pos q, hex_loop js k n pos = some q → q < k → hex_loop js L n pos = some q := by
  intro n
  induction n with
  | zero => intro pos q h _; simpa [hex_loop] using h
  | succ n ih =>
    intro pos q h hq
    simp only [hex_loop] at h ⊢
    split at h
    · rename_i hc
      rw [if_pos ⟨by omega, hc.2⟩]
      split at h
      · rename_i hx
        rw [if_pos hx]; exact ih _ _ h hq
      · simp at h
    · rename_i hc
      simp only [Option.some.injEq] at h
      subst h
      have hb : byteAt js pos = 0 := by
        by_contra hb
        exact hc ⟨hq, hb⟩
      simp [hb]

theorem escape_gt (js : List Nat) (len pos q : Nat) (h : escape js len pos = some q) :
    pos < q := by
  unfold escape at h
  simp only at h
  split at h
  · simp at h; omega
  · split at h
    · split at h
      · simp at h
      · rename_i q' hq
        have := hex_loop_ge _ _ _ _ _ hq
        simp at h; omega
    · simp at h

theorem escape_len_mono (js : List Nat) (k L pos q : Nat) (hkL : k ≤ L)
    (h : escape js k pos = some q) (hq : q + 1 < k) : escape js L pos = some q := by
  unfold escape at h ⊢
  simp only at h ⊢
  split at h
  · rename_i hc
    rw [if_pos hc]; exact h
  · rename_i hc
    rw [if_neg hc]
    split at h
    · rename_i hu
      rw [if_pos hu]
      split at h
      · simp at h
      · rename_i q' hq'
        have hge := hex_loop_ge _ _ _ _ _ hq'
        simp only [Option.some.injEq] at h
        have : hex_loop js L 4 (pos + 2) = some q' :=
          hex_loop_len_mono js k L hkL _ _ _ hq' (by omega)
        rw [this]; simp [h]
    · simp at h

theorem string_loop_eq (m : Mem) (js : List Nat) (len num_tokens start : Nat) :
    ∀ fuel pos, string_loop m js len num_tokens start fuel pos =
      match string_scan js len fuel pos with
      | PrimScan.hang => Outcome.hang
      | PrimScan.inval =>
        Outcome.ret JX_INVAL { m with parser := { m.parser with pos := start } }
      | PrimScan.found q => string_close m num_tokens start q := by
  intro fuel
  induction fuel with
  | zero =>
    intro pos
    simp only [string_loop, string_scan]
    split <;> rfl
  | succ n ih =>
    intro pos
    simp only [string_loop, string_scan]
    split
    · split
      · simp only [string_close]
      · split
        · cases hE : escape js len pos with
          | none => rfl
          | some q => simp only [ih]
        · exact ih _
    · rfl

theorem string_scan_found (js : List Nat) (len : Nat) :
    ∀ fuel pos q, string_scan js len fuel pos = PrimScan.found q →
      pos ≤ q ∧ q < len ∧ byteAt js q = 34 := by
  intro fuel
  induction fuel with
  | zero =>
    intro pos q h
    simp only [string_scan] at h
    split at h <;> simp at h
  | succ n ih =>
    intro pos q h
    simp only [string_scan] at h
    split at h
    · rename_i hc
      split at h
      · rename_i hq
        injection h with h
        subst h
        exact ⟨le_refl _, hc.1, hq⟩
      · split at h
        · split at h
          · simp at h
          · rename_i e he
            have := escape_gt _ _ _ _ he
            obtain ⟨h1, h2, h3⟩ := ih _ _ h
            exact ⟨by omega, h2, h3⟩
        · obtain ⟨h1, h2, h3⟩ := ih _ _ h
          exact ⟨by omega, h2, h3⟩
    · simp at h

theorem string_scan_no_hang (js : List Nat) (len : Nat) :
    ∀ fuel pos, len - pos ≤ fuel → string_scan js len fuel pos ≠ PrimScan.hang := by
  intro fuel
  induction fuel with
  | zero =>
    intro pos h
    have : ¬ pos < len := by omega
    simp [string_scan, this]
  | succ n ih =>
    intro pos h
    simp only [string_scan]
    split
    · split
      · simp
      · split
        · split
          · simp
          · rename_i e he
            have := escape_gt _ _ _ _ he
            exact ih _ (by omega)
        · exact ih _ (by omega)
    · simp

theorem string_scan_fuel (js : List Nat) (len : Nat) :
    ∀ f1 f2 pos, len - pos ≤ f1 → len - pos ≤ f2 →
      string_scan js len f1 pos = string_scan js len f2 pos := by
  intro f1
  induction f1 with
  | zero =>
    intro f2 pos h1 h2
    have : ¬ pos < len := by omega
    cases f2 <;> simp [string_scan, this]
  | succ n ih =>
    intro f2 pos h1 h2
    cases f2 with
    | zero =>
      have : ¬ pos < len := by omega
      simp [string_scan, this]
    | succ k =>
      simp only [string_scan]
      split
      · split
        · rfl
        · split
          · split
            · rfl
            · rename_i e he
              have := escape_gt _ _ _ _ he
              exact ih _ _ (by omega) (by omega)
          · exact ih _ _ (by omega) (by omega)
      · rfl

/-- A closing quote found within the first `k` bytes is found, at the same
place, within any longer prefix and with any larger fuel. -/
theorem string_scan_len_mono (js : List Nat) (k L : Nat) (hkL : k ≤ L) :
    ∀ fuel fuel' pos q, fuel ≤ fuel' → string_scan js k fuel pos = PrimScan.found q →
      string_scan js L fuel' pos = PrimScan.found q := by
  intro fuel
  induction fuel with
  | zero =>
    intro fuel' pos q _ h
    simp only [string_scan] at h
    split at h <;> simp at h
  | succ n ih =>
    intro fuel' pos q hf h
    obtain ⟨n', rfl⟩ : ∃ n', fuel' = n' + 1 := ⟨fuel' - 1, by omega⟩
    simp only [string_scan] at h ⊢
    split at h
    · rename_i hc
      rw [if_pos ⟨by omega, hc.2⟩]
      split at h
      · rename_i hq
        rw [if_pos hq]; exact h
      · rename_i hq
        rw [if_neg hq]
        split at h
        · rename_i hb
          rw [if_pos ⟨hb.1, by omega⟩]
          split at h
          · simp at h
          · rename_i e he
            have hf' := string_scan_found _ _ _ _ _ h
            rw [escape_len_mono js k L pos e hkL he (by omega)]
            exact ih _ _ _ (by omega) h
        · rename_i hb
          have hf' := string_scan_found _ _ _ _ _ h
          have : ¬ (byteAt js pos = 92 ∧ pos + 1 < L) := by
            intro hb2
            exact hb ⟨hb2.1, by omega⟩
          rw [if_neg this]
          exact ih _ _ _ (by omega) h
    · simp at h

theorem parse_string_eq (m : Mem) (js : List Nat) (len num_tokens : Nat) :
    parse_string m js len num_tokens =
      match string_scan js len (len - (m.parser.pos + 1)) (m.parser.pos + 1) with
      | PrimScan.hang => Outcome.hang
      | PrimScan.inval => Outcome.ret JX_INVAL m
      | PrimScan.found q => string_close m num_tokens m.parser.pos q := by
  unfold parse_string
  simp only [string_loop_eq]

/-! ### The closing-bracket walk -/

theorem close_walk_state (parser : jx_parser_st) (ns : List jx_node) (type : jx_type)
    (c : Int) : ∀ fuel i,
    (∀ c' m', close_walk parser ns type c fuel i = Flow.next c' m' →
      c' = c ∧ m'.parser.pos = parser.pos ∧ m'.parser.toknext = parser.toknext ∧
      ∃ ns', m'.nodes = some ns' ∧ ns'.length = ns.length) ∧
    (∀ r m', close_walk parser ns type c fuel i = Flow.stop (Outcome.ret r m') →
      r = JX_INVAL) := by
  intro fuel
  induction fuel with
  | zero => intro i; simp [close_walk]
  | succ n ih =>
    intro i
    simp only [close_walk]
    cases hN : nodeAt ns i with
    | none => simp
    | some token =>
      simp only
      split
      · split
        · simp
        · constructor
          · intro c' m' h
            simp only [Flow.next.injEq] at h
            obtain ⟨rfl, rfl⟩ := h
            simp [length_updNode]
          · simp
      · split
        · split
          · simp
          · constructor
            · intro c' m' h
              simp only [Flow.next.injEq] at h
              obtain ⟨rfl, rfl⟩ := h
              simp
            · simp
        · exact ih _

/-! ### One round of the main loop against its lexical view -/

theorem isDelim_of_primStart (c : Nat) (h : isPrimStart c) : isDelim c = false := by
  unfold isPrimStart at h
  unfold isDelim
  rcases h with h | h | h | h | h <;> simp <;> omega

theorem lex_bounds (js : List Nat) (len pos : Nat) (d : Int) (p : Nat)
    (h : lex js len pos = some (d, p)) : pos ≤ p ∧ (d = 0 ∨ d = 1) := by
  unfold lex at h
  simp only at h
  split at h
  · simp at h; omega
  · split at h
    · simp at h; omega
    · split at h
      · split at h
        · rename_i q hq
          have := string_scan_found _ _ _ _ _ hq
          simp at h; omega
        · simp at h
      · split at h
        · simp at h; omega
        · split at h
          · simp at h; omega
          · split at h
            · simp at h; omega
            · split at h
              · rename_i hp
                split at h
                · rename_i q hq
                  have hf := primitive_loop_found _ _ _ _ _ hq
                  have hd := isDelim_of_primStart _ hp
                  have : q ≠ pos := by
                    rintro rfl
                    rw [hd] at hf
                    simp at hf
                  simp at h; omega
                · simp at h
              · simp at h

theorem step_count (js : List Nat) (len nnodes : Nat) (c : Int) (m : Mem)
    (hm : m.nodes = none) :
    parse_step js len nnodes c m =
      match lex js len m.parser.pos with
      | none => Flow.stop (Outcome.ret JX_INVAL m)
      | some (d, p) =>
        Flow.next (c + d)
          { m with parser := { m.parser with
              pos := p,
              toksuper := if byteAt js m.parser.pos = 58 then (m.parser.toknext : Int) - 1
                          else m.parser.toksuper } } := by
  obtain ⟨parser, nodes⟩ := m
  simp only at hm
  subst hm
  unfold parse_step lex
  simp only
  split
  · rename_i h
    have : byteAt js parser.pos ≠ 58 := by omega
    simp [case_open, this]
  · split
    · rename_i h
      have : byteAt js parser.pos ≠ 58 := by omega
      simp [case_close, this]
    · split
      · rename_i h
        have h58 : byteAt js parser.pos ≠ 58 := by omega
        simp only [case_string, parse_string_eq]
        cases hS : string_scan js len (len - (parser.pos + 1)) (parser.pos + 1) with
        | hang => exact absurd hS (string_scan_no_hang _ _ _ _ (le_refl _))
        | inval => simp [JX_INVAL]
        | found q => simp [string_close, count_child, h58]
      · split
        · rename_i h
          have : byteAt js parser.pos ≠ 58 := by omega
          simp [this]
        · split
          · rename_i h
            simp [h]
          · split
            · rename_i h
              have : byteAt js parser.pos ≠ 58 := by omega
              simp [case_comma, this]
            · split
              · rename_i h58 _ h
                simp only [case_primitive, placed, parse_primitive]
                cases hS : primitive_loop js len (len - parser.pos) parser.pos with
                | hang => exact absurd hS (primitive_loop_no_hang _ _ _ _ (le_refl _))
                | inval => simp [JX_INVAL]
                | found q => simp [count_child, h58]
              · rfl

/-! ### Well-formed tokens -/

theorem TokOK_mono (js : List Nat) (len pos pos' : Nat) (t : jx_node) (h : pos ≤ pos')
    (ht : TokOK js len pos t) : TokOK js len pos' t := by
  unfold TokOK at ht ⊢
  rcases ht with ⟨h1, h2, h3, h4⟩ | h1 | h1
  · exact Or.inl ⟨h1, h2, by omega, h4⟩
  · exact Or.inr (Or.inl h1)
  · exact Or.inr (Or.inr h1)

theorem TokOK_size (js : List Nat) (len pos : Nat) (t : jx_node) (s : Int) :
    TokOK js len pos { t with size := s } = TokOK js len pos t := rfl

theorem TokOK_start (js : List Nat) (len pos : Nat) (t : jx_node)
    (ht : TokOK js len pos t) : 0 ≤ t.start := by
  unfold TokOK at ht
  rcases ht with h1 | h1 | h1 <;> omega

theorem TokOK_open (js : List Nat) (len pos : Nat) (t : jx_node)
    (ht : TokOK js len pos t) (he : t.end_ = -1) :
    (t.type = JX_OBJECT ∨ t.type = JX_ARRAY) ∧ t.start < (pos : Int) ∧
      byteAt js t.start.toNat = opener t.type := by
  unfold TokOK at ht
  rcases ht with h1 | h1 | h1
  · exact ⟨h1.1, h1.2.2.1, h1.2.2.2.1⟩
  · omega
  · omega

/-! ### One round of the main loop keeps the invariant -/

theorem Inv_bump_toksuper (js : List Nat) (len L : Nat) (c : Int) (m : Mem)
    (hI : Inv js len L c m) (s : Int) (h1 : -1 ≤ s) (h2 : s < (m.parser.toknext : Int)) :
    Inv js len L c (bump { m with parser := { m.parser with toksuper := s } }) := by
  obtain ⟨ns, hns, hc, hlen, _, _, htok, hL⟩ := hI
  refine ⟨ns, hns, hc, hlen, h1, h2, fun i hi => ?_, hL⟩
  obtain ⟨t, ht, hp1, hp2, hok⟩ := htok i hi
  exact ⟨t, ht, hp1, hp2, TokOK_mono _ _ _ _ _ (Nat.le_succ _) hok⟩

theorem Inv_nodeAt (js : List Nat) (len L : Nat) (c : Int) (m : Mem) (ns : List jx_node)
    (hI : Inv js len L c m) (hns : m.nodes = some ns) (i : Int) (h0 : 0 ≤ i)
    (h1 : i < (m.parser.toknext : Int)) :
    ∃ t, nodeAt ns i = some t ∧ ns[i.toNat]? = some t ∧ -1 ≤ t.parent ∧ t.parent < i ∧
      TokOK js len m.parser.pos t := by
  obtain ⟨ns', hns', _, _, _, _, htok, _⟩ := hI
  rw [hns] at hns'
  injection hns' with hns'
  subst hns'
  obtain ⟨t, ht, hp1, hp2, hok⟩ := htok i.toNat (by omega)
  refine ⟨t, ?_, ht, hp1, by omega, hok⟩
  unfold nodeAt
  simp [show ¬ i < 0 by omega, ht]

theorem not_tokenStart (c : Nat)
    (h : c = 9 ∨ c = 13 ∨ c = 10 ∨ c = 32 ∨ c = 58 ∨ c = 44 ∨ c = 125 ∨ c = 93) :
    ¬ tokenStart c := by
  unfold tokenStart isPrimStart
  omega

theorem step_ws (js : List Nat) (len L nnodes : Nat) (c : Int) (m : Mem)
    (hI : Inv js len L c m)
    (hb : byteAt js m.parser.pos = 9 ∨ byteAt js m.parser.pos = 13 ∨
      byteAt js m.parser.pos = 10 ∨ byteAt js m.parser.pos = 32) :
    StepOK js len L nnodes c m (Flow.next c m) := by
  have hI' := hI
  obtain ⟨ns, hns, hc, hlen, hs1, hs2, htok, hL⟩ := hI
  refine ⟨⟨0, ?_, by simp⟩, rfl, rfl,
    fun h => absurd h (not_tokenStart _ (by omega)), ?_⟩
  · unfold lex
    simp only
    rw [if_neg (by omega), if_neg (by omega), if_neg (by omega), if_pos hb]
  · exact Inv_bump_toksuper js len L c m hI' m.parser.toksuper hs1 hs2

theorem step_colon (js : List Nat) (len L nnodes : Nat) (c : Int) (m : Mem)
    (hI : Inv js len L c m) (hb : byteAt js m.parser.pos = 58) :
    StepOK js len L nnodes c m
      (Flow.next c
        { m with parser := { m.parser with toksuper := (m.parser.toknext : Int) - 1 } }) := by
  refine ⟨⟨0, ?_, by simp⟩, rfl, rfl,
    fun h => absurd h (not_tokenStart _ (by omega)), ?_⟩
  · unfold lex
    simp [hb]
  · exact Inv_bump_toksuper js len L c m hI _ (by omega) (by omega)

theorem step_comma (js : List Nat) (len L nnodes : Nat) (c : Int) (m : Mem)
    (hI : Inv js len L c m) (hb : byteAt js m.parser.pos = 44) :
    StepOK js len L nnodes c m (case_comma c m) := by
  have hI' := hI
  obtain ⟨ns, hns, hc, hlen, hs1, hs2, htok, hL⟩ := hI
  obtain ⟨parser, nodes⟩ := m
  simp only at hns hb hs1 hs2
  subst hns
  have hlex : lex js len parser.pos = some (0, parser.pos) := by
    unfold lex
    simp [hb]
  have hnt : ¬ tokenStart (byteAt js parser.pos) := not_tokenStart _ (by omega)
  unfold case_comma
  simp only
  split
  · rename_i hsup
    obtain ⟨t, ht, _, hp1, hp2, _⟩ :=
      Inv_nodeAt js len L c _ ns hI' rfl parser.toksuper (by omega) hs2
    simp only [ht]
    split
    · exact ⟨⟨0, hlex, by simp⟩, rfl, rfl, fun h => absurd h hnt,
        Inv_bump_toksuper js len L c _ hI' t.parent hp1 (by simp only; omega)⟩
    · exact ⟨⟨0, hlex, by simp⟩, rfl, rfl, fun h => absurd h hnt,
        Inv_bump_toksuper js len L c _ hI' parser.toksuper hs1 hs2⟩
  · exact ⟨⟨0, hlex, by simp⟩, rfl, rfl, fun h => absurd h hnt,
      Inv_bump_toksuper js len L c _ hI' parser.toksuper hs1 hs2⟩

theorem Inv_new (js : List Nat) (len L : Nat) (c : Int) (m : Mem) (ns : List jx_node)
    (hI : Inv js len L c m) (hns : m.nodes = some ns) (hlt : m.parser.toknext < ns.length)
    (newpos : Nat) (hpos : m.parser.pos ≤ newpos) (tk : jx_node) (ns1 : List jx_node)
    (hlen1 : ns1.length = ns.length)
    (hold : ∀ i t, i < m.parser.toknext → ns[i]? = some t →
      ∃ s, ns1[i]? = some { t with size := s })
    (hnew : ns1[m.parser.toknext]? = some tk)
    (hpar : -1 ≤ tk.parent ∧ tk.parent < (m.parser.toknext : Int))
    (hok : TokOK js len (newpos + 1) tk)
    (sup : Int) (h1 : -1 ≤ sup) (h2 : sup < (m.parser.toknext : Int) + 1) :
    Inv js len L (c + 1)
      (bump { parser := { m.parser with pos := newpos, toknext := m.parser.toknext + 1,
                                        toksuper := sup },
              nodes := some ns1 }) := by
  obtain ⟨ns', hns', hc, hlen, hs1, hs2, htok, hL⟩ := hI
  rw [hns] at hns'
  injection hns' with hns'
  subst hns'
  refine ⟨ns1, rfl, ?_, ?_, h1, ?_, ?_, by omega⟩
  · simp only [bump]; push_cast; omega
  · simp only [bump]; omega
  · simp only [bump]; push_cast; omega
  · intro i hi
    simp only [bump] at hi ⊢
    by_cases hin : i = m.parser.toknext
    · subst hin
      exact ⟨tk, hnew, hpar.1, hpar.2, hok⟩
    · obtain ⟨t, ht, hp1, hp2, hok'⟩ := htok i (by omega)
      obtain ⟨s, hs⟩ := hold i t (by omega) ht
      refine ⟨_, hs, hp1, hp2, ?_⟩
      rw [TokOK_size]
      exact TokOK_mono _ _ _ _ _ (by omega) hok'

theorem lex_open (js : List Nat) (len pos : Nat)
    (hb : byteAt js pos = 123 ∨ byteAt js pos = 91) : lex js len pos = some (1, pos) := by
  unfold lex
  simp only
  rw [if_pos hb]

theorem hold_of_exact (ns ns1 : List jx_node) (n : Nat) (sup : Int)
    (hex : ∀ i t, i < n → ns[i]? = some t →
      ns1[i]? = some (if (i : Int) = sup then { t with size := t.size + 1 } else t)) :
    ∀ i t, i < n → ns[i]? = some t → ∃ s, ns1[i]? = some { t with size := s } := by
  intro i t hi hit
  have := hex i t hi hit
  by_cases h : (i : Int) = sup
  · rw [if_pos h] at this; exact ⟨_, this⟩
  · rw [if_neg h] at this; exact ⟨t.size, this⟩

theorem linked_of_exact (parser parser' : jx_parser_st) (ns ns1 : List jx_node)
    (tk : jx_node) (htn : parser'.toknext = parser.toknext + 1)
    (hex : ∀ i t, i < parser.toknext → ns[i]? = some t →
      ns1[i]? = some (if (i : Int) = parser.toksuper then { t with size := t.size + 1 }
        else t))
    (hs2 : parser.toksuper < (parser.toknext : Int))
    (hnew : ns1[parser.toknext]? = some tk) (hpar : tk.parent = parser.toksuper)
    (hsz : tk.size = 0) :
    Linked { parser := parser, nodes := some ns } { parser := parser', nodes := some ns1 } := by
  refine ⟨ns, ns1, tk, rfl, rfl, htn, hnew, hpar, hsz, ?_, ?_⟩
  · intro s ts hs hts
    have := hex s ts (by simp only at hs; omega) hts
    rw [if_pos hs] at this
    exact this
  · intro j tj hj hne htj
    have := hex j tj hj htj
    rw [if_neg hne] at this
    exact this

theorem step_open (js : List Nat) (len L nnodes : Nat) (c : Int) (m : Mem)
    (hI : Inv js len L c m)
    (hb : byteAt js m.parser.pos = 123 ∨ byteAt js m.parser.pos = 91) :
    StepOK js len L nnodes c m (case_open (byteAt js m.parser.pos) nnodes c m) := by
  have hI' := hI
  obtain ⟨ns, hns, hc, hlen, hs1, hs2, htok, hL⟩ := hI
  obtain ⟨parser, nodes⟩ := m
  simp only at hns hb hs1 hs2 hlen htok
  subst hns
  have hlex := lex_open js len parser.pos hb
  unfold case_open node_alloc
  simp only
  by_cases hcap : parser.toknext ≥ nnodes
  · rw [if_pos hcap]
    exact Or.inr ⟨rfl, rfl, hcap, _, hlex⟩
  · rw [if_neg hcap]
    by_cases hlt : parser.toknext < ns.length
    · rw [if_pos hlt]
      simp only
      have key : ∀ (tk : jx_node) (ns1 : List jx_node), ns1.length = ns.length →
          (∀ i t, i < parser.toknext → ns[i]? = some t →
            ns1[i]? = some (if (i : Int) = parser.toksuper
              then { t with size := t.size + 1 } else t)) →
          ns1[parser.toknext]? = some tk →
          tk.parent = parser.toksuper → tk.start = (parser.pos : Int) → tk.end_ = -1 →
          tk.size = 0 →
          tk.type = (if byteAt js parser.pos = 123 then JX_OBJECT else JX_ARRAY) →
          StepOK js len L nnodes c { parser := parser, nodes := some ns }
            (Flow.next (c + 1)
              { parser := { parser with toknext := parser.toknext + 1,
                                        toksuper := ((parser.toknext + 1 : Nat) : Int) - 1 },
                nodes := some ns1 }) := by
        intro tk ns1 hl1 hex hnew hpar hst hen hsz hty
        refine ⟨⟨1, hlex, rfl⟩, rfl, rfl,
          fun _ => linked_of_exact parser _ ns ns1 tk rfl hex hs2 hnew hpar hsz, ?_⟩
        have := Inv_new js len L c _ ns hI' rfl hlt parser.pos (le_refl _) tk ns1 hl1
          (hold_of_exact ns ns1 _ _ hex) hnew
          (by rw [hpar]; exact ⟨hs1, hs2⟩)
          (by
            unfold TokOK
            left
            rw [hst, hen, hty]
            refine ⟨by split <;> simp, by omega, by omega, ?_, Or.inl rfl⟩
            rcases hb with hb | hb <;> simp [hb, opener])
          (((parser.toknext + 1 : Nat) : Int) - 1) (by omega) (by push_cast; omega)
        exact this
      obtain ⟨t0, ht0⟩ : ∃ t0, ns[parser.toknext]? = some t0 :=
        ⟨ns[parser.toknext], by simp [hlt]⟩
      split
      · rename_i hsup
        have hsup2 : parser.toksuper ≠ (parser.toknext : Int) := by omega
        obtain ⟨t, ht, ht', _⟩ :=
          Inv_nodeAt js len L c _ ns hI' rfl parser.toksuper (by omega) hs2
        simp only [nodeAt_updNode, if_neg hsup2, ht]
        split
        · exact Or.inl rfl
        · refine key { type := if byteAt js parser.pos = 123 then JX_OBJECT else JX_ARRAY,
                       start := (parser.pos : Int), end_ := -1, size := 0,
                       parent := parser.toksuper } _
            (by simp [length_updNode]) ?_ ?_ rfl rfl rfl rfl rfl
          · intro i t hi hit
            have hne : i ≠ parser.toknext := by omega
            simp only [getElem?_updNode, if_neg hne, hit]
            by_cases his : (i : Int) = parser.toksuper
            · rw [if_pos (by omega), if_pos his]; rfl
            · rw [if_neg (by omega), if_neg his]
          · have hne : parser.toknext ≠ parser.toksuper.toNat := by omega
            simp [getElem?_updNode, ht0, hne]
      · rename_i hsup
        simp only [ne_eq, not_not] at hsup
        refine key { type := if byteAt js parser.pos = 123 then JX_OBJECT else JX_ARRAY,
                     start := (parser.pos : Int), end_ := -1, size := 0, parent := -1 } _
          (by simp [length_updNode]) ?_ ?_ ?_ rfl rfl rfl rfl
        · intro i t hi hit
          have hne : i ≠ parser.toknext := by omega
          simp only [getElem?_updNode, if_neg hne, hit]
          rw [if_neg (by omega)]
        · simp [getElem?_updNode, ht0]
        · rw [hsup]
    · rw [if_neg hlt]
      show L < nnodes; omega

theorem step_child (js : List Nat) (len L nnodes : Nat) (c : Int) (parser : jx_parser_st)
    (ns : List jx_node) (hI : Inv js len L c { parser := parser, nodes := some ns })
    (hlt : parser.toknext < ns.length) (q : Nat) (hq : parser.pos ≤ q)
    (hlex : lex js len parser.pos = some (1, q)) (ty : jx_type) (st en : Int)
    (hok : TokOK js len (q + 1)
      { type := ty, start := st, end_ := en, size := 0, parent := parser.toksuper }) :
    StepOK js len L nnodes c { parser := parser, nodes := some ns }
      (count_child c
        { parser := { parser with pos := q, toknext := parser.toknext + 1 },
          nodes := some (updNode
            (fun t => { fill_node t ty st en with parent := parser.toksuper })
            (updNode (fun t => { t with start := -1, end_ := -1, size := 0, parent := -1 })
              ns parser.toknext) parser.toknext) }) := by
  have hI' := hI
  obtain ⟨ns0, hns, hc, hlen, hs1, hs2, htok, hL⟩ := hI
  simp only at hns hs1 hs2 hlen htok
  injection hns with hns
  subst hns
  obtain ⟨t0, ht0⟩ : ∃ t0, ns[parser.toknext]? = some t0 :=
    ⟨ns[parser.toknext], by simp [hlt]⟩
  have key : ∀ (ns1 : List jx_node), ns1.length = ns.length →
      (∀ i t, i < parser.toknext → ns[i]? = some t →
        ns1[i]? = some (if (i : Int) = parser.toksuper
          then { t with size := t.size + 1 } else t)) →
      ns1[parser.toknext]? =
        some { type := ty, start := st, end_ := en, size := 0, parent := parser.toksuper } →
      StepOK js len L nnodes c { parser := parser, nodes := some ns }
        (Flow.next (c + 1)
          { parser := { parser with pos := q, toknext := parser.toknext + 1 },
            nodes := some ns1 }) := by
    intro ns1 hl1 hex hnew
    refine ⟨⟨1, hlex, rfl⟩, rfl, rfl,
      fun _ => linked_of_exact parser _ ns ns1 _ rfl hex hs2 hnew rfl rfl, ?_⟩
    exact Inv_new js len L c _ ns hI' rfl hlt q hq _ ns1 hl1 (hold_of_exact ns ns1 _ _ hex)
      hnew ⟨hs1, hs2⟩ hok parser.toksuper hs1 (by simp only; omega)
  unfold count_child
  simp only
  split
  · rename_i hsup
    have hsup2 : parser.toksuper ≠ (parser.toknext : Int) := by omega
    obtain ⟨t, ht, ht', _⟩ :=
      Inv_nodeAt js len L c _ ns hI' rfl parser.toksuper (by omega) hs2
    simp only [nodeAt_updNode, if_neg hsup2, ht]
    refine key _ (by simp [length_updNode]) ?_ ?_
    · intro i t hi hit
      have hne : i ≠ parser.toknext := by omega
      simp only [getElem?_updNode, if_neg hne, hit]
      by_cases his : (i : Int) = parser.toksuper
      · rw [if_pos (by omega), if_pos his]; rfl
      · rw [if_neg (by omega), if_neg his]
    · have hne : parser.toknext ≠ parser.toksuper.toNat := by omega
      simp [getElem?_updNode, ht0, hne, fill_node]
  · rename_i hsup
    simp only [ne_eq, not_not] at hsup
    refine key _ (by simp [length_updNode]) ?_ ?_
    · intro i t hi hit
      have hne : i ≠ parser.toknext := by omega
      simp only [getElem?_updNode, if_neg hne, hit]
      rw [if_neg (by omega)]
    · simp [getElem?_updNode, ht0, fill_node]

theorem step_string (js : List Nat) (len L nnodes : Nat) (c : Int) (m : Mem)
    (hI : Inv js len L c m) (hb : byteAt js m.parser.pos = 34) :
    StepOK js len L nnodes c m (case_string js len nnodes c m) := by
  have hI' := hI
  obtain ⟨ns, hns, hc, hlen, hs1, hs2, htok, hL⟩ := hI
  obtain ⟨parser, nodes⟩ := m
  simp only at hns hb hs1 hs2 hlen htok
  subst hns
  unfold case_string
  rw [parse_string_eq]
  simp only
  cases hS : string_scan js len (len - (parser.pos + 1)) (parser.pos + 1) with
  | hang => exact absurd hS (string_scan_no_hang _ _ _ _ (le_refl _))
  | inval => simp [JX_INVAL, StepOK]
  | found q =>
    obtain ⟨hq1, hq2, hq3⟩ := string_scan_found _ _ _ _ _ hS
    have hlex : lex js len parser.pos = some (1, q) := by
      unfold lex
      simp [hb, hS]
    simp only [string_close, node_alloc]
    by_cases hcap : parser.toknext ≥ nnodes
    · rw [if_pos hcap]
      simp only [JX_NOMEM]
      exact Or.inr ⟨rfl, rfl, hcap, _, hlex⟩
    · rw [if_neg hcap]
      by_cases hlt : parser.toknext < ns.length
      · rw [if_pos hlt]
        simp only [show ¬ ((0 : Int) < 0) by omega, if_false]
        refine step_child js len L nnodes c parser ns hI' hlt q (by omega) hlex JX_STRING
          ((parser.pos : Int) + 1) (q : Int) ?_
        unfold TokOK
        right; left
        refine ⟨rfl, by simp only; omega, by simp only; omega, by simp only; omega, ?_, ?_⟩
        · simpa using hb
        · simpa using hq3
      · rw [if_neg hlt]
        show L < nnodes; omega

theorem lex_primitive (js : List Nat) (len pos : Nat) (hb : isPrimStart (byteAt js pos)) :
    lex js len pos =
      match primitive_loop js len (len - pos) pos with
      | PrimScan.found q => some (1, q - 1)
      | _ => none := by
  have hb' := hb
  unfold isPrimStart at hb'
  unfold lex
  simp only
  rw [if_neg (by omega), if_neg (by omega), if_neg (by omega), if_neg (by omega),
    if_neg (by omega), if_neg (by omega), if_pos hb]

theorem primitive_type_some (c : Nat) (hb : isPrimStart c) :
    ∃ ty, primitive_type c = some ty ∧ (ty = JX_NUMBER ∨ ty = JX_BOOL ∨ ty = JX_NULL) := by
  unfold isPrimStart at hb
  unfold primitive_type
  split
  · exact ⟨_, rfl, Or.inl rfl⟩
  · split
    · exact ⟨_, rfl, Or.inr (Or.inl rfl)⟩
    · split
      · exact ⟨_, rfl, Or.inr (Or.inr rfl)⟩
      · omega

theorem step_primitive (js : List Nat) (len L nnodes : Nat) (c : Int) (m : Mem)
    (hI : Inv js len L c m) (hb : isPrimStart (byteAt js m.parser.pos)) :
    StepOK js len L nnodes c m (case_primitive js len nnodes c m) := by
  have hI' := hI
  obtain ⟨ns, hns, hc, hlen, hs1, hs2, htok, hL⟩ := hI
  obtain ⟨parser, nodes⟩ := m
  simp only at hns hb hs1 hs2 hlen htok
  subst hns
  have hpl : placed { parser := parser, nodes := some ns } ≠ none := by
    unfold placed
    simp only
    split
    · obtain ⟨t, ht, _⟩ :=
        Inv_nodeAt js len L c _ ns hI' rfl parser.toksuper (by omega) hs2
      simp [ht]
    · simp
  unfold case_primitive
  cases hP : placed { parser := parser, nodes := some ns } with
  | none => exact absurd hP hpl
  | some b =>
    cases b with
    | false => exact Or.inl rfl
    | true =>
      simp only [parse_primitive]
      have hlex := lex_primitive js len parser.pos hb
      cases hS : primitive_loop js len (len - parser.pos) parser.pos with
      | hang => exact absurd hS (primitive_loop_no_hang _ _ _ _ (le_refl _))
      | inval => simp [JX_INVAL, StepOK]
      | found q =>
        rw [hS] at hlex
        simp only at hlex
        obtain ⟨hq1, hq2, hq3, hq4⟩ := primitive_loop_found _ _ _ _ _ hS
        have hd := isDelim_of_primStart _ hb
        have hne : q ≠ parser.pos := by
          rintro rfl
          rw [hd] at hq3
          simp at hq3
        simp only [node_alloc]
        by_cases hcap : parser.toknext ≥ nnodes
        · rw [if_pos hcap]
          simp only [JX_NOMEM]
          exact Or.inr ⟨rfl, rfl, hcap, _, hlex⟩
        · rw [if_neg hcap]
          by_cases hlt : parser.toknext < ns.length
          · rw [if_pos hlt]
            obtain ⟨ty, hty, hty2⟩ := primitive_type_some _ hb
            simp only [hty, show ¬ ((0 : Int) < 0) by omega, if_false]
            have := step_child js len L nnodes c parser ns hI' hlt (q - 1) (by omega) hlex ty
              (parser.pos : Int) (q : Int) (by
                unfold TokOK
                right; right
                refine ⟨hty2, by simp only; omega, by simp only; omega, by simp only; omega,
                  ?_, ?_, ?_⟩
                · intro j hj1 hj2
                  simp only at hj1 hj2
                  obtain ⟨h1, h2, h3⟩ := hq4 j (by omega) (by omega)
                  exact ⟨h2, by omega, h1⟩
                · simpa using hq3
                · simpa using hty)
            exact this
          · rw [if_neg hlt]
            show L < nnodes; omega

theorem lex_close (js : List Nat) (len pos : Nat)
    (hb : byteAt js pos = 125 ∨ byteAt js pos = 93) : lex js len pos = some (0, pos) := by
  unfold lex
  simp only
  rw [if_neg (by omega), if_pos hb]

theorem close_walk_inv (js : List Nat) (len L nnodes : Nat) (c : Int) (parser : jx_parser_st)
    (ns : List jx_node) (type : jx_type)
    (hI : Inv js len L c { parser := parser, nodes := some ns })
    (hb : byteAt js parser.pos = 125 ∨ byteAt js parser.pos = 93)
    (hty : closer type = byteAt js parser.pos) :
    ∀ fuel (i : Nat), i < fuel → i < parser.toknext →
      StepOK js len L nnodes c { parser := parser, nodes := some ns }
        (close_walk parser ns type c fuel (i : Int)) := by
  have hlex := lex_close js len parser.pos hb
  have hnt : ¬ tokenStart (byteAt js parser.pos) := not_tokenStart _ (by omega)
  have hI' := hI
  obtain ⟨ns0, hns, hc, hlen, hs1, hs2, htok, hL⟩ := hI
  simp only at hns hs1 hs2 hlen htok hc
  injection hns with hns
  subst hns
  intro fuel
  induction fuel with
  | zero => intro i h; omega
  | succ n ih =>
    intro i hi1 hi2
    obtain ⟨t, ht, ht', hp1, hp2, hok⟩ :=
      Inv_nodeAt js len L c _ ns hI' rfl (i : Int) (by omega) (by simp only; omega)
    simp only [close_walk, ht]
    split
    · rename_i hopen
      split
      · exact Or.inl rfl
      · rename_i hmatch
        simp only [ne_eq, not_not] at hmatch
        obtain ⟨hcont, hst, _⟩ := TokOK_open _ _ _ _ hok hopen.2
        simp only at hst
        refine ⟨⟨0, hlex, by simp⟩, rfl, rfl, fun h => absurd h hnt, ?_⟩
        refine ⟨_, rfl, ?_, ?_, ?_, ?_, ?_, by simp [length_updNode, hL]⟩
        · simpa [bump] using hc
        · simpa [bump, length_updNode] using hlen
        · simpa [bump] using hp1
        · simp only [bump]; omega
        · intro j hj
          simp only [bump] at hj ⊢
          obtain ⟨tj, htj, hq1, hq2, hokj⟩ := htok j hj
          simp only [getElem?_updNode, Int.toNat_ofNat, htj]
          by_cases hji : j = i
          · subst hji
            simp only [Int.toNat_ofNat] at ht'
            rw [htj] at ht'
            injection ht' with ht'
            subst ht'
            rw [if_pos rfl]
            refine ⟨_, rfl, hq1, hq2, ?_⟩
            unfold TokOK
            left
            have h0 := TokOK_start _ _ _ _ hok
            refine ⟨hcont, h0, by simp only; omega, ?_, Or.inr ⟨by simp only; omega, ?_⟩⟩
            · exact (TokOK_open _ _ _ _ hok hopen.2).2.2
            · simp only [hmatch, hty]
              congr 1
              omega
          · rw [if_neg hji]
            exact ⟨tj, rfl, hq1, hq2, TokOK_mono _ _ _ _ _ (Nat.le_succ _) hokj⟩
    · split
      · rename_i hroot
        split
        · exact Or.inl rfl
        · exact ⟨⟨0, hlex, by simp⟩, rfl, rfl, fun h => absurd h hnt,
            Inv_bump_toksuper js len L c _ hI' parser.toksuper hs1 hs2⟩
      · rename_i hroot
        have h3 : t.parent = ((t.parent.toNat : Nat) : Int) := by omega
        rw [h3]
        exact ih _ (by omega) (by omega)

theorem step_close (js : List Nat) (len L nnodes : Nat) (c : Int) (m : Mem)
    (hI : Inv js len L c m)
    (hb : byteAt js m.parser.pos = 125 ∨ byteAt js m.parser.pos = 93) :
    StepOK js len L nnodes c m (case_close (byteAt js m.parser.pos) c m) := by
  have hI' := hI
  obtain ⟨ns, hns, hc, hlen, hs1, hs2, htok, hL⟩ := hI
  obtain ⟨parser, nodes⟩ := m
  simp only at hns hb hs1 hs2 hlen htok
  subst hns
  unfold case_close
  simp only
  split
  · exact Or.inl rfl
  · rename_i h1
    have h2 : (parser.toknext : Int) - 1 = ((parser.toknext - 1 : Nat) : Int) := by omega
    rw [h2]
    refine close_walk_inv js len L nnodes c parser ns _ hI' hb ?_ _ _ (by omega) (by omega)
    rcases hb with hb | hb <;> simp [hb, closer]

theorem step_inv (js : List Nat) (len L nnodes : Nat) (c : Int) (m : Mem)
    (hI : Inv js len L c m) : StepOK js len L nnodes c m (parse_step js len nnodes c m) := by
  unfold parse_step
  simp only
  split
  · rename_i h; exact step_open js len L nnodes c m hI h
  · split
    · rename_i h; exact step_close js len L nnodes c m hI h
    · split
      · rename_i h; exact step_string js len L nnodes c m hI h
      · split
        · rename_i h; exact step_ws js len L nnodes c m hI h
        · split
          · rename_i h; exact step_colon js len L nnodes c m hI h
          · split
            · rename_i h; exact step_comma js len L nnodes c m hI h
            · split
              · rename_i h; exact step_primitive js len L nnodes c m hI h
              · exact Or.inl rfl

/-! ### One round of the main loop, from any state -/

theorem stepGen_child (js : List Nat) (len nnodes : Nat) (c : Int) (m m1 : Mem) (q : Nat)
    (hlex : lex js len m.parser.pos = some (1, q)) (hq : m1.parser.pos = q)
    (htn : m1.parser.toknext = m.parser.toknext ∨
      (m.parser.toknext < nnodes ∧ m1.parser.toknext = m.parser.toknext + 1))
    (hmode : m.nodes = none ↔ m1.nodes = none) :
    StepGen js len nnodes c m (count_child c m1) := by
  unfold count_child
  split
  · rename_i h
    exact ⟨⟨1, by rw [hq]; exact hlex, rfl⟩, htn, hmode⟩
  · rename_i ns h
    split
    · split
      · trivial
      · refine ⟨⟨1, by rw [← hq] at hlex; exact hlex, rfl⟩, htn, ?_⟩
        simp [hmode, h]
    · exact ⟨⟨1, by rw [hq]; exact hlex, rfl⟩, htn, hmode⟩

theorem lex_zero (js : List Nat) (len pos : Nat)
    (hb : byteAt js pos = 9 ∨ byteAt js pos = 13 ∨ byteAt js pos = 10 ∨ byteAt js pos = 32 ∨
      byteAt js pos = 58 ∨ byteAt js pos = 44) : lex js len pos = some (0, pos) := by
  unfold lex
  simp only
  rw [if_neg (by omega), if_neg (by omega), if_neg (by omega)]
  by_cases h1 : byteAt js pos = 9 ∨ byteAt js pos = 13 ∨ byteAt js pos = 10 ∨ byteAt js pos = 32
  · rw [if_pos h1]
  · rw [if_neg h1]
    by_cases h2 : byteAt js pos = 58
    · rw [if_pos h2]
    · rw [if_neg h2, if_pos (by omega)]

theorem step_gen (js : List Nat) (len nnodes : Nat) (c : Int) (m : Mem) :
    StepGen js len nnodes c m (parse_step js len nnodes c m) := by
  obtain ⟨parser, nodes⟩ := m
  unfold parse_step
  simp only
  split
  · rename_i hb
    have hlex := lex_open js len parser.pos hb
    have hts : tokenStart (byteAt js parser.pos) := by
      unfold tokenStart; omega
    unfold case_open node_alloc
    cases nodes with
    | none => exact ⟨⟨1, hlex, rfl⟩, Or.inl rfl, Iff.rfl⟩
    | some ns =>
      simp only
      by_cases hcap : parser.toknext ≥ nnodes
      · rw [if_pos hcap]
        exact Or.inr ⟨rfl, rfl, hcap, hts, _, hlex⟩
      · rw [if_neg hcap]
        by_cases hlt : parser.toknext < ns.length
        · rw [if_pos hlt]
          simp only
          split
          · split
            · trivial
            · split
              · exact Or.inl rfl
              · exact ⟨⟨1, hlex, rfl⟩, Or.inr ⟨by simp only; omega, rfl⟩, by simp⟩
          · exact ⟨⟨1, hlex, rfl⟩, Or.inr ⟨by simp only; omega, rfl⟩, by simp⟩
        · rw [if_neg hlt]
          trivial
  · split
    · rename_i hb
      have hlex := lex_close js len parser.pos hb
      unfold case_close
      cases nodes with
      | none => exact ⟨⟨0, hlex, by simp⟩, Or.inl rfl, Iff.rfl⟩
      | some ns =>
        simp only
        split
        · exact Or.inl rfl
        · have hw := close_walk_state parser ns
            (if byteAt js parser.pos = 125 then JX_OBJECT else JX_ARRAY) c
            (ns.length + 1) ((parser.toknext : Int) - 1)
          cases hW : close_walk parser ns
              (if byteAt js parser.pos = 125 then JX_OBJECT else JX_ARRAY) c
              (ns.length + 1) ((parser.toknext : Int) - 1) with
          | next c' m' =>
            obtain ⟨h1, h2, h3, ns', h4, _⟩ := hw.1 c' m' hW
            refine ⟨⟨0, ?_, by simp [h1]⟩, Or.inl h3, by simp [h4]⟩
            rw [h2]; exact hlex
          | stop o =>
            cases o with
            | ret r m' => exact Or.inl (hw.2 r m' hW)
            | fault => trivial
            | hang => trivial
    · split
      · rename_i hb
        have hts : tokenStart (byteAt js parser.pos) := by
          unfold tokenStart; omega
        unfold case_string
        rw [parse_string_eq]
        simp only
        cases hS : string_scan js len (len - (parser.pos + 1)) (parser.pos + 1) with
        | hang => trivial
        | inval => simp [JX_INVAL, StepGen]
        | found q =>
          have hlex : lex js len parser.pos = some (1, q) := by
            unfold lex
            simp [hb, hS]
          simp only [string_close, node_alloc]
          cases nodes with
          | none =>
            simp only [show ¬ ((0 : Int) < 0) by omega, if_false]
            exact stepGen_child js len nnodes c _ _ q hlex rfl (Or.inl rfl) Iff.rfl
          | some ns =>
            simp only
            by_cases hcap : parser.toknext ≥ nnodes
            · rw [if_pos hcap]
              simp only [JX_NOMEM]
              exact Or.inr ⟨rfl, rfl, hcap, hts, _, hlex⟩
            · rw [if_neg hcap]
              by_cases hlt : parser.toknext < ns.length
              · rw [if_pos hlt]
                simp only [show ¬ ((0 : Int) < 0) by omega, if_false]
                exact stepGen_child js len nnodes c _ _ q hlex rfl
                  (Or.inr ⟨by simp only; omega, rfl⟩) (by simp)
              · rw [if_neg hlt]
                trivial
      · split
        · rename_i hb
          exact ⟨⟨0, lex_zero js len parser.pos (by omega), by simp⟩, Or.inl rfl, Iff.rfl⟩
        · split
          · rename_i hb
            exact ⟨⟨0, lex_zero js len parser.pos (by omega), by simp⟩, Or.inl rfl, Iff.rfl⟩
          · split
            · rename_i hb
              have hlex := lex_zero js len parser.pos (Or.inr (Or.inr (Or.inr (Or.inr (Or.inr hb)))))
              unfold case_comma
              cases nodes with
              | none => exact ⟨⟨0, hlex, by simp⟩, Or.inl rfl, Iff.rfl⟩
              | some ns =>
                simp only
                split
                · split
                  · trivial
                  · split
                    · exact ⟨⟨0, hlex, by simp⟩, Or.inl rfl, Iff.rfl⟩
                    · exact ⟨⟨0, hlex, by simp⟩, Or.inl rfl, Iff.rfl⟩
                · exact ⟨⟨0, hlex, by simp⟩, Or.inl rfl, Iff.rfl⟩
            · split
              · rename_i hb
                have hts : tokenStart (byteAt js parser.pos) := by
                  unfold tokenStart; exact Or.inr (Or.inr (Or.inr hb))
                have hlex := lex_primitive js len parser.pos hb
                unfold case_primitive
                cases hP : placed { parser := parser, nodes := nodes } with
                | none => trivial
                | some b =>
                  cases b with
                  | false => exact Or.inl rfl
                  | true =>
                    simp only [parse_primitive]
                    cases hS : primitive_loop js len (len - parser.pos) parser.pos with
                    | hang => trivial
                    | inval => simp [JX_INVAL, StepGen]
                    | found q =>
                      rw [hS] at hlex
                      simp only at hlex
                      cases nodes with
                      | none =>
                        simp only [show ¬ ((0 : Int) < 0) by omega, if_false]
                        exact stepGen_child js len nnodes c _ _ (q - 1) hlex rfl (Or.inl rfl)
                          Iff.rfl
                      | some ns =>
                        simp only [node_alloc]
                        by_cases hcap : parser.toknext ≥ nnodes
                        · rw [if_pos hcap]
                          simp only [JX_NOMEM]
                          exact Or.inr ⟨rfl, rfl, hcap, hts, _, hlex⟩
                        · rw [if_neg hcap]
                          by_cases hlt : parser.toknext < ns.length
                          · rw [if_pos hlt]
                            obtain ⟨ty, hty, _⟩ := primitive_type_some _ hb
                            simp only [hty, show ¬ ((0 : Int) < 0) by omega, if_false]
                            exact stepGen_child js len nnodes c _ _ (q - 1) hlex rfl
                              (Or.inr ⟨by simp only; omega, rfl⟩) (by simp)
                          · rw [if_neg hlt]
                            trivial
              · exact Or.inl rfl

/-! ### The main loop -/

theorem step_pos_le (js : List Nat) (len nnodes : Nat) (c c' : Int) (m m' : Mem)
    (h : parse_step js len nnodes c m = Flow.next c' m') :
    m.parser.pos ≤ m'.parser.pos ∧ c ≤ c' := by
  have hg := step_gen js len nnodes c m
  rw [h] at hg
  obtain ⟨⟨d, hlex, hc⟩, _⟩ := hg
  have := lex_bounds _ _ _ _ _ hlex
  omega

theorem step_stop_neg (js : List Nat) (len nnodes : Nat) (c r : Int) (m m' : Mem)
    (h : parse_step js len nnodes c m = Flow.stop (Outcome.ret r m')) : r < 0 := by
  have hg := step_gen js len nnodes c m
  rw [h] at hg
  rcases hg with hg | hg
  · rw [hg]; decide
  · rw [hg.1]; decide

theorem parse_loop_fuel (js : List Nat) (len nnodes : Nat) :
    ∀ f1 f2 c m, len - m.parser.pos ≤ f1 → len - m.parser.pos ≤ f2 →
      parse_loop js len nnodes f1 c m = parse_loop js len nnodes f2 c m := by
  intro f1
  induction f1 with
  | zero =>
    intro f2 c m h1 h2
    have : ¬ (m.parser.pos < len ∧ byteAt js m.parser.pos ≠ 0) := by omega
    cases f2 <;> simp only [parse_loop, if_neg this]
  | succ n ih =>
    intro f2 c m h1 h2
    cases f2 with
    | zero =>
      have : ¬ (m.parser.pos < len ∧ byteAt js m.parser.pos ≠ 0) := by omega
      simp only [parse_loop, if_neg this]
    | succ k =>
      simp only [parse_loop]
      split
      · rename_i hc
        cases hS : parse_step js len nnodes c m with
        | stop o => rfl
        | next c' m' =>
          have := (step_pos_le _ _ _ _ _ _ _ hS).1
          exact ih _ _ _ (by simp only [bump]; omega) (by simp only [bump]; omega)
      · rfl

theorem Rounds_head (js : List Nat) (len nnodes : Nat) (c c1 : Int) (m m1 : Mem)
    (hc : m.parser.pos < len ∧ byteAt js m.parser.pos ≠ 0)
    (hs : parse_step js len nnodes c m = Flow.next c1 m1) (c2 : Int) (m2 : Mem)
    (hr : Rounds js len nnodes c1 (bump m1) c2 m2) : Rounds js len nnodes c m c2 m2 := by
  induction hr with
  | refl => exact Rounds.step c m c1 m1 Rounds.refl hc hs
  | step c3 m3 c4 m4 _ hc3 hs3 ih => exact Rounds.step c3 m3 c4 m4 ih hc3 hs3

/-- With enough fuel, every run of the main loop is a number of completed
rounds followed by the end-of-input check or by a return from inside the
`switch`: the fuel does not run out. -/
theorem loop_decomp (js : List Nat) (len nnodes : Nat) :
    ∀ fuel c m, len - m.parser.pos ≤ fuel → ∃ c1 m1, Rounds js len nnodes c m c1 m1 ∧
      ((¬ (m1.parser.pos < len ∧ byteAt js m1.parser.pos ≠ 0) ∧
          parse_loop js len nnodes fuel c m = parse_finish c1 m1) ∨
       ((m1.parser.pos < len ∧ byteAt js m1.parser.pos ≠ 0) ∧
          parse_step js len nnodes c1 m1 =
            Flow.stop (parse_loop js len nnodes fuel c m))) := by
  intro fuel
  induction fuel with
  | zero =>
    intro c m hf
    refine ⟨c, m, Rounds.refl, ?_⟩
    have hc : ¬ (m.parser.pos < len ∧ byteAt js m.parser.pos ≠ 0) := by omega
    exact Or.inl ⟨hc, by simp only [parse_loop, if_neg hc]⟩
  | succ n ih =>
    intro c m hf
    simp only [parse_loop]
    split
    · rename_i hc
      cases hS : parse_step js len nnodes c m with
      | stop o => exact ⟨c, m, Rounds.refl, Or.inr ⟨hc, hS⟩⟩
      | next c' m' =>
        have := (step_pos_le _ _ _ _ _ _ _ hS).1
        obtain ⟨c1, m1, hr, h⟩ := ih c' (bump m') (by simp only [bump]; omega)
        exact ⟨c1, m1, Rounds_head js len nnodes c c' m m' hc hS c1 m1 hr, h⟩
    · rename_i hc
      exact ⟨c, m, Rounds.refl, Or.inl ⟨hc, rfl⟩⟩

theorem Rounds_pos_le (js : List Nat) (len nnodes : Nat) (c c1 : Int) (m m1 : Mem)
    (hr : Rounds js len nnodes c m c1 m1) : m.parser.pos ≤ m1.parser.pos ∧ c ≤ c1 := by
  induction hr with
  | refl => exact ⟨le_refl _, le_refl _⟩
  | step c3 m3 c4 m4 _ hc3 hs3 ih =>
    have := step_pos_le _ _ _ _ _ _ _ hs3
    simp only [bump]
    omega

/-- With enough fuel the loop, started at a state, goes on from any
loop-head state it reaches. -/
theorem rounds_loop (js : List Nat) (len nnodes : Nat) (c c1 : Int) (m m1 : Mem)
    (hr : Rounds js len nnodes c m c1 m1) :
    ∀ fuel fuel1, len - m.parser.pos ≤ fuel → len - m1.parser.pos ≤ fuel1 →
      parse_loop js len nnodes fuel c m = parse_loop js len nnodes fuel1 c1 m1 := by
  induction hr with
  | refl => intro fuel fuel1 h h1; exact parse_loop_fuel js len nnodes _ _ _ _ h h1
  | step c3 m3 c4 m4 hr3 hc3 hs3 ih =>
    intro fuel fuel1 h h1
    rw [ih fuel (len - m3.parser.pos - 1 + 1) h (by omega)]
    simp only [parse_loop, if_pos hc3, hs3]
    have := (step_pos_le _ _ _ _ _ _ _ hs3).1
    exact parse_loop_fuel js len nnodes _ _ _ _ (by simp only [bump]; omega) h1

theorem Rounds_inv (js : List Nat) (len L nnodes : Nat) (c c1 : Int) (m m1 : Mem)
    (hr : Rounds js len nnodes c m c1 m1) (hI : Inv js len L c m) : Inv js len L c1 m1 := by
  induction hr with
  | refl => exact hI
  | step c3 m3 c4 m4 _ hc3 hs3 ih =>
    have := step_inv js len L nnodes c3 m3 ih
    rw [hs3] at this
    exact this.2.2.2.2

theorem Inv_init (js : List Nat) (len : Nat) (bits : Int) (ns : List jx_node) :
    Inv js len ns.length 0 { parser := parser_init bits, nodes := some ns } := by
  refine ⟨ns, rfl, rfl, Nat.zero_le _, by simp [parser_init], by simp [parser_init], ?_, rfl⟩
  intro i hi
  simp [parser_init] at hi

/-! ### The end-of-input check -/

theorem unmatched_spec (ns : List jx_node) :
    ∀ n, n ≤ ns.length →
      unmatched ns n = some true ∨
      (unmatched ns n = some false ∧
        ∀ i, i < n → ∀ t, ns[i]? = some t → ¬ (t.start ≠ -1 ∧ t.end_ = -1)) := by
  intro n
  induction n with
  | zero => intro _; exact Or.inr ⟨rfl, fun i hi => by omega⟩
  | succ k ih =>
    intro hk
    obtain ⟨t, ht⟩ : ∃ t, ns[k]? = some t := ⟨ns[k], by simp [show k < ns.length by omega]⟩
    simp only [unmatched, ht]
    split
    · exact Or.inl rfl
    · rename_i hopen
      rcases ih (by omega) with h | ⟨h1, h2⟩
      · exact Or.inl h
      · refine Or.inr ⟨h1, fun i hi t' ht' => ?_⟩
        by_cases hik : i = k
        · subst hik
          rw [ht] at ht'
          injection ht' with ht'
          subst ht'
          exact hopen
        · exact h2 i (by omega) t' ht'

theorem finish_count (c : Int) (m : Mem) (h : m.nodes = none) :
    parse_finish c m = Outcome.ret c m := by
  unfold parse_finish
  simp [h]

theorem finish_inv (js : List Nat) (len L : Nat) (c : Int) (m : Mem) (hI : Inv js len L c m) :
    parse_finish c m = Outcome.ret JX_INVAL m ∨
      (parse_finish c m = Outcome.ret c m ∧
        ∃ ns, m.nodes = some ns ∧
          ∀ i, i < m.parser.toknext → ∀ t, ns[i]? = some t → t.end_ ≠ -1) := by
  obtain ⟨ns, hns, hc, hlen, hs1, hs2, htok, hL⟩ := hI
  unfold parse_finish
  simp only [hns]
  rcases unmatched_spec ns m.parser.toknext hlen with h | ⟨h1, h2⟩
  · simp [h]
  · refine Or.inr ⟨by simp [h1], ns, rfl, fun i hi t ht he => ?_⟩
    obtain ⟨t', ht', _, _, hok⟩ := htok i hi
    rw [ht] at ht'
    injection ht' with ht'
    subst ht'
    have := TokOK_start _ _ _ _ hok
    exact h2 i hi t ht ⟨by omega, he⟩

theorem finish_ret (c r : Int) (m m' : Mem) (h : parse_finish c m = Outcome.ret r m')
    (hr : 0 ≤ r) : r = c ∧ m' = m := by
  unfold parse_finish at h
  split at h
  · simp at h; exact ⟨h.1.symm, h.2.symm⟩
  · split at h
    · simp at h
    · simp only [Outcome.ret.injEq] at h
      rw [← h.1] at hr
      simp [JX_INVAL] at hr
    · simp at h; exact ⟨h.1.symm, h.2.symm⟩

/-- A successful run ends in the end-of-input check at a loop-head state it
has reached, and returns the `count` of that state. -/
theorem loop_ret (js : List Nat) (len nnodes fuel : Nat) (c r : Int) (m m' : Mem)
    (hf : len - m.parser.pos ≤ fuel)
    (h : parse_loop js len nnodes fuel c m = Outcome.ret r m') (hr : 0 ≤ r) :
    Rounds js len nnodes c m r m' ∧
      ¬ (m'.parser.pos < len ∧ byteAt js m'.parser.pos ≠ 0) ∧
      parse_finish r m' = Outcome.ret r m' := by
  obtain ⟨c1, m1, hR, h1 | h1⟩ := loop_decomp js len nnodes fuel c m hf
  · rw [h] at h1
    obtain ⟨h2, h3⟩ := finish_ret c1 r m1 m' h1.2.symm hr
    subst h2 h3
    exact ⟨hR, h1.1, h1.2.symm⟩
  · rw [h] at h1
    have := step_stop_neg _ _ _ _ _ _ _ h1.2
    omega

/-! ### Count mode follows fill mode -/

theorem rounds_count (js : List Nat) (len nnodes nnodes0 : Nat) (c c1 : Int) (m m1 : Mem)
    (hr : Rounds js len nnodes c m c1 m1) :
    ∀ m0 : Mem, m0.nodes = none → m0.parser.pos = m.parser.pos →
      ∃ m01, Rounds js len nnodes0 c m0 c1 m01 ∧ m01.nodes = none ∧
        m01.parser.pos = m1.parser.pos := by
  induction hr with
  | refl => intro m0 h0 hp; exact ⟨m0, Rounds.refl, h0, hp⟩
  | step c3 m3 c4 m4 _ hc3 hs3 ih =>
    intro m0 h0 hp
    obtain ⟨m03, hR, hn, hp3⟩ := ih m0 h0 hp
    have hg := step_gen js len nnodes c3 m3
    rw [hs3] at hg
    obtain ⟨⟨d, hlex, hc⟩, _⟩ := hg
    have hsc := step_count js len nnodes0 c3 m03 hn
    rw [hp3, hlex] at hsc
    simp only at hsc
    subst hc
    refine ⟨_, Rounds.step c3 m03 _ _ hR (by rw [hp3]; exact hc3) hsc, ?_, ?_⟩
    · simpa [bump] using hn
    · simp [bump]

theorem parse_loop_done (js : List Nat) (len nnodes fuel : Nat) (c : Int) (m : Mem)
    (hc : ¬ (m.parser.pos < len ∧ byteAt js m.parser.pos ≠ 0)) :
    parse_loop js len nnodes fuel c m = parse_finish c m := by
  cases fuel <;> simp only [parse_loop, if_neg hc]

theorem members_run :
    parser_parse (parser_init 0) 15 in_members 5 (some (List.replicate 5 blank)) =
      Outcome.ret 5 mem_members := by
  decide

/-- A successful fill-mode call on a fresh state ends at a loop-head state in
which the invariant holds, the input is used up and no token is open. -/
theorem fresh_ret (js : List Nat) (len nnodes : Nat) (bits : Int) (ns : List jx_node)
    (n : Int) (m : Mem)
    (h : parser_parse (parser_init bits) len js nnodes (some ns) = Outcome.ret n m)
    (hn : 0 ≤ n) :
    Rounds js len nnodes 0 { parser := parser_init bits, nodes := some ns } n m ∧
      ¬ (m.parser.pos < len ∧ byteAt js m.parser.pos ≠ 0) ∧
      Inv js len ns.length n m ∧ parse_finish n m = Outcome.ret n m := by
  unfold parser_parse at h
  obtain ⟨hR, hc, hf⟩ := loop_ret js len nnodes (len - (parser_init bits).pos)
    ((parser_init bits).toknext : Int) n { parser := parser_init bits, nodes := some ns } m
    (le_refl _) h hn
  have hR' : Rounds js len nnodes 0 { parser := parser_init bits, nodes := some ns } n m := hR
  exact ⟨hR', hc, Rounds_inv js len ns.length nnodes _ n _ m hR' (Inv_init js len bits ns), hf⟩

/-! ## The claims -/

/-- C1 (count/fill agreement): whenever `parser_parse` in fill mode, on a
state fresh from `parser_init`, returns `n >= 0`, the state's `toknext` is `n`
and `parser_parse` in count mode (no array) on a fresh state over the same
buffer returns `n` as well, whatever the capacities passed. -/
theorem count_fill_agreement (js : List Nat) (len nnodes nnodes0 : Nat) (bits : Int)
    (ns : List jx_node) (n : Int) (m : Mem)
    (h : parser_parse (parser_init bits) len js nnodes (some ns) = Outcome.ret n m)
    (hn : 0 ≤ n) :
    (m.parser.toknext : Int) = n ∧
      ∃ m0, parser_parse (parser_init bits) len js nnodes0 none = Outcome.ret n m0 := by
  obtain ⟨hR, hc, hI, _⟩ := fresh_ret js len nnodes bits ns n m h hn
  obtain ⟨ns', _, hcn, _⟩ := hI
  refine ⟨hcn.symm, ?_⟩
  obtain ⟨m01, hR0, hn0, hp0⟩ :=
    rounds_count js len nnodes nnodes0 _ n _ m hR
      { parser := parser_init bits, nodes := none } rfl rfl
  refine ⟨m01, ?_⟩
  unfold parser_parse
  have hR0' : Rounds js len nnodes0 (((parser_init bits).toknext : Nat) : Int)
      { parser := parser_init bits, nodes := none } n m01 := hR0
  rw [rounds_loop js len nnodes0 _ n _ m01 hR0' _ _ (le_refl _) (le_refl _)]
  rw [parse_loop_done js len nnodes0 _ n m01 (by rw [hp0]; exact hc)]
  exact finish_count n m01 hn0

theorem count_fill_agreement_witness :
    parser_parse (parser_init 0) 15 in_members 5 (some (List.replicate 5 blank)) =
        Outcome.ret 5 mem_members ∧ (0 : Int) ≤ 5 ∧
      ((mem_members.parser.toknext : Int) = 5 ∧
        ∃ m0, parser_parse (parser_init 0) 15 in_members 0 none = Outcome.ret 5 m0) :=
  ⟨members_run, by decide,
    count_fill_agreement in_members 15 5 0 0 (List.replicate 5 blank) 5 mem_members
      members_run (by decide)⟩

/-- C2 (exact sizing): when `parser_parse` in count mode on a fresh state
returns `n >= 0`, `parser_parse` in fill mode on a fresh state over the same
buffer, with capacity `n` and an array of at least `n` entries, returns `n`
or `JX_INVAL`: never `JX_NOMEM`, and it neither faults nor hangs. -/
theorem exact_sizing (js : List Nat) (len nnodes0 : Nat) (bits : Int) (ns : List jx_node)
    (n : Nat) (m0 : Mem)
    (h : parser_parse (parser_init bits) len js nnodes0 none = Outcome.ret (n : Int) m0)
    (hcap : n ≤ ns.length) :
    ∃ m, parser_parse (parser_init bits) len js n (some ns) = Outcome.ret (n : Int) m ∨
      parser_parse (parser_init bits) len js n (some ns) = Outcome.ret JX_INVAL m := by
  unfold parser_parse at h ⊢
  obtain ⟨c1, m1, hR, hcase⟩ := loop_decomp js len n (len - (parser_init bits).pos)
    ((parser_init bits).toknext : Int) { parser := parser_init bits, nodes := some ns }
    (le_refl _)
  have hI : Inv js len ns.length c1 m1 :=
    Rounds_inv js len ns.length n _ c1 _ m1 hR (Inv_init js len bits ns)
  obtain ⟨m01, hR0, hn0, hp0⟩ :=
    rounds_count js len n nnodes0 _ c1 _ m1 hR
      { parser := parser_init bits, nodes := none } rfl rfl
  rw [rounds_loop js len nnodes0 _ c1 _ m01 hR0 _ (len - m01.parser.pos) (le_refl _)
    (le_refl _)] at h
  rcases hcase with ⟨hc, hfin⟩ | ⟨hc, hstop⟩
  · rw [parse_loop_done js len nnodes0 _ c1 m01 (by rw [hp0]; exact hc),
      finish_count c1 m01 hn0] at h
    simp only [Outcome.ret.injEq] at h
    rw [hfin]
    rcases finish_inv js len ns.length c1 m1 hI with hf | ⟨hf, _⟩
    · exact ⟨m1, Or.inr hf⟩
    · refine ⟨m1, Or.inl ?_⟩
      rw [hf, h.1]
  · have hok := step_inv js len ns.length n c1 m1 hI
    rw [hstop] at hok
    cases hO : parse_loop js len n (len - (parser_init bits).pos)
        ((parser_init bits).toknext : Int)
        { parser := parser_init bits, nodes := some ns } with
    | hang => rw [hO] at hok; exact absurd hok (by simp [StepOK])
    | fault =>
      rw [hO] at hok
      have : ns.length < n := hok
      omega
    | ret r m' =>
      rw [hO] at hok
      rcases hok with hr | ⟨hr, hm, hcap', p, hlex⟩
      · exact ⟨m', Or.inr (by rw [hr])⟩
      · exfalso
        obtain ⟨ns', _, hcn, _⟩ := hI
        have hc0 : m01.parser.pos < len ∧ byteAt js m01.parser.pos ≠ 0 := by
          rw [hp0]; exact hc
        obtain ⟨k, hk⟩ : ∃ k, len - m01.parser.pos = k + 1 :=
          ⟨len - m01.parser.pos - 1, by omega⟩
        rw [hk] at h
        simp only [parse_loop, if_pos hc0] at h
        have hsc := step_count js len nnodes0 c1 m01 hn0
        rw [hp0, hlex] at hsc
        simp only at hsc
        rw [hsc] at h
        simp only at h
        obtain ⟨hR2, _⟩ := loop_ret js len nnodes0 k _ (n : Int) _ m0
          (by simp only [bump]; have := (lex_bounds _ _ _ _ _ hlex).1; omega) h
          (Int.natCast_nonneg n)
        have := (Rounds_pos_le _ _ _ _ _ _ _ hR2).2
        omega

theorem exact_sizing_witness :
    parser_parse (parser_init 0) 15 in_members 0 none =
        Outcome.ret ((5 : Nat) : Int) mem_members_count ∧
      5 ≤ (List.replicate 5 blank).length ∧
      ∃ m, parser_parse (parser_init 0) 15 in_members 5 (some (List.replicate 5 blank)) =
          Outcome.ret ((5 : Nat) : Int) m ∨
        parser_parse (parser_init 0) 15 in_members 5 (some (List.replicate 5 blank)) =
          Outcome.ret JX_INVAL m :=
  ⟨by decide, by decide,
    exact_sizing in_members 15 0 0 (List.replicate 5 blank) 5 mem_members_count
      (by decide) (by decide)⟩

/-! ### Scanning a prefix, then the whole buffer -/

theorem parse_string_len_mono (js : List Nat) (k L nnodes : Nat) (hkL : k ≤ L) (m m' : Mem)
    (r : Int) (h : parse_string m js k nnodes = Outcome.ret r m') (hr : ¬ r < 0) :
    parse_string m js L nnodes = Outcome.ret r m' := by
  rw [parse_string_eq] at h ⊢
  cases hS : string_scan js k (k - (m.parser.pos + 1)) (m.parser.pos + 1) with
  | hang => rw [hS] at h; simp at h
  | inval =>
    rw [hS] at h
    simp only [Outcome.ret.injEq] at h
    rw [← h.1] at hr
    simp [JX_INVAL] at hr
  | found q =>
    rw [hS] at h
    rw [string_scan_len_mono js k L hkL _ (L - (m.parser.pos + 1)) _ q (by omega) hS]
    exact h

theorem parse_primitive_len_mono (js : List Nat) (k L nnodes : Nat) (hkL : k ≤ L)
    (m m' : Mem) (r : Int) (h : parse_primitive m js k nnodes = Outcome.ret r m')
    (hr : ¬ r < 0) : parse_primitive m js L nnodes = Outcome.ret r m' := by
  unfold parse_primitive at h ⊢
  simp only at h ⊢
  cases hS : primitive_loop js k (k - m.parser.pos) m.parser.pos with
  | hang => rw [hS] at h; simp at h
  | inval =>
    rw [hS] at h
    simp only [Outcome.ret.injEq] at h
    rw [← h.1] at hr
    simp [JX_INVAL] at hr
  | found q =>
    rw [hS] at h
    rw [primitive_loop_len_mono js k L hkL _ (L - m.parser.pos) _ q (by omega) hS]
    exact h

/-- A round that ends by `break` when the scanner is given the first `k`
bytes ends the same way when it is given more of the buffer. -/
theorem step_len_mono (js : List Nat) (k L nnodes : Nat) (hkL : k ≤ L) (c c' : Int)
    (m m' : Mem) (h : parse_step js k nnodes c m = Flow.next c' m') :
    parse_step js L nnodes c m = Flow.next c' m' := by
  unfold parse_step at h ⊢
  simp only at h ⊢
  split_ifs at h ⊢
  · exact h
  · exact h
  · unfold case_string at h ⊢
    cases hP : parse_string m js k nnodes with
    | hang => rw [hP] at h; simp at h
    | fault => rw [hP] at h; simp at h
    | ret r m1 =>
      rw [hP] at h
      simp only at h
      by_cases hr : r < 0
      · rw [if_pos hr] at h; simp at h
      · rw [parse_string_len_mono js k L nnodes hkL m m1 r hP hr]
        exact h
  · exact h
  · exact h
  · exact h
  · unfold case_primitive at h ⊢
    cases hPl : placed m with
    | none => rw [hPl] at h; simp at h
    | some b =>
      cases b with
      | false => rw [hPl] at h; simp at h
      | true =>
        rw [hPl] at h
        simp only at h ⊢
        cases hP : parse_primitive m js k nnodes with
        | hang => rw [hP] at h; simp at h
        | fault => rw [hP] at h; simp at h
        | ret r m1 =>
          rw [hP] at h
          simp only at h
          by_cases hr : r < 0
          · rw [if_pos hr] at h; simp at h
          · rw [parse_primitive_len_mono js k L nnodes hkL m m1 r hP hr]
            exact h

theorem rounds_len_mono (js : List Nat) (k L nnodes : Nat) (hkL : k ≤ L) (c c1 : Int)
    (m m1 : Mem) (hr : Rounds js k nnodes c m c1 m1) : Rounds js L nnodes c m c1 m1 := by
  induction hr with
  | refl => exact Rounds.refl
  | step c3 m3 c4 m4 _ hc3 hs3 ih =>
    exact Rounds.step c3 m3 c4 m4 ih ⟨by omega, hc3.2⟩
      (step_len_mono js k L nnodes hkL c3 c4 m3 m4 hs3)

/-- C3 (streaming resumption): when a fill-mode call on a fresh state over
the first `k` bytes of a buffer returns a count, a second call on the same
state and array over the first `L >= k` bytes comes to exactly what one
fill-mode call over those `L` bytes on a fresh state comes to: the same
return value, the same parser state and the same array. -/
theorem streaming_resumption (js : List Nat) (k L c : Nat) (bits : Int) (ns : List jx_node)
    (r1 : Int) (m1 : Mem) (hk : k ≤ L)
    (h1 : parser_parse (parser_init bits) k js c (some ns) = Outcome.ret r1 m1)
    (hr : 0 ≤ r1) :
    parser_parse m1.parser L js c m1.nodes =
      parser_parse (parser_init bits) L js c (some ns) := by
  obtain ⟨hR, _, hI, _⟩ := fresh_ret js k c bits ns r1 m1 h1 hr
  obtain ⟨ns', _, hcn, _⟩ := hI
  have hRL := rounds_len_mono js k L c hk _ _ _ _ hR
  unfold parser_parse
  have := rounds_loop js L c _ r1 _ m1 hRL (L - (parser_init bits).pos)
    (L - m1.parser.pos) (le_refl _) (le_refl _)
  have h0 : (((parser_init bits).toknext : Nat) : Int) = 0 := rfl
  rw [h0, this, hcn]

theorem streaming_resumption_witness :
    3 ≤ 7 ∧
      parser_parse (parser_init 0) 3 in_two_arrays 4 (some (List.replicate 4 blank)) =
        Outcome.ret 2 mem_first_array ∧ (0 : Int) ≤ 2 ∧
      parser_parse mem_first_array.parser 7 in_two_arrays 4 mem_first_array.nodes =
        parser_parse (parser_init 0) 7 in_two_arrays 4 (some (List.replicate 4 blank)) :=
  ⟨by decide, by decide, by decide,
    streaming_resumption in_two_arrays 3 7 4 0 (List.replicate 4 blank) 2 mem_first_array
      (by decide) (by decide) (by decide)⟩

/-- After a successful fill-mode call on a fresh state every written token is
well formed against the input and closed. -/
theorem fresh_tokens (js : List Nat) (len nnodes : Nat) (bits : Int) (ns : List jx_node)
    (n : Int) (m : Mem)
    (h : parser_parse (parser_init bits) len js nnodes (some ns) = Outcome.ret n m)
    (hn : 0 ≤ n) :
    ∃ toks, m.nodes = some toks ∧
      ∀ i, i < m.parser.toknext → ∃ t, toks[i]? = some t ∧
        TokOK js len m.parser.pos t ∧ t.end_ ≠ -1 := by
  obtain ⟨_, _, hI, hfin⟩ := fresh_ret js len nnodes bits ns n m h hn
  rcases finish_inv js len ns.length n m hI with hf | ⟨_, toks, htoks, hclosed⟩
  · rw [hf] at hfin
    simp only [Outcome.ret.injEq] at hfin
    rw [← hfin.1] at hn
    simp [JX_INVAL] at hn
  · obtain ⟨ns', hns', _, _, _, _, htok, _⟩ := hI
    rw [htoks] at hns'
    injection hns' with hns'
    subst hns'
    refine ⟨toks, htoks, fun i hi => ?_⟩
    obtain ⟨t, ht, _, _, hok⟩ := htok i hi
    exact ⟨t, ht, hok, hclosed i hi t ht⟩

/-- C4 (balanced nesting on acceptance): after a fill-mode call on a fresh
state has returned a count, every Object or Array token among the `toknext`
written ones has `end` set, `start < end`, the byte at `start` is its opening
bracket and the byte at `end - 1` its closing bracket.  And the input
`{"a":1`, which opens an object and never closes it, is rejected with
`JX_INVAL` whenever the capacity is at least 2. -/
theorem balanced_nesting :
    (∀ (js : List Nat) (len nnodes : Nat) (bits : Int) (ns : List jx_node) (n : Int)
        (m : Mem),
      parser_parse (parser_init bits) len js nnodes (some ns) = Outcome.ret n m → 0 ≤ n →
      ∃ toks, m.nodes = some toks ∧
        ∀ i, i < m.parser.toknext → ∃ t, toks[i]? = some t ∧
          (t.type = JX_OBJECT ∨ t.type = JX_ARRAY →
            t.end_ ≠ -1 ∧ 0 ≤ t.start ∧ t.start < t.end_ ∧
            byteAt js t.start.toNat = (if t.type = JX_OBJECT then 123 else 91) ∧
            byteAt js (t.end_ - 1).toNat = (if t.type = JX_OBJECT then 125 else 93))) ∧
    (∀ (bits : Int) (t0 t1 : jx_node) (rest : List jx_node) (nnodes : Nat), 2 ≤ nnodes →
      parser_parse (parser_init bits) 6 in_unclosed nnodes (some (t0 :: t1 :: rest)) =
        Outcome.ret JX_INVAL
          { parser := { bits := bits, nnodes := 0, pos := 5, toknext := 2, toksuper := 1 },
            nodes := some
              ({ type := JX_OBJECT, start := 0, end_ := -1, size := 1, parent := -1 } ::
               { type := JX_STRING, start := 2, end_ := 3, size := 0, parent := 0 } ::
               rest) }) := by
  constructor
  · intro js len nnodes bits ns n m h hn
    obtain ⟨toks, htoks, htok⟩ := fresh_tokens js len nnodes bits ns n m h hn
    refine ⟨toks, htoks, fun i hi => ?_⟩
    obtain ⟨t, ht, hok, hend⟩ := htok i hi
    refine ⟨t, ht, fun hty => ?_⟩
    unfold TokOK at hok
    rcases hok with ⟨_, h0, _, hop, hcl⟩ | ⟨hs, _⟩ | ⟨hp, _⟩
    · rcases hcl with hcl | ⟨hlt, hcl⟩
      · exact absurd hcl hend
      · refine ⟨hend, h0, hlt, ?_, ?_⟩
        · rw [hop]
          rcases hty with hty | hty <;> simp [hty, opener]
        · rw [hcl]
          rcases hty with hty | hty <;> simp [hty, closer]
    · rcases hty with hty | hty <;> rw [hty] at hs <;> cases hs
    · rcases hty with hty | hty <;> rw [hty] at hp <;> simp at hp
  · intro bits t0 t1 rest nnodes hcap
    have h0 : ¬ nnodes ≤ 0 := by omega
    have h1 : ¬ nnodes ≤ 1 := by omega
    simp [parser_parse, parse_loop, parse_step, parser_init, in_unclosed, byteAt, bump,
      case_open, case_string, parse_string, string_loop, count_child, case_primitive,
      placed, parse_primitive, primitive_loop, isPrimStart, isDelim, fill_node,
      node_alloc, updNode, nodeAt, h0, h1, JX_INVAL]

theorem balanced_nesting_witness :
    (parser_parse (parser_init 0) 15 in_members 5 (some (List.replicate 5 blank)) =
        Outcome.ret 5 mem_members ∧ (0 : Int) ≤ 5 ∧
      ∃ toks, mem_members.nodes = some toks ∧
        ∀ i, i < mem_members.parser.toknext → ∃ t, toks[i]? = some t ∧
          (t.type = JX_OBJECT ∨ t.type = JX_ARRAY →
            t.end_ ≠ -1 ∧ 0 ≤ t.start ∧ t.start < t.end_ ∧
            byteAt in_members t.start.toNat = (if t.type = JX_OBJECT then 123 else 91) ∧
            byteAt in_members (t.end_ - 1).toNat =
              (if t.type = JX_OBJECT then 125 else 93))) ∧
    (2 ≤ 2 ∧
      parser_parse (parser_init 0) 6 in_unclosed 2 (some [blank, blank]) =
        Outcome.ret JX_INVAL
          { parser := { bits := 0, nnodes := 0, pos := 5, toknext := 2, toksuper := 1 },
            nodes := some
              [{ type := JX_OBJECT, start := 0, end_ := -1, size := 1, parent := -1 },
               { type := JX_STRING, start := 2, end_ := 3, size := 0, parent := 0 }] }) :=
  ⟨⟨members_run, by decide,
      balanced_nesting.1 in_members 15 5 0 (List.replicate 5 blank) 5 mem_members
        members_run (by decide)⟩,
    ⟨by decide, balanced_nesting.2 0 blank blank [] 2 (by decide)⟩⟩

/-- C7 (span correctness of scalar tokens): after a fill-mode call on a fresh
state has returned a count, every String token among the written ones has
`1 <= start <= end < len` with a quote at `start - 1` and at `end`; every
Number, Boolean or Null token has `0 <= start < end < len`, only printable
non-delimiter bytes in `[start, end)`, a delimiter at `end`, and the kind its
first byte gives: '-' or a digit for Number, 't' or 'f' for Boolean, 'n' for
Null. -/
theorem span_correctness (js : List Nat) (len nnodes : Nat) (bits : Int)
    (ns : List jx_node) (n : Int) (m : Mem)
    (h : parser_parse (parser_init bits) len js nnodes (some ns) = Outcome.ret n m)
    (hn : 0 ≤ n) :
    ∃ toks, m.nodes = some toks ∧
      ∀ i, i < m.parser.toknext → ∃ t, toks[i]? = some t ∧
        (t.type = JX_STRING →
          1 ≤ t.start ∧ t.start ≤ t.end_ ∧ t.end_ < (len : Int) ∧
          byteAt js (t.start - 1).toNat = 34 ∧ byteAt js t.end_.toNat = 34) ∧
        (t.type = JX_NUMBER ∨ t.type = JX_BOOL ∨ t.type = JX_NULL →
          0 ≤ t.start ∧ t.start < t.end_ ∧ t.end_ < (len : Int) ∧
          (∀ j : Nat, t.start ≤ (j : Int) → (j : Int) < t.end_ →
            32 ≤ byteAt js j ∧ byteAt js j ≤ 126 ∧ isDelim (byteAt js j) = false) ∧
          isDelim (byteAt js t.end_.toNat) = true ∧
          (t.type = JX_NUMBER ↔
            (byteAt js t.start.toNat = 45 ∨
              (48 ≤ byteAt js t.start.toNat ∧ byteAt js t.start.toNat ≤ 57))) ∧
          (t.type = JX_BOOL ↔
            (byteAt js t.start.toNat = 116 ∨ byteAt js t.start.toNat = 102)) ∧
          (t.type = JX_NULL ↔ byteAt js t.start.toNat = 110)) := by
  obtain ⟨toks, htoks, htok⟩ := fresh_tokens js len nnodes bits ns n m h hn
  refine ⟨toks, htoks, fun i hi => ?_⟩
  obtain ⟨t, ht, hok, _⟩ := htok i hi
  refine ⟨t, ht, fun hty => ?_, fun hty => ?_⟩
  · unfold TokOK at hok
    rcases hok with ⟨hc, _⟩ | ⟨_, hs⟩ | ⟨hp, _⟩
    · rw [hty] at hc; simp at hc
    · exact hs
    · rw [hty] at hp; simp at hp
  · unfold TokOK at hok
    rcases hok with ⟨hc, _⟩ | ⟨hs, _⟩ | ⟨_, h0, h1, h2, h3, h4, h5⟩
    · rcases hty with hty | hty | hty <;> rw [hty] at hc <;> simp at hc
    · rcases hty with hty | hty | hty <;> rw [hty] at hs <;> cases hs
    · refine ⟨h0, h1, h2, h3, h4, ?_⟩
      unfold primitive_type at h5
      split at h5
      · rename_i hb
        injection h5 with h5
        rw [← h5]
        refine ⟨by simp [hb], ?_, ?_⟩
        · constructor
          · intro hx; cases hx
          · intro hx; omega
        · constructor
          · intro hx; cases hx
          · intro hx; omega
      · rename_i hb
        split at h5
        · rename_i hb2
          injection h5 with h5
          rw [← h5]
          refine ⟨?_, by simp [hb2], ?_⟩
          · constructor
            · intro hx; cases hx
            · intro hx; exact absurd hx hb
          · constructor
            · intro hx; cases hx
            · intro hx; omega
        · rename_i hb2
          split at h5
          · rename_i hb3
            injection h5 with h5
            rw [← h5]
            refine ⟨?_, ?_, by simp [hb3]⟩
            · constructor
              · intro hx; cases hx
              · intro hx; exact absurd hx hb
            · constructor
              · intro hx; cases hx
              · intro hx; exact absurd hx hb2
          · simp at h5

theorem span_correctness_witness :
    parser_parse (parser_init 0) 15 in_members 5 (some (List.replicate 5 blank)) =
        Outcome.ret 5 mem_members ∧ (0 : Int) ≤ 5 ∧
      ∃ toks, mem_members.nodes = some toks ∧
        ∀ i, i < mem_members.parser.toknext → ∃ t, toks[i]? = some t ∧
          (t.type = JX_STRING →
            1 ≤ t.start ∧ t.start ≤ t.end_ ∧ t.end_ < ((15 : Nat) : Int) ∧
            byteAt in_members (t.start - 1).toNat = 34 ∧
            byteAt in_members t.end_.toNat = 34) ∧
          (t.type = JX_NUMBER ∨ t.type = JX_BOOL ∨ t.type = JX_NULL →
            0 ≤ t.start ∧ t.start < t.end_ ∧ t.end_ < ((15 : Nat) : Int) ∧
            (∀ j : Nat, t.start ≤ (j : Int) → (j : Int) < t.end_ →
              32 ≤ byteAt in_members j ∧ byteAt in_members j ≤ 126 ∧
              isDelim (byteAt in_members j) = false) ∧
            isDelim (byteAt in_members t.end_.toNat) = true ∧
            (t.type = JX_NUMBER ↔
              (byteAt in_members t.start.toNat = 45 ∨
                (48 ≤ byteAt in_members t.start.toNat ∧
                  byteAt in_members t.start.toNat ≤ 57))) ∧
            (t.type = JX_BOOL ↔
              (byteAt in_members t.start.toNat = 116 ∨
                byteAt in_members t.start.toNat = 102)) ∧
            (t.type = JX_NULL ↔ byteAt in_members t.start.toNat = 110)) :=
  ⟨members_run, by decide,
    span_correctness in_members 15 5 0 (List.replicate 5 blank) 5 mem_members
      members_run (by decide)⟩

theorem Rounds_toknext (js : List Nat) (len nnodes : Nat) (c c1 : Int) (m m1 : Mem)
    (hr : Rounds js len nnodes c m c1 m1) (h : m.parser.toknext ≤ nnodes) :
    m1.parser.toknext ≤ nnodes := by
  induction hr with
  | refl => exact h
  | step c3 m3 c4 m4 _ hc3 hs3 ih =>
    have hg := step_gen js len nnodes c3 m3
    rw [hs3] at hg
    obtain ⟨_, htn, _⟩ := hg
    simp only [bump]
    omega

/-- C8 (out-of-space rollback): when a fill-mode call, on any state whose
`toknext` is within the capacity, returns `JX_NOMEM`, the memory it leaves is
exactly a loop-head memory of that call: the one the loop stood in when it
reached the byte at the final `pos`, reached by completed rounds only.  That
byte is the first byte of a token ('{', '[', an opening quote or the first byte
of a primitive), so `pos`, `toksuper` and every token are what they were
before the token that could not be allocated was begun; and `toknext` equals
the capacity. -/
theorem nomem_rollback (parser : jx_parser_st) (js : List Nat) (len nnodes : Nat)
    (ns : List jx_node) (m : Mem) (hcap : parser.toknext ≤ nnodes)
    (h : parser_parse parser len js nnodes (some ns) = Outcome.ret JX_NOMEM m) :
    (∃ c, Rounds js len nnodes (parser.toknext : Int)
        { parser := parser, nodes := some ns } c m) ∧
      m.parser.pos < len ∧ tokenStart (byteAt js m.parser.pos) ∧
      m.parser.toknext = nnodes := by
  unfold parser_parse at h
  obtain ⟨c1, m1, hR, hcase⟩ := loop_decomp js len nnodes (len - parser.pos)
    (parser.toknext : Int) { parser := parser, nodes := some ns } (le_refl _)
  have hc1 := (Rounds_pos_le _ _ _ _ _ _ _ hR).2
  have htn := Rounds_toknext _ _ _ _ _ _ _ hR hcap
  rw [h] at hcase
  rcases hcase with ⟨_, hfin⟩ | ⟨hc, hstop⟩
  · exfalso
    unfold parse_finish at hfin
    split at hfin
    · simp only [Outcome.ret.injEq, JX_NOMEM] at hfin
      omega
    · split at hfin
      · simp at hfin
      · simp [JX_NOMEM, JX_INVAL] at hfin
      · simp only [Outcome.ret.injEq, JX_NOMEM] at hfin
        omega
  · have hg := step_gen js len nnodes c1 m1
    rw [hstop] at hg
    rcases hg with hg | ⟨_, hm, hge, hts, _⟩
    · simp [JX_NOMEM, JX_INVAL] at hg
    · subst hm
      exact ⟨⟨c1, hR⟩, hc.1, hts, by omega⟩

theorem nomem_rollback_witness :
    (parser_init 0).toknext ≤ 4 ∧
      parser_parse (parser_init 0) 15 in_members 4 (some (List.replicate 4 blank)) =
        Outcome.ret JX_NOMEM mem_members_full ∧
      ((∃ c, Rounds in_members 15 4 ((parser_init 0).toknext : Int)
          { parser := parser_init 0, nodes := some (List.replicate 4 blank) } c
          mem_members_full) ∧
        mem_members_full.parser.pos < 15 ∧
        tokenStart (byteAt in_members mem_members_full.parser.pos) ∧
        mem_members_full.parser.toknext = 4) :=
  ⟨by decide, by decide,
    nomem_rollback (parser_init 0) in_members 15 4 (List.replicate 4 blank) mem_members_full
      (by decide) (by decide)⟩

/-- C5 (unmatched closing bracket), evaluated on `[]:]`: the scan reaches the
last `]` (offset 3) at the loop head with a single token written, the array
closed at offset 2, so that no token is open; the round for that `]` ends by
`break` and the call returns 1 instead of `JX_INVAL`. -/
theorem stray_close_accepted :
    Rounds in_stray_close 4 1 0 { parser := parser_init 0, nodes := some [blank] } 1
        { parser := { bits := 0, nnodes := 0, pos := 3, toknext := 1, toksuper := 0 },
          nodes := some [{ type := JX_ARRAY, start := 0, end_ := 2, size := 0,
                           parent := -1 }] } ∧
      byteAt in_stray_close 3 = 93 ∧
      parser_parse (parser_init 0) 4 in_stray_close 1 (some [blank]) =
        Outcome.ret 1
          { parser := { bits := 0, nnodes := 0, pos := 4, toknext := 1, toksuper := 0 },
            nodes := some [{ type := JX_ARRAY, start := 0, end_ := 2, size := 0,
                             parent := -1 }] } := by
  refine ⟨?_, by decide, by decide⟩
  refine Rounds.step 1 _ 1 _ (Rounds.step 1 _ 1 _ (Rounds.step 0 _ 1 _ Rounds.refl
    (by decide) (by decide : parse_step in_stray_close 4 1 0
      { parser := parser_init 0, nodes := some [blank] } = Flow.next 1
        { parser := { bits := 0, nnodes := 0, pos := 0, toknext := 1, toksuper := 0 },
          nodes := some [{ type := JX_ARRAY, start := 0, end_ := -1, size := 0,
                           parent := -1 }] }))
    (by decide) (by decide : parse_step in_stray_close 4 1 1 _ = Flow.next 1
        { parser := { bits := 0, nnodes := 0, pos := 1, toknext := 1, toksuper := -1 },
          nodes := some [{ type := JX_ARRAY, start := 0, end_ := 2, size := 0,
                           parent := -1 }] }))
    (by decide) (by decide : parse_step in_stray_close 4 1 1 _ = Flow.next 1
        { parser := { bits := 0, nnodes := 0, pos := 2, toknext := 1, toksuper := 0 },
          nodes := some [{ type := JX_ARRAY, start := 0, end_ := 2, size := 0,
                           parent := -1 }] })

/-! ### Running the scanner over inputs given in parts -/

theorem byteAt_append_left (a b : List Nat) (i : Nat) (h : i < a.length) :
    byteAt (a ++ b) i = byteAt a i := by
  unfold byteAt
  simp [List.getD_eq_getElem?_getD, List.getElem?_append_left h]

theorem byteAt_append_right (a b : List Nat) (i : Nat) :
    byteAt (a ++ b) (a.length + i) = byteAt b i := by
  unfold byteAt
  simp [List.getD_eq_getElem?_getD, List.getElem?_append_right]

theorem byteAt_mem (l : List Nat) (i : Nat) (h : i < l.length) : byteAt l i ∈ l := by
  unfold byteAt
  simp [List.getD_eq_getElem?_getD, List.getElem?_eq_getElem h]

theorem byteAt_cons_succ (x : Nat) (l : List Nat) (i : Nat) :
    byteAt (x :: l) (i + 1) = byteAt l i := by
  unfold byteAt
  simp

theorem byteAt_cons_zero (x : Nat) (l : List Nat) : byteAt (x :: l) 0 = x := by
  unfold byteAt
  simp

theorem parse_step_open (js : List Nat) (len nnodes : Nat) (c : Int) (m : Mem)
    (hb : byteAt js m.parser.pos = 123 ∨ byteAt js m.parser.pos = 91) :
    parse_step js len nnodes c m = case_open (byteAt js m.parser.pos) nnodes c m := by
  unfold parse_step
  simp only
  rw [if_pos hb]

theorem parse_step_close (js : List Nat) (len nnodes : Nat) (c : Int) (m : Mem)
    (hb : byteAt js m.parser.pos = 125 ∨ byteAt js m.parser.pos = 93) :
    parse_step js len nnodes c m = case_close (byteAt js m.parser.pos) c m := by
  unfold parse_step
  simp only
  rw [if_neg (by omega), if_pos hb]

theorem parse_step_string (js : List Nat) (len nnodes : Nat) (c : Int) (m : Mem)
    (hb : byteAt js m.parser.pos = 34) :
    parse_step js len nnodes c m = case_string js len nnodes c m := by
  unfold parse_step
  simp only
  rw [if_neg (by omega), if_neg (by omega), if_pos hb]

theorem parse_step_ws (js : List Nat) (len nnodes : Nat) (c : Int) (m : Mem)
    (hb : byteAt js m.parser.pos = 9 ∨ byteAt js m.parser.pos = 13 ∨
      byteAt js m.parser.pos = 10 ∨ byteAt js m.parser.pos = 32) :
    parse_step js len nnodes c m = Flow.next c m := by
  unfold parse_step
  simp only
  rw [if_neg (by omega), if_neg (by omega), if_neg (by omega), if_pos hb]

theorem parse_step_colon (js : List Nat) (len nnodes : Nat) (c : Int) (m : Mem)
    (hb : byteAt js m.parser.pos = 58) :
    parse_step js len nnodes c m =
      Flow.next c
        { m with parser := { m.parser with toksuper := (m.parser.toknext : Int) - 1 } } := by
  unfold parse_step
  simp only
  rw [if_neg (by omega), if_neg (by omega), if_neg (by omega), if_neg (by omega), if_pos hb]

theorem parse_step_comma (js : List Nat) (len nnodes : Nat) (c : Int) (m : Mem)
    (hb : byteAt js m.parser.pos = 44) :
    parse_step js len nnodes c m = case_comma c m := by
  unfold parse_step
  simp only
  rw [if_neg (by omega), if_neg (by omega), if_neg (by omega), if_neg (by omega),
    if_neg (by omega), if_pos hb]

theorem parse_step_primitive (js : List Nat) (len nnodes : Nat) (c : Int) (m : Mem)
    (hb : isPrimStart (byteAt js m.parser.pos)) :
    parse_step js len nnodes c m = case_primitive js len nnodes c m := by
  have hb' := hb
  unfold isPrimStart at hb'
  unfold parse_step
  simp only
  rw [if_neg (by omega), if_neg (by omega), if_neg (by omega), if_neg (by omega),
    if_neg (by omega), if_neg (by omega), if_pos hb]

/-- The loop of `parse_primitive` over `n` printable non-delimiter bytes
followed by a delimiter stops on the delimiter. -/
theorem primitive_loop_run (js : List Nat) (len : Nat) :
    ∀ n pos fuel,
      (∀ j, pos ≤ j → j < pos + n →
        32 ≤ byteAt js j ∧ byteAt js j ≤ 126 ∧ isDelim (byteAt js j) = false) →
      pos + n < len → isDelim (byteAt js (pos + n)) = true → byteAt js (pos + n) ≠ 0 →
      n < fuel → primitive_loop js len fuel pos = PrimScan.found (pos + n) := by
  intro n
  induction n with
  | zero =>
    intro pos fuel _ hlen hd h0 hf
    obtain ⟨f, rfl⟩ : ∃ f, fuel = f + 1 := ⟨fuel - 1, by omega⟩
    simp only [Nat.add_zero] at hlen hd h0 ⊢
    simp only [primitive_loop]
    rw [if_pos ⟨hlen, h0⟩, if_pos hd]
  | succ n ih =>
    intro pos fuel hall hlen hd h0 hf
    obtain ⟨f, rfl⟩ : ∃ f, fuel = f + 1 := ⟨fuel - 1, by omega⟩
    obtain ⟨h1, h2, h3⟩ := hall pos (le_refl _) (by omega)
    simp only [primitive_loop]
    rw [if_pos ⟨by omega, by omega⟩, if_neg (by simp [h3]), if_neg (by omega)]
    have := ih (pos + 1) f (fun j hj1 hj2 => hall j (by omega) (by omega)) (by omega)
      (by rw [show pos + 1 + n = pos + (n + 1) by omega]; exact hd)
      (by rw [show pos + 1 + n = pos + (n + 1) by omega]; exact h0) (by omega)
    rw [this]
    congr 1
    omega

/-- The search for the closing quote over `n` bytes that are no quote, no
backslash and no NUL, followed by a quote, stops on that quote. -/
theorem string_scan_run (js : List Nat) (len : Nat) :
    ∀ n pos fuel,
      (∀ j, pos ≤ j → j < pos + n →
        byteAt js j ≠ 0 ∧ byteAt js j ≠ 34 ∧ byteAt js j ≠ 92) →
      pos + n < len → byteAt js (pos + n) = 34 →
      n < fuel → string_scan js len fuel pos = PrimScan.found (pos + n) := by
  intro n
  induction n with
  | zero =>
    intro pos fuel _ hlen hq hf
    obtain ⟨f, rfl⟩ : ∃ f, fuel = f + 1 := ⟨fuel - 1, by omega⟩
    simp only [Nat.add_zero] at hlen hq ⊢
    simp only [string_scan]
    rw [if_pos ⟨hlen, by omega⟩, if_pos hq]
  | succ n ih =>
    intro pos fuel hall hlen hq hf
    obtain ⟨f, rfl⟩ : ∃ f, fuel = f + 1 := ⟨fuel - 1, by omega⟩
    obtain ⟨h1, h2, h3⟩ := hall pos (le_refl _) (by omega)
    simp only [string_scan]
    rw [if_pos ⟨by omega, h1⟩, if_neg h2, if_neg (by omega)]
    have := ih (pos + 1) f (fun j hj1 hj2 => hall j (by omega) (by omega)) (by omega)
      (by rw [show pos + 1 + n = pos + (n + 1) by omega]; exact hq) (by omega)
    rw [this]
    congr 1
    omega

/-- A call that completes rounds up to a loop-head state at which the input
is used up returns what the end-of-input check returns there. -/
theorem run_of_rounds (js : List Nat) (len nnodes : Nat) (parser : jx_parser_st)
    (nodes : Option (List jx_node)) (c1 : Int) (m1 : Mem)
    (hR : Rounds js len nnodes (parser.toknext : Int) { parser := parser, nodes := nodes }
      c1 m1)
    (hc : ¬ (m1.parser.pos < len ∧ byteAt js m1.parser.pos ≠ 0)) :
    parser_parse parser len js nnodes nodes = parse_finish c1 m1 := by
  unfold parser_parse
  rw [rounds_loop js len nnodes _ c1 _ m1 hR _ (len - m1.parser.pos) (le_refl _) (le_refl _)]
  exact parse_loop_done js len nnodes _ c1 m1 hc

/-- A call whose round at a loop-head state it reaches returns from inside the
`switch` returns just that. -/
theorem run_of_stop (js : List Nat) (len nnodes : Nat) (parser : jx_parser_st)
    (nodes : Option (List jx_node)) (c1 : Int) (m1 : Mem) (o : Outcome)
    (hR : Rounds js len nnodes (parser.toknext : Int) { parser := parser, nodes := nodes }
      c1 m1)
    (hc : m1.parser.pos < len ∧ byteAt js m1.parser.pos ≠ 0)
    (hs : parse_step js len nnodes c1 m1 = Flow.stop o) :
    parser_parse parser len js nnodes nodes = o := by
  unfold parser_parse
  rw [rounds_loop js len nnodes _ c1 _ m1 hR _ (len - m1.parser.pos - 1 + 1) (le_refl _)
    (by omega)]
  simp only [parse_loop, if_pos hc, hs]

/-- C9 as stated fails: on the 4-byte input `null`, with capacity 1, the
fill-mode call on a fresh state returns `JX_INVAL`, not 1, and leaves the state
and the array as they were: no token is written. -/
theorem bare_null_rejected :
    parser_parse (parser_init 0) 4 in_null 1 (some [blank]) =
        Outcome.ret JX_INVAL { parser := parser_init 0, nodes := some [blank] } ∧
      ¬ ∃ m, parser_parse (parser_init 0) 4 in_null 1 (some [blank]) = Outcome.ret 1 m := by
  have h : parser_parse (parser_init 0) 4 in_null 1 (some [blank]) =
      Outcome.ret JX_INVAL { parser := parser_init 0, nodes := some [blank] } := by
    decide
  refine ⟨h, ?_⟩
  rintro ⟨m, hm⟩
  rw [h] at hm
  simp [JX_INVAL] at hm

theorem literal_alone (h : Nat) (tl : List Nat) (bits : Int) (nnodes : Nat)
    (ns : List jx_node) (hh : isPrimStart h)
    (hall : ∀ b ∈ h :: tl, 32 ≤ b ∧ b ≤ 126 ∧ isDelim b = false) :
    parser_parse (parser_init bits) (h :: tl).length (h :: tl) nnodes (some ns) =
      Outcome.ret JX_INVAL { parser := parser_init bits, nodes := some ns } := by
  have hb0 : byteAt (h :: tl) 0 = h := byteAt_cons_zero h tl
  have h32 := (hall h (List.mem_cons_self _ _)).1
  refine run_of_stop (h :: tl) (h :: tl).length nnodes (parser_init bits) (some ns) _ _ _
    Rounds.refl ⟨by simp [parser_init], by simp only [parser_init, hb0]; omega⟩ ?_
  rw [parse_step_primitive _ _ _ _ _ (by simp only [parser_init, hb0]; exact hh)]
  unfold case_primitive
  have hpl : placed { parser := parser_init bits, nodes := some ns } = some true := by
    simp [placed, parser_init]
  rw [hpl]
  simp only [parse_primitive]
  cases hS : primitive_loop (h :: tl) (h :: tl).length
      ((h :: tl).length - (parser_init bits).pos) (parser_init bits).pos with
  | hang => exact absurd hS (primitive_loop_no_hang _ _ _ _ (le_refl _))
  | inval => simp [JX_INVAL, parser_init]
  | found q =>
    exfalso
    obtain ⟨_, hq, hd, _⟩ := primitive_loop_found _ _ _ _ _ hS
    have := (hall _ (byteAt_mem (h :: tl) q hq)).2.2
    rw [this] at hd
    simp at hd

theorem literal_then_space (h : Nat) (tl : List Nat) (w : Nat) (bits : Int) (nnodes : Nat)
    (t0 : jx_node) (rest : List jx_node) (ty : jx_type) (hh : isPrimStart h)
    (hall : ∀ b ∈ h :: tl, 32 ≤ b ∧ b ≤ 126 ∧ isDelim b = false)
    (hw : w = 9 ∨ w = 13 ∨ w = 10 ∨ w = 32) (hcap : 1 ≤ nnodes)
    (hty : primitive_type h = some ty) :
    parser_parse (parser_init bits) ((h :: tl).length + 1) (h :: tl ++ [w]) nnodes
        (some (t0 :: rest)) =
      Outcome.ret 1
        { parser := { bits := bits, nnodes := 0, pos := (h :: tl).length + 1, toknext := 1,
                      toksuper := -1 },
          nodes := some
            ({ type := ty, start := 0, end_ := ((h :: tl).length : Int), size := 0,
               parent := -1 } :: rest) } := by
  have hb0 : byteAt (h :: tl ++ [w]) 0 = h := by
    rw [List.cons_append]; exact byteAt_cons_zero h _
  have hbw : byteAt (h :: tl ++ [w]) (h :: tl).length = w := by
    have := byteAt_append_right (h :: tl) [w] 0
    simp [byteAt] at this ⊢
  have h32 := (hall h (List.mem_cons_self _ _)).1
  have hwd : isDelim w = true := by
    unfold isDelim
    rcases hw with hw | hw | hw | hw <;> simp [hw]
  have hscan : primitive_loop (h :: tl ++ [w]) ((h :: tl).length + 1)
      ((h :: tl).length + 1 - 0) 0 = PrimScan.found (0 + (h :: tl).length) := by
    refine primitive_loop_run _ _ (h :: tl).length 0 _ ?_ (by omega) ?_ ?_ (by omega)
    · intro j _ hj
      rw [byteAt_append_left _ _ _ (by omega)]
      exact hall _ (byteAt_mem _ _ (by omega))
    · rw [Nat.zero_add, hbw]; exact hwd
    · rw [Nat.zero_add, hbw]; omega
  have hcap0 : ¬ nnodes ≤ 0 := by omega
  have step1 : parse_step (h :: tl ++ [w]) ((h :: tl).length + 1) nnodes
      ((parser_init bits).toknext : Int)
      { parser := parser_init bits, nodes := some (t0 :: rest) } =
      Flow.next 1
        { parser := { bits := bits, nnodes := 0, pos := (h :: tl).length - 1, toknext := 1,
                      toksuper := -1 },
          nodes := some
            ({ type := ty, start := 0, end_ := ((h :: tl).length : Int), size := 0,
               parent := -1 } :: rest) } := by
    rw [parse_step_primitive _ _ _ _ _ (by simp only [parser_init, hb0]; exact hh)]
    unfold case_primitive
    have hpl : placed { parser := parser_init bits, nodes := some (t0 :: rest) } =
        some true := by
      simp [placed, parser_init]
    rw [hpl]
    simp only [parse_primitive, parser_init, hscan, hb0, hty]
    simp [node_alloc, hcap0, updNode, fill_node, count_child]
  have step2 : parse_step (h :: tl ++ [w]) ((h :: tl).length + 1) nnodes 1
      (bump { parser := { bits := bits, nnodes := 0, pos := (h :: tl).length - 1,
                          toknext := 1, toksuper := -1 },
              nodes := some
                ({ type := ty, start := 0, end_ := ((h :: tl).length : Int), size := 0,
                   parent := -1 } :: rest) }) =
      Flow.next 1
        { parser := { bits := bits, nnodes := 0, pos := (h :: tl).length, toknext := 1,
                      toksuper := -1 },
          nodes := some
            ({ type := ty, start := 0, end_ := ((h :: tl).length : Int), size := 0,
               parent := -1 } :: rest) } := by
    have hp : (h :: tl).length - 1 + 1 = (h :: tl).length := by simp
    rw [parse_step_ws _ _ _ _ _ (by simp only [bump, hp, hbw]; exact hw)]
    simp only [bump, hp]
  have hR := Rounds.step _ _ _ _ (Rounds.step _ _ _ _ Rounds.refl
    ⟨by simp [parser_init], by simp only [parser_init, hb0]; omega⟩ step1)
    ⟨by simp [bump], by
      have hp : (h :: tl).length - 1 + 1 = (h :: tl).length := by simp
      simp only [bump, hp, hbw]; omega⟩ step2
  rw [run_of_rounds _ _ _ _ _ _ _ hR (by simp [bump])]
  have hne : ¬ ((tl.length : Int) + 1 = -1) := by omega
  simp [parse_finish, bump, unmatched, hne]

/-- C9 (amended): a bare literal that is the entire input is rejected: for
every literal (a first byte that starts a primitive, printable bytes, no
delimiter among them) the fill-mode call on a fresh state returns `JX_INVAL`
and leaves the state (pos = 0, toknext = 0) and the array untouched, so for
`null`.  Followed by one whitespace byte, and with capacity at least 1, the
literal becomes one primitive token of the kind its first byte gives, with
`start = 0` and `end` the literal's length, and the call returns 1: for `null`
and a line feed, one Null token with `start = 0`, `end = 4`. -/
theorem bare_literal :
    (∀ (h : Nat) (tl : List Nat) (bits : Int) (nnodes : Nat) (ns : List jx_node),
      isPrimStart h → (∀ b ∈ h :: tl, 32 ≤ b ∧ b ≤ 126 ∧ isDelim b = false) →
      parser_parse (parser_init bits) (h :: tl).length (h :: tl) nnodes (some ns) =
        Outcome.ret JX_INVAL { parser := parser_init bits, nodes := some ns }) ∧
    (∀ (h : Nat) (tl : List Nat) (w : Nat) (bits : Int) (nnodes : Nat) (t0 : jx_node)
        (rest : List jx_node) (ty : jx_type),
      isPrimStart h → (∀ b ∈ h :: tl, 32 ≤ b ∧ b ≤ 126 ∧ isDelim b = false) →
      (w = 9 ∨ w = 13 ∨ w = 10 ∨ w = 32) → 1 ≤ nnodes → primitive_type h = some ty →
      parser_parse (parser_init bits) ((h :: tl).length + 1) (h :: tl ++ [w]) nnodes
          (some (t0 :: rest)) =
        Outcome.ret 1
          { parser := { bits := bits, nnodes := 0, pos := (h :: tl).length + 1,
                        toknext := 1, toksuper := -1 },
            nodes := some
              ({ type := ty, start := 0, end_ := ((h :: tl).length : Int), size := 0,
                 parent := -1 } :: rest) }) ∧
    (∀ (bits : Int) (nnodes : Nat) (ns : List jx_node),
      parser_parse (parser_init bits) 4 in_null nnodes (some ns) =
        Outcome.ret JX_INVAL { parser := parser_init bits, nodes := some ns }) ∧
    (∀ (bits : Int) (nnodes : Nat) (t0 : jx_node) (rest : List jx_node), 1 ≤ nnodes →
      parser_parse (parser_init bits) 5 in_null_lf nnodes (some (t0 :: rest)) =
        Outcome.ret 1
          { parser := { bits := bits, nnodes := 0, pos := 5, toknext := 1, toksuper := -1 },
            nodes := some
              ({ type := JX_NULL, start := 0, end_ := 4, size := 0, parent := -1 } ::
                rest) }) := by
  refine ⟨fun h tl bits nnodes ns hh hall => literal_alone h tl bits nnodes ns hh hall,
    fun h tl w bits nnodes t0 rest ty hh hall hw hcap hty =>
      literal_then_space h tl w bits nnodes t0 rest ty hh hall hw hcap hty, ?_, ?_⟩
  · intro bits nnodes ns
    exact literal_alone 110 [117, 108, 108] bits nnodes ns (by decide) (by decide)
  · intro bits nnodes t0 rest hcap
    exact literal_then_space 110 [117, 108, 108] 10 bits nnodes t0 rest JX_NULL (by decide)
      (by decide) (by decide) hcap (by decide)

theorem bare_literal_witness :
    (isPrimStart 116 ∧ (∀ b ∈ [116, 114, 117, 101], 32 ≤ b ∧ b ≤ 126 ∧ isDelim b = false) ∧
      parser_parse (parser_init 0) 4 [116, 114, 117, 101] 1 (some [blank]) =
        Outcome.ret JX_INVAL { parser := parser_init 0, nodes := some [blank] }) ∧
    (isPrimStart 116 ∧ (∀ b ∈ [116, 114, 117, 101], 32 ≤ b ∧ b ≤ 126 ∧ isDelim b = false) ∧
      (32 = 9 ∨ 32 = 13 ∨ 32 = 10 ∨ 32 = 32) ∧ 1 ≤ 1 ∧ primitive_type 116 = some JX_BOOL ∧
      parser_parse (parser_init 0) 5 [116, 114, 117, 101, 32] 1 (some [blank]) =
        Outcome.ret 1
          { parser := { bits := 0, nnodes := 0, pos := 5, toknext := 1, toksuper := -1 },
            nodes := some
              [{ type := JX_BOOL, start := 0, end_ := 4, size := 0, parent := -1 }] }) ∧
    (1 ≤ 1 ∧
      parser_parse (parser_init 0) 5 in_null_lf 1 (some [blank]) =
        Outcome.ret 1
          { parser := { bits := 0, nnodes := 0, pos := 5, toknext := 1, toksuper := -1 },
            nodes := some
              [{ type := JX_NULL, start := 0, end_ := 4, size := 0, parent := -1 }] }) :=
  ⟨⟨by decide, by decide,
      bare_literal.1 116 [114, 117, 101] 0 1 [blank] (by decide) (by decide)⟩,
    ⟨by decide, by decide, by decide, by decide, by decide,
      bare_literal.2.1 116 [114, 117, 101] 32 0 1 blank [] JX_BOOL (by decide) (by decide)
        (by decide) (by decide) (by decide)⟩,
    ⟨by decide, bare_literal.2.2.2 0 1 blank [] (by decide)⟩⟩

/-- C10 as stated fails: on the 6-byte input `{"k":}`, with capacity 2, the
fill-mode call on a fresh state returns 2, not `JX_INVAL`: the object
(`start = 0`, `end = 6`, `size = 1`) and its key (`start = 2`, `end = 3`,
`size = 0`, parent 0). -/
theorem missing_value_accepted :
    parser_parse (parser_init 0) 6 in_missing_value 2 (some [blank, blank]) =
        Outcome.ret 2
          { parser := { bits := 0, nnodes := 0, pos := 6, toknext := 2, toksuper := -1 },
            nodes := some
              [{ type := JX_OBJECT, start := 0, end_ := 6, size := 1, parent := -1 },
               { type := JX_STRING, start := 2, end_ := 3, size := 0, parent := 0 }] } ∧
      ¬ ∃ m, parser_parse (parser_init 0) 6 in_missing_value 2 (some [blank, blank]) =
        Outcome.ret JX_INVAL m := by
  have h : parser_parse (parser_init 0) 6 in_missing_value 2 (some [blank, blank]) =
      Outcome.ret 2
        { parser := { bits := 0, nnodes := 0, pos := 6, toknext := 2, toksuper := -1 },
          nodes := some
            [{ type := JX_OBJECT, start := 0, end_ := 6, size := 1, parent := -1 },
             { type := JX_STRING, start := 2, end_ := 3, size := 0, parent := 0 }] } := by
    decide
  refine ⟨h, ?_⟩
  rintro ⟨m, hm⟩
  rw [h] at hm
  simp [JX_INVAL] at hm

/-- C10 (amended): an object whose key and colon are followed directly by
the closing brace is accepted.  For every key text `k` free of quotes,
backslashes and NUL bytes, and every capacity of at least 2, the fill-mode call
on a fresh state over the `k.length + 5` bytes `{"` `k` `":}` returns 2 and
writes the object (`start = 0`, `end` the input length, `size = 1`) and the
key (the text between the quotes, `size = 0`, parent 0); so for `{"k":}`. -/
theorem key_without_value (k : List Nat) (bits : Int) (nnodes : Nat) (t0 t1 : jx_node)
    (rest : List jx_node) (hk : ∀ b ∈ k, b ≠ 0 ∧ b ≠ 34 ∧ b ≠ 92) (hcap : 2 ≤ nnodes) :
    parser_parse (parser_init bits) (k.length + 5) (123 :: 34 :: (k ++ [34, 58, 125])) nnodes
        (some (t0 :: t1 :: rest)) =
      Outcome.ret 2
        { parser := { bits := bits, nnodes := 0, pos := k.length + 5, toknext := 2,
                      toksuper := -1 },
          nodes := some
            ({ type := JX_OBJECT, start := 0, end_ := (k.length : Int) + 5, size := 1,
               parent := -1 } ::
             { type := JX_STRING, start := 2, end_ := (k.length : Int) + 2, size := 0,
               parent := 0 } :: rest) } := by
  have hb0 : byteAt (123 :: 34 :: (k ++ [34, 58, 125])) 0 = 123 := byteAt_cons_zero _ _
  have hb1 : byteAt (123 :: 34 :: (k ++ [34, 58, 125])) 1 = 34 := by
    rw [byteAt_cons_succ]; exact byteAt_cons_zero _ _
  have hbk : ∀ j, j < k.length →
      byteAt (123 :: 34 :: (k ++ [34, 58, 125])) (2 + j) ∈ k := by
    intro j hj
    rw [show 2 + j = j + 1 + 1 by omega, byteAt_cons_succ, byteAt_cons_succ,
      byteAt_append_left _ _ _ hj]
    exact byteAt_mem k j hj
  have hbt : ∀ i, byteAt (123 :: 34 :: (k ++ [34, 58, 125])) (k.length + 2 + i) =
      byteAt [34, 58, 125] i := by
    intro i
    rw [show k.length + 2 + i = k.length + i + 1 + 1 by omega, byteAt_cons_succ,
      byteAt_cons_succ, byteAt_append_right]
  have hq : byteAt (123 :: 34 :: (k ++ [34, 58, 125])) (k.length + 2) = 34 := hbt 0
  have hcolon : byteAt (123 :: 34 :: (k ++ [34, 58, 125])) (k.length + 3) = 58 := hbt 1
  have hbrace : byteAt (123 :: 34 :: (k ++ [34, 58, 125])) (k.length + 4) = 125 := hbt 2
  have hscan : string_scan (123 :: 34 :: (k ++ [34, 58, 125])) (k.length + 5)
      (k.length + 5 - (0 + 1 + 1)) (0 + 1 + 1) = PrimScan.found (k.length + 2) := by
    have := string_scan_run (123 :: 34 :: (k ++ [34, 58, 125])) (k.length + 5) k.length 2
      (k.length + 5 - (0 + 1 + 1))
      (fun j hj1 hj2 => by
        have := hbk (j - 2) (by omega)
        rw [show 2 + (j - 2) = j by omega] at this
        exact hk _ this)
      (by omega) (by rw [show 2 + k.length = k.length + 2 by omega]; exact hq) (by omega)
    rw [show 2 + k.length = k.length + 2 by omega] at this
    exact this
  have hcap0 : ¬ nnodes ≤ 0 := by omega
  have hcap1 : ¬ nnodes ≤ 1 := by omega
  have step1 : parse_step (123 :: 34 :: (k ++ [34, 58, 125])) (k.length + 5) nnodes
      ((parser_init bits).toknext : Int)
      { parser := parser_init bits, nodes := some (t0 :: t1 :: rest) } =
      Flow.next 1
        { parser := { bits := bits, nnodes := 0, pos := 0, toknext := 1, toksuper := 0 },
          nodes := some
            ({ type := JX_OBJECT, start := 0, end_ := -1, size := 0, parent := -1 } ::
              t1 :: rest) } := by
    rw [parse_step_open _ _ _ _ _ (by simp [parser_init, hb0])]
    simp [case_open, node_alloc, parser_init, hcap0, updNode, hb0]
  have step2 : parse_step (123 :: 34 :: (k ++ [34, 58, 125])) (k.length + 5) nnodes 1
      (bump { parser := { bits := bits, nnodes := 0, pos := 0, toknext := 1, toksuper := 0 },
              nodes := some
                ({ type := JX_OBJECT, start := 0, end_ := -1, size := 0, parent := -1 } ::
                  t1 :: rest) }) =
      Flow.next 2
        { parser := { bits := bits, nnodes := 0, pos := k.length + 2, toknext := 2,
                      toksuper := 0 },
          nodes := some
            ({ type := JX_OBJECT, start := 0, end_ := -1, size := 1, parent := -1 } ::
             { type := JX_STRING, start := 2, end_ := (k.length : Int) + 2, size := 0,
               parent := 0 } :: rest) } := by
    rw [parse_step_string _ _ _ _ _ (by simp only [bump]; exact hb1)]
    unfold case_string
    rw [parse_string_eq]
    simp only [bump, hscan]
    simp [string_close, node_alloc, hcap1, updNode, fill_node, count_child, nodeAt]
  have step3 : parse_step (123 :: 34 :: (k ++ [34, 58, 125])) (k.length + 5) nnodes 2
      (bump { parser := { bits := bits, nnodes := 0, pos := k.length + 2, toknext := 2,
                          toksuper := 0 },
              nodes := some
                ({ type := JX_OBJECT, start := 0, end_ := -1, size := 1, parent := -1 } ::
                 { type := JX_STRING, start := 2, end_ := (k.length : Int) + 2, size := 0,
                   parent := 0 } :: rest) }) =
      Flow.next 2
        { parser := { bits := bits, nnodes := 0, pos := k.length + 3, toknext := 2,
                      toksuper := 1 },
          nodes := some
            ({ type := JX_OBJECT, start := 0, end_ := -1, size := 1, parent := -1 } ::
             { type := JX_STRING, start := 2, end_ := (k.length : Int) + 2, size := 0,
               parent := 0 } :: rest) } := by
    rw [parse_step_colon _ _ _ _ _ (by simp only [bump]; exact hcolon)]
    simp [bump]
  have step4 : parse_step (123 :: 34 :: (k ++ [34, 58, 125])) (k.length + 5) nnodes 2
      (bump { parser := { bits := bits, nnodes := 0, pos := k.length + 3, toknext := 2,
                          toksuper := 1 },
              nodes := some
                ({ type := JX_OBJECT, start := 0, end_ := -1, size := 1, parent := -1 } ::
                 { type := JX_STRING, start := 2, end_ := (k.length : Int) + 2, size := 0,
                   parent := 0 } :: rest) }) =
      Flow.next 2
        { parser := { bits := bits, nnodes := 0, pos := k.length + 4, toknext := 2,
                      toksuper := -1 },
          nodes := some
            ({ type := JX_OBJECT, start := 0, end_ := (k.length : Int) + 5, size := 1,
               parent := -1 } ::
             { type := JX_STRING, start := 2, end_ := (k.length : Int) + 2, size := 0,
               parent := 0 } :: rest) } := by
    rw [parse_step_close _ _ _ _ _ (by simp only [bump]; exact Or.inl hbrace)]
    have hne : ¬ ((k.length : Int) + 2 = -1) := by omega
    simp [case_close, bump, hbrace, close_walk, nodeAt, updNode, hne]
    omega
  have hR := Rounds.step _ _ _ _ (Rounds.step _ _ _ _ (Rounds.step _ _ _ _
    (Rounds.step _ _ _ _ Rounds.refl
      ⟨by simp [parser_init], by simp [parser_init, hb0]⟩ step1)
      ⟨by simp [bump], by simp [bump, hb1]⟩ step2)
      ⟨by simp [bump], by simp [bump, hcolon]⟩ step3)
      ⟨by simp [bump], by simp [bump, hbrace]⟩ step4
  rw [run_of_rounds _ _ _ _ _ _ _ hR (by simp [bump])]
  have hne : ¬ ((k.length : Int) + 2 = -1) := by omega
  have hne2 : ¬ ((k.length : Int) + 5 = -1) := by omega
  simp [parse_finish, bump, unmatched, hne, hne2]

theorem key_without_value_witness :
    (∀ b ∈ [107], b ≠ 0 ∧ b ≠ 34 ∧ b ≠ 92) ∧ 2 ≤ 2 ∧
      parser_parse (parser_init 0) ([107].length + 5) (123 :: 34 :: ([107] ++ [34, 58, 125]))
          2 (some (blank :: blank :: [])) =
        Outcome.ret 2
          { parser := { bits := 0, nnodes := 0, pos := [107].length + 5, toknext := 2,
                        toksuper := -1 },
            nodes := some
              ({ type := JX_OBJECT, start := 0, end_ := (([107] : List Nat).length : Int) + 5,
                 size := 1, parent := -1 } ::
               { type := JX_STRING, start := 2, end_ := (([107] : List Nat).length : Int) + 2,
                 size := 0, parent := 0 } :: []) } :=
  ⟨by decide, by decide, key_without_value [107] 0 2 blank blank [] (by decide) (by decide)⟩

/-- C6 as stated fails: the 14-byte input `{"a":"x""b":2}` is accepted
(the call returns 5) and its member `"b":2` (key at offsets 9..10, ':' at
offset 11, value at 12..13) has its key, token 3, linked to token 1, the key
`"a"`, not to the object, token 0; the key `"a"` ends with size 2 and the
object with size 1, although two keys are written in it. -/
theorem member_key_parent_not_object :
    parser_parse (parser_init 0) 14 in_no_comma 5 (some (List.replicate 5 blank)) =
        Outcome.ret 5
          { parser := { bits := 0, nnodes := 0, pos := 14, toknext := 5, toksuper := -1 },
            nodes := some
              [{ type := JX_OBJECT, start := 0, end_ := 14, size := 1, parent := -1 },
               { type := JX_STRING, start := 2, end_ := 3, size := 2, parent := 0 },
               { type := JX_STRING, start := 6, end_ := 7, size := 0, parent := 1 },
               { type := JX_STRING, start := 9, end_ := 10, size := 1, parent := 1 },
               { type := JX_NUMBER, start := 12, end_ := 13, size := 0, parent := 3 }] } ∧
      byteAt in_no_comma 8 = 34 ∧ byteAt in_no_comma 10 = 34 ∧
      byteAt in_no_comma 11 = 58 := by
  decide

theorem members_run_any (bits : Int) (t0 t1 t2 t3 t4 : jx_node) (rest : List jx_node)
    (nnodes : Nat) (hcap : 5 ≤ nnodes) :
    parser_parse (parser_init bits) 15 in_members nnodes
        (some (t0 :: t1 :: t2 :: t3 :: t4 :: rest)) =
      Outcome.ret 5
        { parser := { bits := bits, nnodes := 0, pos := 15, toknext := 5, toksuper := -1 },
          nodes := some (toks_members ++ rest) } := by
  have h0 : ¬ nnodes ≤ 0 := by omega
  have h1 : ¬ nnodes ≤ 1 := by omega
  have h2 : ¬ nnodes ≤ 2 := by omega
  have h3 : ¬ nnodes ≤ 3 := by omega
  have h4 : ¬ nnodes ≤ 4 := by omega
  simp [parser_parse, parse_loop, parse_step, parser_init, in_members, toks_members, byteAt,
    bump, case_open, case_close, case_string, case_comma, parse_string, string_loop,
    count_child, case_primitive, placed, parse_primitive, primitive_loop, primitive_type,
    isPrimStart, isDelim, fill_node, node_alloc, updNode, nodeAt, close_walk, parse_finish,
    unmatched, h0, h1, h2, h3, h4]

/-- C6 (amended): how the scanner links tokens.  In any loop-head state
reached by a fill-mode call on a fresh state, a round that scans a token (a
string, a primitive or an opening bracket) and ends by `break` gives the token
the index `toknext` had, the `toksuper` of that moment as parent and size 0,
and adds one to the size of the token `toksuper` refers to, the other written
tokens staying as they were; a ':' makes the most recently allocated token the
current container; whitespace changes nothing.  So a value written after a key
and ':' has the key's index as parent and brings the key's size from 0 to 1,
and a key scanned while its object is the current container has the object's
index as parent and adds one to the object's size.  On `{"a":1,"b":"x"}`, with
capacity at least 5, the call returns 5 with token 0 = Object of size 2,
token 1 = String `a` with parent 0 and size 1, token 2 = Number with parent 1,
token 3 = String `b` with parent 0 and size 1, token 4 = String `x` with
parent 3. -/
theorem key_value_linking :
    (∀ (js : List Nat) (len nnodes : Nat) (bits : Int) (ns : List jx_node) (c c' : Int)
        (m m' : Mem),
      Rounds js len nnodes 0 { parser := parser_init bits, nodes := some ns } c m →
      tokenStart (byteAt js m.parser.pos) →
      parse_step js len nnodes c m = Flow.next c' m' → Linked m m') ∧
    (∀ (js : List Nat) (len nnodes : Nat) (c : Int) (m : Mem),
      byteAt js m.parser.pos = 58 →
      parse_step js len nnodes c m =
        Flow.next c
          { m with parser := { m.parser with toksuper := (m.parser.toknext : Int) - 1 } }) ∧
    (∀ (js : List Nat) (len nnodes : Nat) (c : Int) (m : Mem),
      (byteAt js m.parser.pos = 9 ∨ byteAt js m.parser.pos = 13 ∨
        byteAt js m.parser.pos = 10 ∨ byteAt js m.parser.pos = 32) →
      parse_step js len nnodes c m = Flow.next c m) ∧
    (∀ (bits : Int) (t0 t1 t2 t3 t4 : jx_node) (rest : List jx_node) (nnodes : Nat),
      5 ≤ nnodes →
      parser_parse (parser_init bits) 15 in_members nnodes
          (some (t0 :: t1 :: t2 :: t3 :: t4 :: rest)) =
        Outcome.ret 5
          { parser := { bits := bits, nnodes := 0, pos := 15, toknext := 5,
                        toksuper := -1 },
            nodes := some
              ({ type := JX_OBJECT, start := 0, end_ := 15, size := 2, parent := -1 } ::
               { type := JX_STRING, start := 2, end_ := 3, size := 1, parent := 0 } ::
               { type := JX_NUMBER, start := 5, end_ := 6, size := 0, parent := 1 } ::
               { type := JX_STRING, start := 8, end_ := 9, size := 1, parent := 0 } ::
               { type := JX_STRING, start := 12, end_ := 13, size := 0, parent := 3 } ::
               rest) }) := by
  refine ⟨?_, fun js len nnodes c m hb => parse_step_colon js len nnodes c m hb,
    fun js len nnodes c m hb => parse_step_ws js len nnodes c m hb, ?_⟩
  · intro js len nnodes bits ns c c' m m' hR hts hs
    have hI := Rounds_inv js len ns.length nnodes 0 c _ m hR (Inv_init js len bits ns)
    have hok := step_inv js len ns.length nnodes c m hI
    rw [hs] at hok
    exact hok.2.2.2.1 hts
  · intro bits t0 t1 t2 t3 t4 rest nnodes hcap
    exact members_run_any bits t0 t1 t2 t3 t4 rest nnodes hcap

theorem key_value_linking_witness :
    (Rounds in_members 15 5 0
        { parser := parser_init 0, nodes := some (List.replicate 5 blank) } 2 mem_at_value ∧
      tokenStart (byteAt in_members mem_at_value.parser.pos) ∧
      parse_step in_members 15 5 2 mem_at_value = Flow.next 3 mem_after_value ∧
      Linked mem_at_value mem_after_value) ∧
    (5 ≤ 5 ∧
      parser_parse (parser_init 0) 15 in_members 5
          (some (blank :: blank :: blank :: blank :: blank :: [])) =
        Outcome.ret 5
          { parser := { bits := 0, nnodes := 0, pos := 15, toknext := 5, toksuper := -1 },
            nodes := some
              ({ type := JX_OBJECT, start := 0, end_ := 15, size := 2, parent := -1 } ::
               { type := JX_STRING, start := 2, end_ := 3, size := 1, parent := 0 } ::
               { type := JX_NUMBER, start := 5, end_ := 6, size := 0, parent := 1 } ::
               { type := JX_STRING, start := 8, end_ := 9, size := 1, parent := 0 } ::
               { type := JX_STRING, start := 12, end_ := 13, size := 0, parent := 3 } ::
               []) }) := by
  have hR : Rounds in_members 15 5 0
      { parser := parser_init 0, nodes := some (List.replicate 5 blank) } 2 mem_at_value :=
    Rounds.step 2 _ 2
      { parser := { bits := 0, nnodes := 0, pos := 4, toknext := 2, toksuper := 1 },
        nodes := some
          [{ type := JX_OBJECT, start := 0, end_ := -1, size := 1, parent := -1 },
           { type := JX_STRING, start := 2, end_ := 3, size := 0, parent := 0 },
           blank, blank, blank] }
      (Rounds.step 1 _ 2
        { parser := { bits := 0, nnodes := 0, pos := 3, toknext := 2, toksuper := 0 },
          nodes := some
            [{ type := JX_OBJECT, start := 0, end_ := -1, size := 1, parent := -1 },
             { type := JX_STRING, start := 2, end_ := 3, size := 0, parent := 0 },
             blank, blank, blank] }
        (Rounds.step 0 _ 1
          { parser := { bits := 0, nnodes := 0, pos := 0, toknext := 1, toksuper := 0 },
            nodes := some
              [{ type := JX_OBJECT, start := 0, end_ := -1, size := 0, parent := -1 },
               blank, blank, blank, blank] }
          Rounds.refl (by decide) (by decide))
        (by decide) (by decide))
      (by decide) (by decide)
  have hs : parse_step in_members 15 5 2 mem_at_value = Flow.next 3 mem_after_value := by
    decide
  exact ⟨⟨hR, by decide, hs,
      key_value_linking.1 in_members 15 5 0 (List.replicate 5 blank) 2 3 mem_at_value
        mem_after_value hR (by decide) hs⟩,
    ⟨by decide, key_value_linking.2.2.2 0 blank blank blank blank blank [] 5 (by decide)⟩⟩

/-! ### Index safety -/

theorem Safe_same (nnodes : Nat) (p p' : jx_parser_st) (ns ns' : List jx_node)
    (hS : Safe nnodes p ns) (hlen : ns'.length = ns.length)
    (hold : ∀ i t, i < p.toknext → ns[i]? = some t →
      ∃ t', ns'[i]? = some t' ∧ t'.type = t.type ∧ t'.parent = t.parent)
    (htn : p'.toknext = p.toknext) (h1 : -1 ≤ p'.toksuper)
    (h2 : p'.toksuper < (p.toknext : Int)) : Safe nnodes p' ns' := by
  obtain ⟨hcap, htk, _, _, htok⟩ := hS
  refine ⟨by omega, by omega, h1, by omega, fun i hi => ?_⟩
  obtain ⟨t, ht, hp1, hp2, hkey⟩ := htok i (by omega)
  obtain ⟨t', ht', hty, hpar⟩ := hold i t (by omega) ht
  refine ⟨t', ht', by omega, by omega, fun tp' h0 htp' hobj => ?_⟩
  rw [hpar] at h0 htp'
  obtain ⟨tp, htp, _, _, _⟩ := htok t.parent.toNat (by omega)
  obtain ⟨tp2, htp2, hty2, _⟩ := hold t.parent.toNat tp (by omega) htp
  rw [htp'] at htp2
  injection htp2 with htp2
  subst htp2
  rw [hty]
  exact hkey tp h0 htp (by rw [← hty2]; exact hobj)

theorem Safe_new (nnodes : Nat) (p p' : jx_parser_st) (ns ns' : List jx_node)
    (hS : Safe nnodes p ns) (hcap : p.toknext < nnodes) (hlen : ns'.length = ns.length)
    (hold : ∀ i t, i < p.toknext → ns[i]? = some t →
      ∃ t', ns'[i]? = some t' ∧ t'.type = t.type ∧ t'.parent = t.parent)
    (tk : jx_node) (hnew : ns'[p.toknext]? = some tk)
    (hpar : -1 ≤ tk.parent ∧ tk.parent < (p.toknext : Int))
    (hkey : ∀ tp, 0 ≤ tk.parent → ns[tk.parent.toNat]? = some tp → tp.type = JX_OBJECT →
      tk.type = JX_STRING)
    (htn : p'.toknext = p.toknext + 1) (h1 : -1 ≤ p'.toksuper)
    (h2 : p'.toksuper < (p.toknext : Int) + 1) : Safe nnodes p' ns' := by
  have hS' := hS
  obtain ⟨hcap0, htk, _, _, htok⟩ := hS
  refine ⟨by omega, by omega, h1, by rw [htn]; push_cast; omega, fun i hi => ?_⟩
  by_cases hin : i = p.toknext
  · subst hin
    refine ⟨tk, hnew, hpar.1, hpar.2, fun tp' h0 htp' hobj => ?_⟩
    obtain ⟨tp, htp, _, _, _⟩ := htok tk.parent.toNat (by omega)
    obtain ⟨tp2, htp2, hty2, _⟩ := hold tk.parent.toNat tp (by omega) htp
    rw [htp'] at htp2
    injection htp2 with htp2
    subst htp2
    exact hkey tp h0 htp (by rw [← hty2]; exact hobj)
  · have hS2 := Safe_same nnodes p p ns ns' hS' hlen hold rfl (by omega) (by omega)
    obtain ⟨_, _, _, _, htok2⟩ := hS2
    exact htok2 i (by omega)

theorem Safe_nodeAt (nnodes : Nat) (p : jx_parser_st) (ns : List jx_node)
    (hS : Safe nnodes p ns) (i : Int) (h0 : 0 ≤ i) (h1 : i < (p.toknext : Int)) :
    ∃ t, nodeAt ns i = some t ∧ ns[i.toNat]? = some t ∧ -1 ≤ t.parent ∧ t.parent < i := by
  obtain ⟨_, _, _, _, htok⟩ := hS
  obtain ⟨t, ht, hp1, hp2, _⟩ := htok i.toNat (by omega)
  refine ⟨t, ?_, ht, hp1, by omega⟩
  unfold nodeAt
  simp [show ¬ i < 0 by omega, ht]

theorem safe_step_open (nnodes : Nat) (c : Int) (b : Nat) (m : Mem) (hS : MemSafe nnodes m) :
    StepSafe nnodes (case_open b nnodes c m) := by
  obtain ⟨ns, hns, hS⟩ := hS
  obtain ⟨parser, nodes⟩ := m
  simp only at hns hS
  subst hns
  have hS' := hS
  obtain ⟨hcap0, htk, hs1, hs2, htok⟩ := hS
  unfold case_open node_alloc
  simp only
  by_cases hcap : parser.toknext ≥ nnodes
  · rw [if_pos hcap]
    exact ⟨ns, rfl, hS'⟩
  · rw [if_neg hcap, if_pos (by omega)]
    simp only
    have hlt : parser.toknext < ns.length := by omega
    obtain ⟨t0, ht0⟩ : ∃ t0, ns[parser.toknext]? = some t0 :=
      ⟨ns[parser.toknext], by simp [hlt]⟩
    split
    · rename_i hsup
      have hsup2 : parser.toksuper ≠ (parser.toknext : Int) := by omega
      obtain ⟨t, ht, ht', _⟩ := Safe_nodeAt nnodes parser ns hS' parser.toksuper (by omega) hs2
      simp only [nodeAt_updNode, if_neg hsup2, ht]
      split
      · refine ⟨_, rfl, Safe_new nnodes parser _ ns _ hS' (by omega) (by simp [length_updNode])
          ?_ { t0 with start := -1, end_ := -1, size := 0, parent := -1 } ?_
          ⟨by simp, by simp only; omega⟩ (fun tp h0 => absurd h0 (by simp)) rfl hs1
          (by simp only; omega)⟩
        · intro i t hi hit
          have hne : i ≠ parser.toknext := by omega
          simp only [getElem?_updNode, if_neg hne, hit]
          exact ⟨t, rfl, rfl, rfl⟩
        · simp [getElem?_updNode, ht0]
      · rename_i hobj
        refine ⟨_, rfl, Safe_new nnodes parser _ ns _ hS' (by omega) (by simp [length_updNode])
          ?_ { type := if b = 123 then JX_OBJECT else JX_ARRAY, start := (parser.pos : Int),
               end_ := -1, size := 0, parent := parser.toksuper } ?_
          ⟨hs1, hs2⟩ ?_ rfl (by simp only; omega) (by simp only; omega)⟩
        · intro i t hi hit
          have hne : i ≠ parser.toknext := by omega
          simp only [getElem?_updNode, if_neg hne, hit]
          split
          · exact ⟨_, rfl, rfl, rfl⟩
          · exact ⟨t, rfl, rfl, rfl⟩
        · have hne : parser.toknext ≠ parser.toksuper.toNat := by omega
          simp [getElem?_updNode, ht0, hne]
        · intro tp _ htp hty
          simp only at htp
          rw [ht'] at htp
          injection htp with htp
          subst htp
          exact absurd hty hobj
    · rename_i hsup
      simp only [ne_eq, not_not] at hsup
      refine ⟨_, rfl, Safe_new nnodes parser _ ns _ hS' (by omega) (by simp [length_updNode])
        ?_ { type := if b = 123 then JX_OBJECT else JX_ARRAY, start := (parser.pos : Int),
             end_ := -1, size := 0, parent := -1 } ?_
        ⟨by simp, by simp only; omega⟩ (fun tp h0 => absurd h0 (by simp)) rfl
        (by simp only; omega) (by simp only; omega)⟩
      · intro i t hi hit
        have hne : i ≠ parser.toknext := by omega
        simp only [getElem?_updNode, if_neg hne, hit]
        exact ⟨t, rfl, rfl, rfl⟩
      · simp [getElem?_updNode, ht0]

theorem safe_child (nnodes : Nat) (c : Int) (parser : jx_parser_st) (ns : List jx_node)
    (hS : Safe nnodes parser ns) (hcap : parser.toknext < nnodes) (q : Nat) (ty : jx_type)
    (st en : Int)
    (hkey : ∀ tp, 0 ≤ parser.toksuper → ns[parser.toksuper.toNat]? = some tp →
      tp.type = JX_OBJECT → ty = JX_STRING) :
    StepSafe nnodes
      (count_child c
        { parser := { parser with pos := q, toknext := parser.toknext + 1 },
          nodes := some (updNode
            (fun t => { fill_node t ty st en with parent := parser.toksuper })
            (updNode (fun t => { t with start := -1, end_ := -1, size := 0, parent := -1 })
              ns parser.toknext) parser.toknext) }) := by
  have hS' := hS
  obtain ⟨hcap0, htk, hs1, hs2, htok⟩ := hS
  have hlt : parser.toknext < ns.length := by omega
  obtain ⟨t0, ht0⟩ : ∃ t0, ns[parser.toknext]? = some t0 :=
    ⟨ns[parser.toknext], by simp [hlt]⟩
  unfold count_child
  simp only
  split
  · rename_i hsup
    have hsup2 : parser.toksuper ≠ (parser.toknext : Int) := by omega
    obtain ⟨t, ht, ht', _⟩ := Safe_nodeAt nnodes parser ns hS' parser.toksuper (by omega) hs2
    simp only [nodeAt_updNode, if_neg hsup2, ht]
    refine ⟨_, rfl, Safe_new nnodes parser _ ns _ hS' hcap (by simp [length_updNode]) ?_
      { type := ty, start := st, end_ := en, size := 0, parent := parser.toksuper } ?_
      ⟨hs1, hs2⟩ hkey rfl hs1 (by simp only; omega)⟩
    · intro i t hi hit
      have hne : i ≠ parser.toknext := by omega
      simp only [getElem?_updNode, if_neg hne, hit]
      split
      · exact ⟨_, rfl, rfl, rfl⟩
      · exact ⟨t, rfl, rfl, rfl⟩
    · have hne : parser.toknext ≠ parser.toksuper.toNat := by omega
      simp [getElem?_updNode, ht0, hne, fill_node]
  · rename_i hsup
    refine ⟨_, rfl, Safe_new nnodes parser _ ns _ hS' hcap (by simp [length_updNode]) ?_
      { type := ty, start := st, end_ := en, size := 0, parent := parser.toksuper } ?_
      ⟨hs1, hs2⟩ hkey rfl hs1 (by simp only; omega)⟩
    · intro i t hi hit
      have hne : i ≠ parser.toknext := by omega
      simp only [getElem?_updNode, if_neg hne, hit]
      exact ⟨t, rfl, rfl, rfl⟩
    · simp [getElem?_updNode, ht0, fill_node]

theorem safe_step_string (js : List Nat) (len nnodes : Nat) (c : Int) (m : Mem)
    (hS : MemSafe nnodes m) : StepSafe nnodes (case_string js len nnodes c m) := by
  obtain ⟨ns, hns, hS⟩ := hS
  obtain ⟨parser, nodes⟩ := m
  simp only at hns hS
  subst hns
  have hS' := hS
  obtain ⟨hcap0, htk, hs1, hs2, htok⟩ := hS
  unfold case_string
  rw [parse_string_eq]
  simp only
  cases hSc : string_scan js len (len - (parser.pos + 1)) (parser.pos + 1) with
  | hang => exact absurd hSc (string_scan_no_hang _ _ _ _ (le_refl _))
  | inval =>
    simp only [show JX_INVAL < 0 by decide, if_true]
    exact ⟨ns, rfl, hS'⟩
  | found q =>
    simp only [string_close, node_alloc]
    by_cases hcap : parser.toknext ≥ nnodes
    · rw [if_pos hcap]
      simp only [show JX_NOMEM < 0 by decide, if_true]
      exact ⟨ns, rfl, hS'⟩
    · rw [if_neg hcap, if_pos (by omega)]
      simp only [show ¬ ((0 : Int) < 0) by omega, if_false]
      exact safe_child nnodes c parser ns hS' (by omega) q JX_STRING _ _ (fun _ _ _ _ => rfl)

theorem safe_step_primitive (js : List Nat) (len nnodes : Nat) (c : Int) (m : Mem)
    (hS : MemSafe nnodes m) (hb : isPrimStart (byteAt js m.parser.pos)) :
    StepSafe nnodes (case_primitive js len nnodes c m) := by
  obtain ⟨ns, hns, hS⟩ := hS
  obtain ⟨parser, nodes⟩ := m
  simp only at hns hS hb
  subst hns
  have hS' := hS
  obtain ⟨hcap0, htk, hs1, hs2, htok⟩ := hS
  have hpl : (placed { parser := parser, nodes := some ns } = some false) ∨
      (placed { parser := parser, nodes := some ns } = some true ∧
        ∀ tp, 0 ≤ parser.toksuper → ns[parser.toksuper.toNat]? = some tp →
          tp.type ≠ JX_OBJECT) := by
    unfold placed
    simp only
    split
    · obtain ⟨t, ht, ht', _⟩ := Safe_nodeAt nnodes parser ns hS' parser.toksuper (by omega) hs2
      simp only [ht]
      by_cases hbad : t.type = JX_OBJECT ∨ (t.type = JX_STRING ∧ t.size ≠ 0)
      · left; simp [hbad]
      · right
        refine ⟨by simp [hbad], fun tp _ htp hobj => ?_⟩
        rw [ht'] at htp
        injection htp with htp
        subst htp
        exact hbad (Or.inl hobj)
    · rename_i hsup
      right
      exact ⟨rfl, fun tp h0 => by omega⟩
  unfold case_primitive
  rcases hpl with hpl | ⟨hpl, hnobj⟩
  · rw [hpl]
    exact ⟨ns, rfl, hS'⟩
  · rw [hpl]
    simp only [parse_primitive]
    cases hSc : primitive_loop js len (len - parser.pos) parser.pos with
    | hang => exact absurd hSc (primitive_loop_no_hang _ _ _ _ (le_refl _))
    | inval =>
      simp only [show JX_INVAL < 0 by decide, if_true]
      exact ⟨ns, rfl, hS'⟩
    | found q =>
      simp only [node_alloc]
      by_cases hcap : parser.toknext ≥ nnodes
      · rw [if_pos hcap]
        simp only [show JX_NOMEM < 0 by decide, if_true]
        exact ⟨ns, rfl, hS'⟩
      · rw [if_neg hcap, if_pos (by omega)]
        obtain ⟨ty, hty, _⟩ := primitive_type_some _ hb
        simp only [hty, show ¬ ((0 : Int) < 0) by omega, if_false]
        exact safe_child nnodes c parser ns hS' (by omega) (q - 1) ty _ _
          (fun tp h0 htp hobj => absurd hobj (hnobj tp h0 htp))

theorem safe_step_comma (nnodes : Nat) (c : Int) (m : Mem) (hS : MemSafe nnodes m) :
    StepSafe nnodes (case_comma c m) := by
  obtain ⟨ns, hns, hS⟩ := hS
  obtain ⟨parser, nodes⟩ := m
  simp only at hns hS
  subst hns
  have hS' := hS
  obtain ⟨hcap0, htk, hs1, hs2, htok⟩ := hS
  unfold case_comma
  simp only
  split
  · obtain ⟨t, ht, _, hp1, hp2⟩ :=
      Safe_nodeAt nnodes parser ns hS' parser.toksuper (by omega) hs2
    simp only [ht]
    split
    · exact ⟨ns, rfl, Safe_same nnodes parser _ ns ns hS' rfl
        (fun i t _ hit => ⟨t, hit, rfl, rfl⟩) rfl hp1 (by simp only; omega)⟩
    · exact ⟨ns, rfl, hS'⟩
  · exact ⟨ns, rfl, hS'⟩

theorem safe_close_walk (nnodes : Nat) (c : Int) (parser : jx_parser_st) (ns : List jx_node)
    (type : jx_type) (hS : Safe nnodes parser ns) :
    ∀ fuel (i : Nat), i < fuel → i < parser.toknext →
      StepSafe nnodes (close_walk parser ns type c fuel (i : Int)) := by
  have hS' := hS
  obtain ⟨hcap0, htk, hs1, hs2, htok⟩ := hS
  intro fuel
  induction fuel with
  | zero => intro i h; omega
  | succ n ih =>
    intro i hi1 hi2
    obtain ⟨t, ht, ht', hp1, hp2⟩ :=
      Safe_nodeAt nnodes parser ns hS' (i : Int) (by omega) (by omega)
    simp only [close_walk, ht]
    split
    · split
      · exact ⟨ns, rfl, hS'⟩
      · refine ⟨_, rfl, Safe_same nnodes parser _ ns _ hS' (by simp [length_updNode]) ?_ rfl
          hp1 (by simp only; omega)⟩
        intro j tj hj hjt
        simp only [getElem?_updNode, hjt]
        split
        · exact ⟨_, rfl, rfl, rfl⟩
        · exact ⟨tj, rfl, rfl, rfl⟩
    · split
      · split
        · exact ⟨ns, rfl, hS'⟩
        · exact ⟨ns, rfl, hS'⟩
      · have h3 : t.parent = ((t.parent.toNat : Nat) : Int) := by omega
        rw [h3]
        exact ih _ (by omega) (by omega)

theorem safe_step_close (nnodes : Nat) (c : Int) (b : Nat) (m : Mem) (hS : MemSafe nnodes m) :
    StepSafe nnodes (case_close b c m) := by
  obtain ⟨ns, hns, hS⟩ := hS
  obtain ⟨parser, nodes⟩ := m
  simp only at hns hS
  subst hns
  have hS' := hS
  obtain ⟨hcap0, htk, hs1, hs2, htok⟩ := hS
  unfold case_close
  simp only
  split
  · exact ⟨ns, rfl, hS'⟩
  · rename_i h1
    have h2 : (parser.toknext : Int) - 1 = ((parser.toknext - 1 : Nat) : Int) := by omega
    rw [h2]
    exact safe_close_walk nnodes c parser ns _ hS' _ _ (by omega) (by omega)

/-- One round of the main loop from an index-safe memory in fill mode ends
without a fault and leaves an index-safe memory, also when it returns. -/
theorem step_safe (js : List Nat) (len nnodes : Nat) (c : Int) (m : Mem)
    (hS : MemSafe nnodes m) : StepSafe nnodes (parse_step js len nnodes c m) := by
  unfold parse_step
  simp only
  split
  · exact safe_step_open nnodes c _ m hS
  · split
    · exact safe_step_close nnodes c _ m hS
    · split
      · exact safe_step_string js len nnodes c m hS
      · split
        · exact hS
        · split
          · obtain ⟨ns, hns, hS'⟩ := hS
            exact ⟨ns, hns, Safe_same nnodes m.parser _ ns ns hS' rfl
              (fun i t _ hit => ⟨t, hit, rfl, rfl⟩) rfl (by simp only; omega)
              (by simp only; omega)⟩
          · split
            · exact safe_step_comma nnodes c m hS
            · split
              · rename_i h; exact safe_step_primitive js len nnodes c m hS h
              · exact hS

theorem Rounds_safe (js : List Nat) (len nnodes : Nat) (c c1 : Int) (m m1 : Mem)
    (hr : Rounds js len nnodes c m c1 m1) (hS : MemSafe nnodes m) : MemSafe nnodes m1 := by
  induction hr with
  | refl => exact hS
  | step c3 m3 c4 m4 _ hc3 hs3 ih =>
    have := step_safe js len nnodes c3 m3 ih
    rw [hs3] at this
    exact this

theorem finish_safe (nnodes : Nat) (c : Int) (m : Mem) (hS : MemSafe nnodes m) :
    ∃ r, parse_finish c m = Outcome.ret r m := by
  obtain ⟨ns, hns, hcap, htk, _⟩ := hS
  unfold parse_finish
  simp only [hns]
  rcases unmatched_spec ns m.parser.toknext (by omega) with h | ⟨h, _⟩
  · exact ⟨JX_INVAL, by simp [h]⟩
  · exact ⟨c, by simp [h]⟩

/-- A fill-mode call on an index-safe state returns, and the state it leaves
is index-safe. -/
theorem call_safe (js : List Nat) (len nnodes : Nat) (parser : jx_parser_st)
    (ns : List jx_node) (hS : Safe nnodes parser ns) :
    ∃ r m', parser_parse parser len js nnodes (some ns) = Outcome.ret r m' ∧
      MemSafe nnodes m' := by
  unfold parser_parse
  obtain ⟨c1, m1, hR, hcase⟩ := loop_decomp js len nnodes (len - parser.pos)
    (parser.toknext : Int) { parser := parser, nodes := some ns } (le_refl _)
  have hS1 : MemSafe nnodes m1 := Rounds_safe js len nnodes _ c1 _ m1 hR ⟨ns, rfl, hS⟩
  rcases hcase with ⟨_, hfin⟩ | ⟨_, hstop⟩
  · obtain ⟨r, hr⟩ := finish_safe nnodes c1 m1 hS1
    exact ⟨r, m1, by rw [hfin, hr], hS1⟩
  · have hst := step_safe js len nnodes c1 m1 hS1
    rw [hstop] at hst
    cases hO : parse_loop js len nnodes (len - parser.pos) (parser.toknext : Int)
        { parser := parser, nodes := some ns } with
    | hang => rw [hO] at hst; exact absurd hst (by simp [StepSafe])
    | fault => rw [hO] at hst; exact absurd hst (by simp [StepSafe])
    | ret r m' => rw [hO] at hst; exact ⟨r, m', rfl, hst⟩

theorem Rounds_count_safe (js : List Nat) (len nnodes0 nnodes : Nat) (c c1 : Int) (m m1 : Mem)
    (ns : List jx_node) (hr : Rounds js len nnodes0 c m c1 m1) (hn : m.nodes = none)
    (hS : Safe nnodes m.parser ns) : m1.nodes = none ∧ Safe nnodes m1.parser ns := by
  induction hr with
  | refl => exact ⟨hn, hS⟩
  | step c3 m3 c4 m4 _ hc3 hs3 ih =>
    obtain ⟨hn3, hS3⟩ := ih
    rw [step_count js len nnodes0 c3 m3 hn3] at hs3
    cases hL : lex js len m3.parser.pos with
    | none => rw [hL] at hs3; simp at hs3
    | some dp =>
      rw [hL] at hs3
      simp only [Flow.next.injEq] at hs3
      obtain ⟨_, hm4⟩ := hs3
      subst hm4
      refine ⟨by simpa [bump] using hn3, ?_⟩
      have hS3c := hS3
      obtain ⟨_, _, hs1, hs2, _⟩ := hS3c
      refine Safe_same nnodes m3.parser _ ns ns hS3 rfl (fun i t _ hit => ⟨t, hit, rfl, rfl⟩)
        rfl ?_ ?_
      · simp only [bump]; split <;> omega
      · simp only [bump]; split <;> omega

/-- A count-mode call returns from any state; it leaves the array alone and
keeps a parser state index-safe for it. -/
theorem call_count (js : List Nat) (len nnodes0 : Nat) (parser : jx_parser_st) :
    ∃ r parser', parser_parse parser len js nnodes0 none =
        Outcome.ret r { parser := parser', nodes := none } ∧
      ∀ nnodes ns, Safe nnodes parser ns → Safe nnodes parser' ns := by
  unfold parser_parse
  obtain ⟨c1, m1, hR, hcase⟩ := loop_decomp js len nnodes0 (len - parser.pos)
    (parser.toknext : Int) { parser := parser, nodes := none } (le_refl _)
  have hn1 : m1.nodes = none := by
    have hg : ∀ (c c1 : Int) (m m1 : Mem), Rounds js len nnodes0 c m c1 m1 →
        m.nodes = none → m1.nodes = none := by
      intro c c1 m m1 hr
      induction hr with
      | refl => exact id
      | step c3 m3 c4 m4 _ _ hs3 ih =>
        intro hn
        have hg := step_gen js len nnodes0 c3 m3
        rw [hs3] at hg
        simpa [bump] using hg.2.2.1 (ih hn)
    exact hg _ _ _ _ hR rfl
  have hsafe : ∀ nnodes ns, Safe nnodes parser ns → Safe nnodes m1.parser ns :=
    fun nnodes ns hS => (Rounds_count_safe js len nnodes0 nnodes _ c1 _ m1 ns hR rfl hS).2
  obtain ⟨p1, n1⟩ := m1
  simp only at hn1 hsafe
  subst hn1
  rcases hcase with ⟨_, hfin⟩ | ⟨_, hstop⟩
  · exact ⟨c1, p1, by rw [hfin]; exact finish_count c1 _ rfl, hsafe⟩
  · rw [step_count js len nnodes0 c1 _ rfl] at hstop
    cases hL : lex js len p1.pos with
    | none =>
      simp only [hL] at hstop
      injection hstop with hstop
      exact ⟨JX_INVAL, p1, hstop.symm, hsafe⟩
    | some dp => simp [hL] at hstop

theorem Reach_safe (nnodes : Nat) (parser : jx_parser_st) (ns : List jx_node)
    (hR : Reach nnodes parser ns) : Safe nnodes parser ns := by
  induction hR with
  | init bits ns hlen =>
    refine ⟨hlen, by simp [parser_init], by simp [parser_init], by simp [parser_init], ?_⟩
    intro i hi
    simp [parser_init] at hi
  | fill parser ns len js r parser' ns' _ hcall ih =>
    obtain ⟨r2, m2, h2, ns2, hns2, hS2⟩ := call_safe js len nnodes parser ns ih
    rw [hcall] at h2
    simp only [Outcome.ret.injEq] at h2
    rw [← h2.2] at hns2 hS2
    simp only [Option.some.injEq] at hns2
    subst hns2
    exact hS2
  | count parser ns len js nnodes0 r parser' _ hcall ih =>
    obtain ⟨r2, p2, h2, hS2⟩ := call_count js len nnodes0 parser
    rw [hcall] at h2
    simp only [Outcome.ret.injEq, Mem.mk.injEq, and_true] at h2
    rw [h2.2]
    exact hS2 nnodes ns ih

theorem StepSafe_ends (nnodes : Nat) (f : Flow) (h : StepSafe nnodes f) :
    f ≠ Flow.stop Outcome.fault ∧ f ≠ Flow.stop Outcome.hang := by
  constructor
  · intro hf; rw [hf] at h; exact h
  · intro hf; rw [hf] at h; exact h

/-- The scan of `{"a":1,"b":"x"}` into five entries gives a reachable state. -/
theorem reach_members : Reach 5 mem_members.parser toks_members :=
  Reach.fill (parser_init 0) (List.replicate 5 blank) 15 in_members 5 mem_members.parser
    toks_members (Reach.init 0 (List.replicate 5 blank) (by decide)) members_run

/-- C16 (object children are string keys only): in every state a caller can
hold after calls of `parser_parse` from `parser_init` on a token array of
capacity `nnodes` (whatever the buffers and whatever the calls returned), and
in every loop-head state of a further fill-mode call from such a state, every
written token whose parent index refers to a token of kind Object is itself of
kind String. -/
theorem object_children_are_keys (nnodes : Nat) (parser : jx_parser_st) (ns : List jx_node)
    (hR : Reach nnodes parser ns) (js : List Nat) (len : Nat) (c1 : Int) (m1 : Mem)
    (hrounds : Rounds js len nnodes (parser.toknext : Int)
      { parser := parser, nodes := some ns } c1 m1) :
    ∃ ns1, m1.nodes = some ns1 ∧
      ∀ i t tp, i < m1.parser.toknext → ns1[i]? = some t → nodeAt ns1 t.parent = some tp →
        tp.type = JX_OBJECT → t.type = JX_STRING := by
  obtain ⟨ns1, hns1, _, _, _, _, htok⟩ :=
    Rounds_safe js len nnodes _ c1 _ m1 hrounds ⟨ns, rfl, Reach_safe nnodes parser ns hR⟩
  refine ⟨ns1, hns1, fun i t tp hi ht htp hobj => ?_⟩
  obtain ⟨t', ht', _, _, hkey⟩ := htok i hi
  rw [ht] at ht'
  simp only [Option.some.injEq] at ht'
  subst ht'
  unfold nodeAt at htp
  split at htp
  · simp at htp
  · exact hkey tp (by omega) htp hobj

theorem object_children_are_keys_witness :
    Reach 5 mem_members.parser toks_members ∧
      Rounds in_members 15 5 (mem_members.parser.toknext : Int)
        { parser := mem_members.parser, nodes := some toks_members } 5 mem_members ∧
      ∃ ns1, mem_members.nodes = some ns1 ∧
        ∀ i t tp, i < mem_members.parser.toknext → ns1[i]? = some t →
          nodeAt ns1 t.parent = some tp → tp.type = JX_OBJECT → t.type = JX_STRING :=
  ⟨reach_members, Rounds.refl,
    object_children_are_keys 5 mem_members.parser toks_members reach_members in_members 15 5
      mem_members Rounds.refl⟩

/-- C19 (termination): from every state a caller can hold after calls of
`parser_parse` from `parser_init` on a token array of capacity `nnodes`, and
for every buffer and length, a call in fill mode returns and a call in count
mode (whatever capacity it is given) returns: neither runs out of the fuel of
the embedding.  Every written token's parent is -1 or strictly less than the
token's own index, and the parent-chain walk of the closing-bracket case,
which follows these parents, ends within `toknext` steps. -/
theorem call_terminates (nnodes : Nat) (parser : jx_parser_st) (ns : List jx_node)
    (hR : Reach nnodes parser ns) (js : List Nat) (len : Nat) :
    (∃ r m, parser_parse parser len js nnodes (some ns) = Outcome.ret r m) ∧
      (∀ nnodes0, ∃ r m, parser_parse parser len js nnodes0 none = Outcome.ret r m) ∧
      (∀ i, i < parser.toknext → ∃ t, ns[i]? = some t ∧
        (t.parent = -1 ∨ (0 ≤ t.parent ∧ t.parent < (i : Int)))) ∧
      ∀ type count (i : Nat), i < parser.toknext →
        close_walk parser ns type count (i + 1) (i : Int) ≠ Flow.stop Outcome.hang := by
  have hS := Reach_safe nnodes parser ns hR
  refine ⟨?_, ?_, ?_, ?_⟩
  · obtain ⟨r, m, h, _⟩ := call_safe js len nnodes parser ns hS
    exact ⟨r, m, h⟩
  · intro nnodes0
    obtain ⟨r, p, h, _⟩ := call_count js len nnodes0 parser
    exact ⟨r, _, h⟩
  · intro i hi
    obtain ⟨t, ht, h1, h2, _⟩ := hS.2.2.2.2 i hi
    exact ⟨t, ht, by omega⟩
  · intro type count i hi
    exact (StepSafe_ends nnodes _
      (safe_close_walk nnodes count parser ns type hS (i + 1) i (by omega) hi)).2

theorem call_terminates_witness :
    Reach 5 mem_members.parser toks_members ∧
      ((∃ r m, parser_parse mem_members.parser 15 in_members 5 (some toks_members) =
          Outcome.ret r m) ∧
        (∀ nnodes0, ∃ r m, parser_parse mem_members.parser 15 in_members nnodes0 none =
          Outcome.ret r m) ∧
        (∀ i, i < mem_members.parser.toknext → ∃ t, toks_members[i]? = some t ∧
          (t.parent = -1 ∨ (0 ≤ t.parent ∧ t.parent < (i : Int)))) ∧
        ∀ type count (i : Nat), i < mem_members.parser.toknext →
          close_walk mem_members.parser toks_members type count (i + 1) (i : Int) ≠
            Flow.stop Outcome.hang) :=
  ⟨reach_members, call_terminates 5 mem_members.parser toks_members reach_members in_members 15⟩

/-- C20 (index safety): in every state a caller can hold after calls of
`parser_parse` from `parser_init` on a token array of capacity `nnodes`, and in
every loop-head state of a further fill-mode call from such a state,
`-1 <= toksuper < toknext <= nnodes` and every written token's parent lies in
`[-1, its own index)`; and no round of that call, nor its end-of-input walk,
takes the error branch of the embedding's indexing: the round at a loop head
does not fault and the call does not fault. -/
theorem index_safety (nnodes : Nat) (parser : jx_parser_st) (ns : List jx_node)
    (hR : Reach nnodes parser ns) (js : List Nat) (len : Nat) :
    parser_parse parser len js nnodes (some ns) ≠ Outcome.fault ∧
      ∀ c1 m1, Rounds js len nnodes (parser.toknext : Int)
          { parser := parser, nodes := some ns } c1 m1 →
        parse_step js len nnodes c1 m1 ≠ Flow.stop Outcome.fault ∧
        ∃ ns1, m1.nodes = some ns1 ∧
          -1 ≤ m1.parser.toksuper ∧ m1.parser.toksuper < (m1.parser.toknext : Int) ∧
          m1.parser.toknext ≤ nnodes ∧ nnodes ≤ ns1.length ∧
          ∀ i, i < m1.parser.toknext → ∃ t, ns1[i]? = some t ∧
            -1 ≤ t.parent ∧ t.parent < (i : Int) := by
  have hS := Reach_safe nnodes parser ns hR
  constructor
  · obtain ⟨r, m, h, _⟩ := call_safe js len nnodes parser ns hS
    rw [h]
    simp
  · intro c1 m1 hrounds
    have hS1 := Rounds_safe js len nnodes _ c1 _ m1 hrounds ⟨ns, rfl, hS⟩
    refine ⟨(StepSafe_ends nnodes _ (step_safe js len nnodes c1 m1 hS1)).1, ?_⟩
    obtain ⟨ns1, hns1, hcap, htk, h1, h2, htok⟩ := hS1
    refine ⟨ns1, hns1, h1, h2, htk, hcap, fun i hi => ?_⟩
    obtain ⟨t, ht, hp1, hp2, _⟩ := htok i hi
    exact ⟨t, ht, hp1, hp2⟩

theorem index_safety_witness :
    Reach 5 mem_members.parser toks_members ∧
      (parser_parse mem_members.parser 15 in_members 5 (some toks_members) ≠ Outcome.fault ∧
        ∀ c1 m1, Rounds in_members 15 5 (mem_members.parser.toknext : Int)
            { parser := mem_members.parser, nodes := some toks_members } c1 m1 →
          parse_step in_members 15 5 c1 m1 ≠ Flow.stop Outcome.fault ∧
          ∃ ns1, m1.nodes = some ns1 ∧
            -1 ≤ m1.parser.toksuper ∧ m1.parser.toksuper < (m1.parser.toknext : Int) ∧
            m1.parser.toknext ≤ 5 ∧ 5 ≤ ns1.length ∧
            ∀ i, i < m1.parser.toknext → ∃ t, ns1[i]? = some t ∧
              -1 ≤ t.parent ∧ t.parent < (i : Int)) :=
  ⟨reach_members, index_safety 5 mem_members.parser toks_members reach_members in_members 15⟩

/-! ### The cursor -/

theorem hex_loop_nonzero (js : List Nat) (len : Nat) :
    ∀ n pos q, hex_loop js len n pos = some q →
      ∀ j, pos ≤ j → j < q → byteAt js j ≠ 0 := by
  intro n
  induction n with
  | zero => intro pos q h j h1 h2; simp [hex_loop] at h; omega
  | succ n ih =>
    intro pos q h j h1 h2
    simp only [hex_loop] at h
    split at h
    · rename_i hc
      split at h
      · by_cases hj : j = pos
        · rw [hj]; exact hc.2
        · exact ih _ _ h j (by omega) h2
      · simp at h
    · simp at h; omega

theorem escape_nonzero (js : List Nat) (len pos q : Nat) (h : escape js len pos = some q) :
    ∀ j, pos < j → j ≤ q → byteAt js j ≠ 0 := by
  intro j h1 h2
  unfold escape at h
  simp only at h
  split at h
  · rename_i hc
    simp only [Option.some.injEq] at h
    have : j = pos + 1 := by omega
    rw [this]; omega
  · split at h
    · rename_i hu
      split at h
      · simp at h
      · rename_i q' hq
        simp only [Option.some.injEq] at h
        by_cases hj : j = pos + 1
        · rw [hj]; omega
        · exact hex_loop_nonzero js len 4 (pos + 2) q' hq j (by omega) (by omega)
    · simp at h

theorem string_scan_nonzero (js : List Nat) (len : Nat) :
    ∀ fuel pos q, string_scan js len fuel pos = PrimScan.found q →
      ∀ j, pos ≤ j → j ≤ q → byteAt js j ≠ 0 := by
  intro fuel
  induction fuel with
  | zero =>
    intro pos q h
    simp only [string_scan] at h
    split at h <;> simp at h
  | succ n ih =>
    intro pos q h j h1 h2
    simp only [string_scan] at h
    split at h
    · rename_i hc
      split at h
      · injection h with h
        subst h
        have : j = pos := by omega
        rw [this]; exact hc.2
      · split at h
        · split at h
          · simp at h
          · rename_i e he
            by_cases hj : j = pos
            · rw [hj]; exact hc.2
            · by_cases hje : j ≤ e
              · exact escape_nonzero js len pos e he j (by omega) hje
              · exact ih _ _ h j (by omega) h2
        · by_cases hj : j = pos
          · rw [hj]; exact hc.2
          · exact ih _ _ h j (by omega) h2
    · simp at h

/-- A round the lexical view accepts at a byte inside the input stays inside
the input and passes over no NUL byte. -/
theorem lex_nonzero (js : List Nat) (len pos : Nat) (d : Int) (p : Nat)
    (h : lex js len pos = some (d, p)) (hc : pos < len ∧ byteAt js pos ≠ 0) :
    p < len ∧ ∀ j, pos ≤ j → j ≤ p → byteAt js j ≠ 0 := by
  have hsame : p = pos → p < len ∧ ∀ j, pos ≤ j → j ≤ p → byteAt js j ≠ 0 := by
    intro hp
    subst hp
    exact ⟨hc.1, fun j h1 h2 => by have : j = p := by omega
                                   rw [this]; exact hc.2⟩
  unfold lex at h
  simp only at h
  split at h
  · simp at h; exact hsame h.2.symm
  · split at h
    · simp at h; exact hsame h.2.symm
    · split at h
      · split at h
        · rename_i q hq
          simp only [Option.some.injEq, Prod.mk.injEq] at h
          obtain ⟨_, hqp⟩ := h
          subst hqp
          obtain ⟨_, h2, _⟩ := string_scan_found _ _ _ _ _ hq
          refine ⟨h2, fun j h3 h4 => ?_⟩
          by_cases hj : j = pos
          · rw [hj]; exact hc.2
          · exact string_scan_nonzero _ _ _ _ _ hq j (by omega) h4
        · simp at h
      · split at h
        · simp at h; exact hsame h.2.symm
        · split at h
          · simp at h; exact hsame h.2.symm
          · split at h
            · simp at h; exact hsame h.2.symm
            · split at h
              · split at h
                · rename_i q hq
                  simp only [Option.some.injEq, Prod.mk.injEq] at h
                  obtain ⟨_, hqp⟩ := h
                  subst hqp
                  obtain ⟨h1, h2, _, h4⟩ := primitive_loop_found _ _ _ _ _ hq
                  refine ⟨by omega, fun j h5 h6 => ?_⟩
                  by_cases hj : j = pos
                  · rw [hj]; exact hc.2
                  · have := (h4 j h5 (by omega)).2.1
                    omega
                · simp at h
              · simp at h

theorem Rounds_nonzero (js : List Nat) (len nnodes : Nat) (c c1 : Int) (m m1 : Mem)
    (hr : Rounds js len nnodes c m c1 m1) (hle : m.parser.pos ≤ len) :
    m1.parser.pos ≤ len ∧ ∀ j, m.parser.pos ≤ j → j < m1.parser.pos → byteAt js j ≠ 0 := by
  induction hr with
  | refl => exact ⟨hle, fun j h1 h2 => by omega⟩
  | step c3 m3 c4 m4 hr3 hc3 hs3 ih =>
    have hg := step_gen js len nnodes c3 m3
    rw [hs3] at hg
    obtain ⟨⟨d, hlex, _⟩, _⟩ := hg
    obtain ⟨h1, h2⟩ := lex_nonzero js len _ d _ hlex hc3
    refine ⟨by simp only [bump]; omega, fun j h3 h4 => ?_⟩
    simp only [bump] at h4
    by_cases hj : j < m3.parser.pos
    · exact ih.2 j h3 hj
    · exact h2 j (by omega) (by omega)

theorem finish_mem (c r : Int) (m m' : Mem) (h : parse_finish c m = Outcome.ret r m') :
    m' = m := by
  unfold parse_finish at h
  split at h
  · simp at h; exact h.2.symm
  · split at h
    · simp at h
    · simp at h; exact h.2.symm
    · simp at h; exact h.2.symm

theorem close_walk_stop (parser : jx_parser_st) (ns : List jx_node) (type : jx_type)
    (c : Int) : ∀ fuel i r m',
    close_walk parser ns type c fuel i = Flow.stop (Outcome.ret r m') →
      m' = { parser := parser, nodes := some ns } := by
  intro fuel
  induction fuel with
  | zero => intro i r m' h; simp [close_walk] at h
  | succ n ih =>
    intro i r m' h
    simp only [close_walk] at h
    split at h
    · simp at h
    · split at h
      · split at h
        · simp at h; exact h.2.symm
        · simp at h
      · split at h
        · split at h
          · simp at h; exact h.2.symm
          · simp at h
        · exact ih _ _ _ h
theorem count_child_stop (c r : Int) (m m' : Mem) :
    count_child c m ≠ Flow.stop (Outcome.ret r m') := by
  unfold count_child
  split
  · simp
  · split
    · split <;> simp
    · simp

theorem case_open_stop (b nnodes : Nat) (c r : Int) (m m' : Mem)
    (h : case_open b nnodes c m = Flow.stop (Outcome.ret r m')) :
    m'.parser.pos = m.parser.pos := by
  obtain ⟨parser, nodes⟩ := m
  cases nodes with
  | none => simp [case_open] at h
  | some ns =>
    unfold case_open node_alloc at h
    simp only at h
    by_cases h1 : parser.toknext ≥ nnodes
    · simp [h1] at h; rw [← h.2]
    · by_cases h2 : parser.toknext < ns.length
      · simp only [if_neg h1, if_pos h2] at h
        split at h
        · split at h
          · simp at h
          · split at h
            · simp at h; rw [← h.2]
            · simp at h
        · simp at h
      · simp [h1, h2] at h

theorem parse_string_stop (js : List Nat) (len nnodes : Nat) (r : Int) (m m' : Mem)
    (h : parse_string m js len nnodes = Outcome.ret r m') (hr : r < 0) :
    m'.parser.pos = m.parser.pos := by
  obtain ⟨parser, nodes⟩ := m
  rw [parse_string_eq] at h
  split at h
  · simp at h
  · simp at h; rw [← h.2]
  · cases nodes with
    | none => simp [string_close] at h; omega
    | some ns =>
      unfold string_close node_alloc at h
      simp only at h
      by_cases h1 : parser.toknext ≥ nnodes
      · simp [h1] at h; rw [← h.2]
      · by_cases h2 : parser.toknext < ns.length
        · simp [h1, h2] at h; omega
        · simp [h1, h2] at h

theorem parse_primitive_stop (js : List Nat) (len nnodes : Nat) (r : Int) (m m' : Mem)
    (h : parse_primitive m js len nnodes = Outcome.ret r m') (hr : r < 0) :
    m'.parser.pos = m.parser.pos := by
  obtain ⟨parser, nodes⟩ := m
  unfold parse_primitive at h
  simp only at h
  split at h
  · simp at h
  · simp at h; rw [← h.2]
  · cases nodes with
    | none => simp at h; omega
    | some ns =>
      unfold node_alloc at h
      simp only at h
      by_cases h1 : parser.toknext ≥ nnodes
      · simp [h1] at h; rw [← h.2]
      · by_cases h2 : parser.toknext < ns.length
        · simp only [if_neg h1, if_pos h2] at h
          split at h
          · simp at h
          · simp at h; omega
        · simp [h1, h2] at h

/-- A return from inside the `switch` leaves `pos` where the round found it. -/
theorem step_stop_pos (js : List Nat) (len nnodes : Nat) (c r : Int) (m m' : Mem)
    (h : parse_step js len nnodes c m = Flow.stop (Outcome.ret r m')) :
    m'.parser.pos = m.parser.pos := by
  unfold parse_step at h
  simp only at h
  split at h
  · exact case_open_stop _ _ _ _ _ _ h
  · split at h
    · unfold case_close at h
      simp only at h
      split at h
      · simp at h
      · split at h
        · simp at h; rw [← h.2]
        · rw [close_walk_stop _ _ _ _ _ _ _ _ h]
    · split at h
      · unfold case_string at h
        split at h
        · simp at h
        · simp at h
        · rename_i r1 m1 heq
          split at h
          · rename_i hneg
            simp only [Flow.stop.injEq, Outcome.ret.injEq] at h
            obtain ⟨_, hm⟩ := h
            subst hm
            exact parse_string_stop js len nnodes r1 m m1 heq hneg
          · exact absurd h (count_child_stop _ _ _ _)
      · split at h
        · simp at h
        · split at h
          · simp at h
          · split at h
            · unfold case_comma at h
              simp only at h
              split at h
              · simp at h
              · split at h
                · split at h
                  · simp at h
                  · split at h <;> simp at h
                · simp at h
            · split at h
              · unfold case_primitive at h
                split at h
                · simp at h
                · simp at h; rw [← h.2]
                · split at h
                  · simp at h
                  · simp at h
                  · rename_i r1 m1 heq
                    split at h
                    · rename_i hneg
                      simp only [Flow.stop.injEq, Outcome.ret.injEq] at h
                      obtain ⟨_, hm⟩ := h
                      subst hm
                      exact parse_primitive_stop js len nnodes r1 m m1 heq hneg
                    · exact absurd h (count_child_stop _ _ _ _)
              · simp at h; rw [← h.2]
/-- C18, as stated for every state, fails when `pos` is past the length
passed: the first 4 bytes of `1 1 1` scanned into two entries leave `pos = 4`;
a second call on that state and buffer with length 2 returns the count 2 and
leaves `pos = 4`, which is neither the length 2 nor the offset of a NUL byte
(the buffer holds none, and `js[4]` is `1`). -/
theorem cursor_past_length :
    parser_parse (parser_init 0) 4 in_ones 2 (some [blank, blank]) = Outcome.ret 2 mem_ones ∧
      parser_parse mem_ones.parser 2 in_ones 2 mem_ones.nodes = Outcome.ret 2 mem_ones ∧
      mem_ones.parser.pos = 4 ∧ mem_ones.parser.pos ≠ 2 ∧
      byteAt in_ones mem_ones.parser.pos = 49 ∧ 0 ∉ in_ones := by
  decide

/-- C18 (the cursor never regresses; success consumes the input), amended:
for every state, buffer, length, mode and capacity, when `parser_parse`
returns, the `pos` it leaves is at least the `pos` it found, also when the
result is an error; and when the result is a count and the `pos` it found is
at most the length, the `pos` it leaves is at most the length, is the length
or the offset of a NUL byte, and no byte from the `pos` found up to it is NUL:
it is the length or the offset of the first NUL byte at or after the `pos`
found. -/
theorem cursor_advances (parser : jx_parser_st) (len : Nat) (js : List Nat) (nnodes : Nat)
    (nodes : Option (List jx_node)) (r : Int) (m' : Mem)
    (h : parser_parse parser len js nnodes nodes = Outcome.ret r m') :
    parser.pos ≤ m'.parser.pos ∧
      (0 ≤ r → parser.pos ≤ len →
        m'.parser.pos ≤ len ∧ (m'.parser.pos = len ∨ byteAt js m'.parser.pos = 0) ∧
        ∀ j, parser.pos ≤ j → j < m'.parser.pos → byteAt js j ≠ 0) := by
  unfold parser_parse at h
  constructor
  · obtain ⟨c1, m1, hR, hcase⟩ := loop_decomp js len nnodes (len - parser.pos)
      (parser.toknext : Int) { parser := parser, nodes := nodes } (le_refl _)
    have hle := (Rounds_pos_le _ _ _ _ _ _ _ hR).1
    rw [h] at hcase
    rcases hcase with ⟨_, hfin⟩ | ⟨_, hstop⟩
    · rw [finish_mem c1 r m1 m' hfin.symm]
      exact hle
    · rw [step_stop_pos js len nnodes c1 r m1 m' hstop]
      exact hle
  · intro hr hle
    obtain ⟨hR, hc, _⟩ := loop_ret js len nnodes (len - parser.pos) (parser.toknext : Int) r
      { parser := parser, nodes := nodes } m' (le_refl _) h hr
    obtain ⟨h1, h2⟩ := Rounds_nonzero js len nnodes _ r _ m' hR hle
    refine ⟨h1, ?_, h2⟩
    by_cases hlt : m'.parser.pos < len
    · right
      by_contra hb
      exact hc ⟨hlt, hb⟩
    · left
      omega

theorem cursor_advances_witness :
    parser_parse (parser_init 0) 15 in_members 5 (some (List.replicate 5 blank)) =
        Outcome.ret 5 mem_members ∧
      (0 : Int) ≤ 5 ∧ (parser_init 0).pos ≤ 15 ∧
      (parser_init 0).pos ≤ mem_members.parser.pos ∧
      mem_members.parser.pos ≤ 15 ∧
      (mem_members.parser.pos = 15 ∨ byteAt in_members mem_members.parser.pos = 0) ∧
      ∀ j, (parser_init 0).pos ≤ j → j < mem_members.parser.pos → byteAt in_members j ≠ 0 :=
  ⟨members_run, by decide, by decide,
    (cursor_advances (parser_init 0) 15 in_members 5 (some (List.replicate 5 blank)) 5
      mem_members members_run).1,
    (cursor_advances (parser_init 0) 15 in_members 5 (some (List.replicate 5 blank)) 5
      mem_members members_run).2 (by decide) (by decide)⟩

/-- C11, as stated, fails for a container when no token slot is left: on `{{`
with capacity 1 the second `{` is reached while `toksuper` refers to the Object
token 0, and the call returns `JX_NOMEM`, because the new token is allocated
before `nodes[toksuper]` is looked at. -/
theorem nested_open_nomem :
    Rounds in_two_open 2 1 0 { parser := parser_init 0, nodes := some [blank] } 1
        { parser := { bits := 0, nnodes := 0, pos := 1, toknext := 1, toksuper := 0 },
          nodes := some [{ type := JX_OBJECT, start := 0, end_ := -1, size := 0,
                           parent := -1 }] } ∧
      byteAt in_two_open 1 = 123 ∧
      parser_parse (parser_init 0) 2 in_two_open 1 (some [blank]) =
        Outcome.ret JX_NOMEM
          { parser := { bits := 0, nnodes := 0, pos := 1, toknext := 1, toksuper := 0 },
            nodes := some [{ type := JX_OBJECT, start := 0, end_ := -1, size := 0,
                             parent := -1 }] } := by
  refine ⟨?_, by decide, by decide⟩
  exact Rounds.step 0 _ 1 _ Rounds.refl (by decide)
    (by decide : parse_step in_two_open 2 1 0
      { parser := parser_init 0, nodes := some [blank] } = Flow.next 1
        { parser := { bits := 0, nnodes := 0, pos := 0, toknext := 1, toksuper := 0 },
          nodes := some [{ type := JX_OBJECT, start := 0, end_ := -1, size := 0,
                           parent := -1 }] })

/-- C11 (bare scalar or container as object child), amended: in a fill-mode
call over an array that holds the capacity, when the loop stands at a byte
inside the input with `toksuper` the index of a token `t`: if the byte starts a
primitive (a digit, '-', 't', 'f', 'n') and `t` is an Object, or a String whose
size is not 0, the call returns `JX_INVAL` with the memory as it stands; if the
byte is '{' or '[' and `t` is an Object, the call returns `JX_INVAL` when a
token slot is left (`toknext < nnodes`) and `JX_NOMEM`, with the memory as it
stands, when none is, the new token being allocated before the check. -/
theorem object_child_rejected (js : List Nat) (len nnodes : Nat) (parser : jx_parser_st)
    (ns : List jx_node) (c1 : Int) (m1 : Mem) (toks : List jx_node) (t : jx_node)
    (hR : Rounds js len nnodes (parser.toknext : Int)
      { parser := parser, nodes := some ns } c1 m1)
    (hc : m1.parser.pos < len ∧ byteAt js m1.parser.pos ≠ 0)
    (hn : m1.nodes = some toks) (hcap : nnodes ≤ toks.length)
    (ht : nodeAt toks m1.parser.toksuper = some t) :
    (isPrimStart (byteAt js m1.parser.pos) →
        (t.type = JX_OBJECT ∨ (t.type = JX_STRING ∧ t.size ≠ 0)) →
        parser_parse parser len js nnodes (some ns) = Outcome.ret JX_INVAL m1) ∧
      ((byteAt js m1.parser.pos = 123 ∨ byteAt js m1.parser.pos = 91) →
        t.type = JX_OBJECT →
        (m1.parser.toknext < nnodes →
          parser_parse parser len js nnodes (some ns) =
            Outcome.ret JX_INVAL
              { parser := { m1.parser with toknext := m1.parser.toknext + 1 },
                nodes := some (updNode
                  (fun t => { t with start := -1, end_ := -1, size := 0, parent := -1 })
                  toks m1.parser.toknext) }) ∧
        (nnodes ≤ m1.parser.toknext →
          parser_parse parser len js nnodes (some ns) = Outcome.ret JX_NOMEM m1)) := by
  obtain ⟨p1, n1⟩ := m1
  simp only at hc hn ht
  subst hn
  have hsup : p1.toksuper ≠ -1 := by
    intro h
    rw [h] at ht
    simp [nodeAt] at ht
  refine ⟨fun hb hty => ?_, fun hb hty => ⟨fun hlt => ?_, fun hge => ?_⟩⟩
  · refine run_of_stop js len nnodes parser (some ns) c1 _ _ hR hc ?_
    rw [parse_step_primitive js len nnodes c1 _ hb]
    unfold case_primitive placed
    simp only [hsup, ne_eq, not_false_eq_true, if_true, ht]
    simp [hty]
  · simp only at hb hlt ⊢
    obtain ⟨t', ht', hty'⟩ : ∃ t', nodeAt (updNode
        (fun t => { t with start := -1, end_ := -1, size := 0, parent := -1 }) toks
        p1.toknext) p1.toksuper = some t' ∧ t'.type = JX_OBJECT := by
      rw [nodeAt_updNode, ht]
      split
      · exact ⟨_, rfl, hty⟩
      · exact ⟨_, rfl, hty⟩
    refine run_of_stop js len nnodes parser (some ns) c1 _ _ hR hc ?_
    rw [parse_step_open js len nnodes c1 _ hb]
    unfold case_open node_alloc
    simp only [ge_iff_le, show ¬ nnodes ≤ p1.toknext by omega, if_false,
      show p1.toknext < toks.length by omega, if_true, hsup, ne_eq, not_false_eq_true, ht',
      hty']
  · simp only at hb hge
    refine run_of_stop js len nnodes parser (some ns) c1 _ _ hR hc ?_
    rw [parse_step_open js len nnodes c1 _ hb]
    unfold case_open node_alloc
    simp only [ge_iff_le, hge, if_true]

theorem object_child_rejected_witness :
    Rounds in_bare_key 5 3 ((parser_init 0).toknext : Int)
        { parser := parser_init 0, nodes := some (List.replicate 3 blank) } 1 mem_bare_key ∧
      (mem_bare_key.parser.pos < 5 ∧ byteAt in_bare_key mem_bare_key.parser.pos ≠ 0) ∧
      isPrimStart (byteAt in_bare_key mem_bare_key.parser.pos) ∧
      parser_parse (parser_init 0) 5 in_bare_key 3 (some (List.replicate 3 blank)) =
        Outcome.ret JX_INVAL mem_bare_key :=
  have hR : Rounds in_bare_key 5 3 ((parser_init 0).toknext : Int)
      { parser := parser_init 0, nodes := some (List.replicate 3 blank) } 1 mem_bare_key :=
    Rounds.step 0 _ 1 _ Rounds.refl (by decide)
      (by decide : parse_step in_bare_key 5 3 0
        { parser := parser_init 0, nodes := some (List.replicate 3 blank) } = Flow.next 1
          { parser := { bits := 0, nnodes := 0, pos := 0, toknext := 1, toksuper := 0 },
            nodes := some
              [{ type := JX_OBJECT, start := 0, end_ := -1, size := 0, parent := -1 },
               blank, blank] })
  ⟨hR, by decide, by decide,
    (object_child_rejected in_bare_key 5 3 (parser_init 0) (List.replicate 3 blank) 1
      mem_bare_key
      [{ type := JX_OBJECT, start := 0, end_ := -1, size := 0, parent := -1 }, blank, blank]
      { type := JX_OBJECT, start := 0, end_ := -1, size := 0, parent := -1 }
      hR (by decide) rfl (by decide) (by decide)).1 (by decide) (Or.inl rfl)⟩

/-! ### Bad and incomplete strings -/

theorem isHex_ne_zero (c : Nat) (h : isHex c = true) : c ≠ 0 := by
  intro hc
  subst hc
  simp [isHex] at h

/-- The `\u` loop over `k` hexadecimal digits. -/
theorem hex_loop_run (js : List Nat) (len : Nat) :
    ∀ k n pos, (∀ i, i < k → pos + i < len ∧ isHex (byteAt js (pos + i)) = true) →
      hex_loop js len (n + k) pos = hex_loop js len n (pos + k) := by
  intro k
  induction k with
  | zero => intro n pos _; rfl
  | succ k ih =>
    intro n pos h
    have h0 := h 0 (by omega)
    simp only [Nat.add_zero] at h0
    have : n + (k + 1) = (n + k) + 1 := by omega
    rw [this]
    simp only [hex_loop]
    rw [if_pos ⟨h0.1, isHex_ne_zero _ h0.2⟩, if_pos h0.2]
    rw [ih n (pos + 1) (fun i hi => by
      have := h (i + 1) (by omega)
      rw [show pos + 1 + i = pos + (i + 1) by omega]
      exact this)]
    rw [show pos + 1 + k = pos + (k + 1) by omega]

theorem string_scan_end (js : List Nat) (len fuel pos : Nat)
    (h : ¬ (pos < len ∧ byteAt js pos ≠ 0)) : string_scan js len fuel pos = PrimScan.inval := by
  cases fuel <;> simp only [string_scan, if_neg h]

/-- The search for the closing quote fails on a bad or incomplete string. -/
theorem string_scan_bad (js : List Nat) (len p : Nat) (hbad : BadString js len p) :
    ∀ fuel, len - p ≤ fuel → string_scan js len fuel p = PrimScan.inval := by
  induction hbad with
  | unclosed p h => intro fuel _; exact string_scan_end js len fuel p h
  | plain p hc hq hb _ ih =>
    intro fuel hf
    obtain ⟨f, rfl⟩ : ∃ f, fuel = f + 1 := ⟨fuel - 1, by omega⟩
    simp only [string_scan]
    rw [if_pos hc, if_neg hq, if_neg (by omega)]
    exact ih f (by omega)
  | last_backslash p hlt hb hlen =>
    intro fuel hf
    obtain ⟨f, rfl⟩ : ∃ f, fuel = f + 1 := ⟨fuel - 1, by omega⟩
    simp only [string_scan]
    rw [if_pos ⟨hlt, by omega⟩, if_neg (by omega), if_neg (by omega)]
    exact string_scan_end js len f (p + 1) (by omega)
  | bad_escape p hb hlt hne hnu =>
    intro fuel hf
    obtain ⟨f, rfl⟩ : ∃ f, fuel = f + 1 := ⟨fuel - 1, by omega⟩
    simp only [string_scan]
    rw [if_pos ⟨by omega, by omega⟩, if_neg (by omega), if_pos ⟨hb, hlt⟩]
    unfold simpleEscape at hne
    have he : escape js len p = none := by
      unfold escape
      simp only
      rw [if_neg hne, if_neg hnu]
    rw [he]
  | escaped p hb hlt hse _ ih =>
    intro fuel hf
    obtain ⟨f, rfl⟩ : ∃ f, fuel = f + 1 := ⟨fuel - 1, by omega⟩
    simp only [string_scan]
    rw [if_pos ⟨by omega, by omega⟩, if_neg (by omega), if_pos ⟨hb, hlt⟩]
    unfold simpleEscape at hse
    have he : escape js len p = some (p + 1) := by
      unfold escape
      simp only
      rw [if_pos hse]
    rw [he]
    exact ih f (by omega)
  | short_unicode p k hb hlt hu hk hhex hin hnz hnh =>
    intro fuel hf
    obtain ⟨f, rfl⟩ : ∃ f, fuel = f + 1 := ⟨fuel - 1, by omega⟩
    simp only [string_scan]
    rw [if_pos ⟨by omega, by omega⟩, if_neg (by omega), if_pos ⟨hb, hlt⟩]
    have hx : hex_loop js len 4 (p + 2) = none := by
      obtain ⟨n, hn⟩ : ∃ n, 4 = (n + 1) + k := ⟨3 - k, by omega⟩
      rw [hn, hex_loop_run js len k (n + 1) (p + 2) hhex]
      simp only [hex_loop]
      rw [if_pos ⟨hin, hnz⟩]
      simp [hnh]
    have he : escape js len p = none := by
      unfold escape
      simp only
      rw [if_neg (by omega), if_pos hu, hx]
    rw [he]
  | unicode p k hb hlt hu hk hhex hend _ ih =>
    intro fuel hf
    obtain ⟨f, rfl⟩ : ∃ f, fuel = f + 1 := ⟨fuel - 1, by omega⟩
    simp only [string_scan]
    rw [if_pos ⟨by omega, by omega⟩, if_neg (by omega), if_pos ⟨hb, hlt⟩]
    have hx : hex_loop js len 4 (p + 2) = some (p + 2 + k) := by
      obtain ⟨n, hn⟩ : ∃ n, 4 = n + k := ⟨4 - k, by omega⟩
      rw [hn, hex_loop_run js len k n (p + 2) hhex]
      cases n with
      | zero => rfl
      | succ n =>
        simp only [hex_loop]
        rw [if_neg (hend (by omega))]
    have he : escape js len p = some (p + 2 + k - 1) := by
      unfold escape
      simp only
      rw [if_neg (by omega), if_pos hu, hx]
    rw [he]
    simp only
    rw [show p + 2 + k - 1 + 1 = p + 2 + k by omega]
    exact ih f (by omega)

/-- C12 (a bad or incomplete string is rejected with rollback): in a call of
`parser_parse`, in fill mode or count mode, when the loop stands on an opening
quote inside the input and the literal after it is bad or incomplete (a
backslash before a byte that is none of '"', '\', '/', 'b', 'f', 'n', 'r', 't',
'u'; a `\u` with fewer than four hexadecimal digits before a non-hexadecimal
byte or the end of the input; or no closing quote), the call returns `JX_INVAL`
and leaves the memory as it stood at that loop head: `pos` is the offset of the
opening quote, and no token has been allocated for the string. -/
theorem bad_string_rejected (js : List Nat) (len nnodes : Nat) (parser : jx_parser_st)
    (nodes : Option (List jx_node)) (c1 : Int) (m1 : Mem)
    (hR : Rounds js len nnodes (parser.toknext : Int)
      { parser := parser, nodes := nodes } c1 m1)
    (hlt : m1.parser.pos < len) (hq : byteAt js m1.parser.pos = 34)
    (hbad : BadString js len (m1.parser.pos + 1)) :
    parser_parse parser len js nnodes nodes = Outcome.ret JX_INVAL m1 := by
  refine run_of_stop js len nnodes parser nodes c1 m1 _ hR ⟨hlt, by omega⟩ ?_
  rw [parse_step_string js len nnodes c1 m1 hq]
  unfold case_string
  rw [parse_string_eq, string_scan_bad js len _ hbad _ (by omega)]
  simp [JX_INVAL]

theorem bad_string_rejected_witness :
    BadString in_bad_escape 8 1 ∧
      parser_parse (parser_init 0) 8 in_bad_escape 1 (some [blank]) =
        Outcome.ret JX_INVAL { parser := parser_init 0, nodes := some [blank] } ∧
      ({ parser := parser_init 0, nodes := some [blank] } : Mem).parser.pos = 0 :=
  have hbad : BadString in_bad_escape 8 1 :=
    BadString.plain 1 (by decide) (by decide) (by decide)
      (BadString.plain 2 (by decide) (by decide) (by decide)
        (BadString.short_unicode 3 2 (by decide) (by decide) (by decide) (by decide)
          (by decide) (by decide) (by decide) (by decide)))
  ⟨hbad,
    bad_string_rejected in_bad_escape 8 1 (parser_init 0) (some [blank]) 0
      { parser := parser_init 0, nodes := some [blank] } Rounds.refl (by decide) (by decide)
      hbad, rfl⟩

/-! ### Arrays of number literals -/

theorem updNode_mid (f : jx_node → jx_node) (a : List jx_node) (t : jx_node)
    (b : List jx_node) : updNode f (a ++ t :: b) a.length = a ++ f t :: b := by
  induction a with
  | nil => rfl
  | cons x xs ih => simp [updNode, ih]

theorem Rounds_trans (js : List Nat) (len nnodes : Nat) (c c1 c2 : Int) (m m1 m2 : Mem)
    (h1 : Rounds js len nnodes c m c1 m1) (h2 : Rounds js len nnodes c1 m1 c2 m2) :
    Rounds js len nnodes c m c2 m2 := by
  induction h2 with
  | refl => exact h1
  | step c3 m3 c4 m4 _ hc3 hs3 ih => exact Rounds.step c3 m3 c4 m4 ih hc3 hs3

theorem SegAt_append (js : List Nat) (p : Nat) (a b : List Nat) (h : SegAt js p (a ++ b)) :
    SegAt js p a ∧ SegAt js (p + a.length) b := by
  constructor
  · intro i hi
    have := h i (by simp; omega)
    rw [this, byteAt_append_left a b i hi]
  · intro i hi
    have := h (a.length + i) (by simp; omega)
    rw [byteAt_append_right] at this
    rw [← this, Nat.add_assoc]

theorem SegAt_cons (js : List Nat) (p : Nat) (x : Nat) (b : List Nat)
    (h : SegAt js p (x :: b)) : byteAt js p = x ∧ SegAt js (p + 1) b := by
  constructor
  · have := h 0 (by simp)
    simpa [byteAt_cons_zero] using this
  · intro i hi
    have := h (i + 1) (by simp; omega)
    rw [byteAt_cons_succ] at this
    rw [← this, Nat.add_assoc, Nat.add_comm 1 i]

theorem SegAt_self (js : List Nat) : SegAt js 0 js := by
  intro i _
  rw [Nat.zero_add]

/-- The round for a number literal that is an element of the open Array
token 0. -/
theorem elem_round (js : List Nat) (len nnodes : Nat) (bits : Int) (P : Nat) (sz : Int)
    (done : List jx_node) (t : jx_node) (post : List jx_node) (l : List Nat) (c : Int)
    (hl : l ≠ []) (hdig : ∀ b ∈ l, 48 ≤ b ∧ b ≤ 57)
    (hseg : SegAt js P l) (hin : P + l.length < len)
    (hd : isDelim (byteAt js (P + l.length)) = true) (hnz : byteAt js (P + l.length) ≠ 0)
    (hcap : done.length + 1 < nnodes) :
    parse_step js len nnodes c
      { parser := { bits := bits, nnodes := 0, pos := P, toknext := done.length + 1,
                    toksuper := 0 },
        nodes := some (arrayTok (-1) sz :: (done ++ t :: post)) } =
    Flow.next (c + 1)
      { parser := { bits := bits, nnodes := 0, pos := P + l.length - 1,
                    toknext := done.length + 2, toksuper := 0 },
        nodes := some (arrayTok (-1) (sz + 1) :: (done ++ numTok P l :: post)) } := by
  have hlen : 0 < l.length := List.length_pos.mpr hl
  have hbyte : ∀ i, i < l.length → 48 ≤ byteAt js (P + i) ∧ byteAt js (P + i) ≤ 57 := by
    intro i hi
    rw [hseg i hi]
    exact hdig _ (byteAt_mem l i hi)
  have hb0 := hbyte 0 hlen
  rw [Nat.add_zero] at hb0
  have hprim : isPrimStart (byteAt js P) := by
    unfold isPrimStart; omega
  have hty : primitive_type (byteAt js P) = some JX_NUMBER := by
    unfold primitive_type
    rw [if_pos (Or.inr hb0)]
  have hscan : primitive_loop js len (len - P) P = PrimScan.found (P + l.length) := by
    refine primitive_loop_run js len l.length P _ ?_ hin hd hnz (by omega)
    intro j h1 h2
    have := hbyte (j - P) (by omega)
    rw [show P + (j - P) = j by omega] at this
    refine ⟨by omega, by omega, ?_⟩
    unfold isDelim
    simp
    omega
  rw [parse_step_primitive _ _ _ _ _ hprim]
  unfold case_primitive
  have hpl : placed
      { parser := { bits := bits, nnodes := 0, pos := P, toknext := done.length + 1,
                    toksuper := 0 },
        nodes := some (arrayTok (-1) sz :: (done ++ t :: post)) } = some true := by
    simp [placed, nodeAt, arrayTok]
  rw [hpl]
  have hnc : ¬ done.length + 1 ≥ nnodes := by omega
  have hnl : done.length + 1 < (arrayTok (-1) sz :: (done ++ t :: post)).length := by
    simp
  simp only [parse_primitive, hscan, node_alloc, hnc, if_false, hnl, if_true, hty, updNode,
    updNode_mid, fill_node]
  simp [count_child, nodeAt, updNode, arrayTok, numTok, JX_INVAL]

theorem Rounds_step_eq (js : List Nat) (len nnodes : Nat) (c c1 c2 : Int) (m m1 m2 m3 : Mem)
    (h1 : Rounds js len nnodes c m c1 m1)
    (hc : m1.parser.pos < len ∧ byteAt js m1.parser.pos ≠ 0)
    (hs : parse_step js len nnodes c1 m1 = Flow.next c2 m2) (hm : m3 = bump m2) :
    Rounds js len nnodes c m c2 m3 := by
  rw [hm]
  exact Rounds.step c1 m1 c2 m2 h1 hc hs

/-- The round for a ',' while `toksuper` refers to the Array token 0: nothing
changes. -/
theorem comma_round (js : List Nat) (len nnodes : Nat) (c : Int) (parser : jx_parser_st)
    (e sz : Int) (rest : List jx_node) (hb : byteAt js parser.pos = 44)
    (hsup : parser.toksuper = 0) :
    parse_step js len nnodes c
        { parser := parser, nodes := some (arrayTok e sz :: rest) } =
      Flow.next c { parser := parser, nodes := some (arrayTok e sz :: rest) } := by
  rw [parse_step_comma _ _ _ _ _ hb]
  simp [case_comma, hsup, nodeAt, arrayTok]

/-- The rounds over `p1,p2,...,pn` inside the open Array token 0: one Number
token for each literal, in input order, each an element of token 0. -/
theorem commaSep_rounds (js : List Nat) (len nnodes : Nat) (bits : Int) :
    ∀ (lits : List (List Nat)) (P : Nat) (sz c : Int) (done post : List jx_node),
      lits ≠ [] → (∀ l ∈ lits, l ≠ [] ∧ ∀ b ∈ l, 48 ≤ b ∧ b ≤ 57) →
      lits.length ≤ post.length → done.length + lits.length < nnodes →
      SegAt js P (commaSep lits) → P + (commaSep lits).length < len →
      isDelim (byteAt js (P + (commaSep lits).length)) = true →
      byteAt js (P + (commaSep lits).length) ≠ 0 →
      ∀ (Pf kf : Nat) (szf cf : Int) (toks : List jx_node),
        Pf = P + (commaSep lits).length → kf = done.length + 1 + lits.length →
        szf = sz + (lits.length : Int) → cf = c + (lits.length : Int) →
        toks = done ++ (numTokens P lits ++ post.drop lits.length) →
        Rounds js len nnodes c
          { parser := { bits := bits, nnodes := 0, pos := P, toknext := done.length + 1,
                        toksuper := 0 },
            nodes := some (arrayTok (-1) sz :: (done ++ post)) }
          cf
          { parser := { bits := bits, nnodes := 0, pos := Pf, toknext := kf, toksuper := 0 },
            nodes := some (arrayTok (-1) szf :: toks) } := by
  intro lits
  induction lits with
  | nil => intro P sz c done post h; exact absurd rfl h
  | cons l ls ih =>
    intro P sz c done post _ hdig hpost hcap hseg hin hd hnz Pf kf szf cf toks hPf hkf hszf hcf
      htoks
    obtain ⟨t, post', rfl⟩ : ∃ t post', post = t :: post' := by
      cases post with
      | nil => simp at hpost
      | cons t post' => exact ⟨t, post', rfl⟩
    have hl := hdig l (List.mem_cons_self _ _)
    have hlen : 0 < l.length := List.length_pos.mpr hl.1
    cases ls with
    | nil =>
      simp only [commaSep] at hseg hin hd hnz hPf
      obtain rfl : cf = c + 1 := by simpa using hcf
      refine Rounds_step_eq js len nnodes c c (c + 1) _ _ _ _ Rounds.refl ?_
        (elem_round js len nnodes bits P sz done t post' l c hl.1 hl.2 hseg hin hd hnz
          (by simp at hcap; omega)) ?_
      · have h0 := hseg 0 hlen
        have h1 := hl.2 _ (byteAt_mem l 0 hlen)
        rw [Nat.add_zero] at h0
        simp only
        exact ⟨by omega, by omega⟩
      · subst hPf hkf hszf htoks
        simp [bump, numTokens]
        omega
    | cons l' ls' =>
      have hcs : commaSep (l :: l' :: ls') = l ++ 44 :: commaSep (l' :: ls') := rfl
      rw [hcs] at hseg hin hd hnz hPf
      obtain ⟨hseg1, hseg2⟩ := SegAt_append js P l _ hseg
      obtain ⟨hcomma, hseg3⟩ := SegAt_cons js _ _ _ hseg2
      simp only [List.length_append, List.length_cons] at hin hd hnz hPf
      have h0 := hseg1 0 hlen
      have h1 := hl.2 _ (byteAt_mem l 0 hlen)
      rw [Nat.add_zero] at h0
      have hr1 := Rounds_step_eq js len nnodes c c (c + 1) _ _ _
        { parser := { bits := bits, nnodes := 0, pos := P + l.length,
                      toknext := done.length + 2, toksuper := 0 },
          nodes := some (arrayTok (-1) (sz + 1) :: (done ++ numTok P l :: post')) }
        Rounds.refl (by simp only; exact ⟨by omega, by omega⟩)
        (elem_round js len nnodes bits P sz done t post' l c hl.1 hl.2 hseg1 (by omega)
          (by rw [hcomma]; decide) (by rw [hcomma]; decide)
          (by simp at hcap; omega))
        (by simp [bump]; omega)
      have hr2 := Rounds_step_eq js len nnodes c (c + 1) (c + 1) _ _ _
        { parser := { bits := bits, nnodes := 0, pos := P + l.length + 1,
                      toknext := done.length + 2, toksuper := 0 },
          nodes := some (arrayTok (-1) (sz + 1) :: (done ++ numTok P l :: post')) }
        hr1 (by simp only; rw [hcomma]; exact ⟨by omega, by decide⟩)
        (comma_round js len nnodes (c + 1) _ (-1) (sz + 1) _ hcomma rfl)
        (by simp [bump])
      have hih := ih (P + l.length + 1) (sz + 1) (c + 1) (done ++ [numTok P l]) post'
        (by simp) (fun x hx => hdig x (List.mem_cons_of_mem _ hx))
        (by simp at hpost ⊢; omega) (by simp at hcap ⊢; omega) hseg3
        (by omega)
        (by rw [show P + l.length + 1 + (commaSep (l' :: ls')).length =
              P + (l.length + ((commaSep (l' :: ls')).length + 1)) by omega]; exact hd)
        (by rw [show P + l.length + 1 + (commaSep (l' :: ls')).length =
              P + (l.length + ((commaSep (l' :: ls')).length + 1)) by omega]; exact hnz)
        Pf kf szf cf toks
        (by omega) (by simp at hkf ⊢; omega) (by simp at hszf ⊢; omega)
        (by simp at hcf ⊢; omega) (by simp [htoks, numTokens])
      refine Rounds_trans js len nnodes c (c + 1) cf _ _ _ hr2 ?_
      simpa using hih

theorem numTokens_spec : ∀ (lits : List (List Nat)) (P : Nat),
    (numTokens P lits).length = lits.length ∧
      ∀ t ∈ numTokens P lits, t.type = JX_NUMBER ∧ 0 ≤ t.start ∧ 0 ≤ t.end_ ∧ t.size = 0 ∧
        t.parent = 0 := by
  intro lits
  induction lits with
  | nil => intro P; simp [numTokens]
  | cons l ls ih =>
    intro P
    obtain ⟨h1, h2⟩ := ih (P + l.length + 1)
    refine ⟨by simp [numTokens, h1], fun t ht => ?_⟩
    simp only [numTokens, List.mem_cons] at ht
    rcases ht with ht | ht
    · subst ht
      simp [numTok]
      omega
    · exact h2 t ht

/-- The round for '[' on a fresh state: token 0 becomes an open Array. -/
theorem open_round (js : List Nat) (len nnodes : Nat) (bits : Int) (t0 : jx_node)
    (post : List jx_node) (hb : byteAt js 0 = 91) (hcap : 0 < nnodes) :
    parse_step js len nnodes 0 { parser := parser_init bits, nodes := some (t0 :: post) } =
      Flow.next 1
        { parser := { bits := bits, nnodes := 0, pos := 0, toknext := 1, toksuper := 0 },
          nodes := some (arrayTok (-1) 0 :: post) } := by
  rw [parse_step_open _ _ _ _ _ (by simp only [parser_init]; exact Or.inr hb)]
  have hnc : ¬ nnodes ≤ 0 := by omega
  simp [case_open, node_alloc, parser_init, hb, hnc, updNode, arrayTok]

/-- The parent-chain walk for ']' from a token that is the open Array token 0
or a scanned element of it: the Array is closed at `pos + 1` and `toksuper`
becomes -1. -/
theorem close_walk_elem (parser : jx_parser_st) (sz c : Int) (rest : List jx_node)
    (fuel : Nat) (i : Int)
    (h : i = 0 ∨ ∃ tl, nodeAt (arrayTok (-1) sz :: rest) i = some tl ∧
      0 ≤ tl.start ∧ 0 ≤ tl.end_ ∧ tl.parent = 0) :
    close_walk parser (arrayTok (-1) sz :: rest) JX_ARRAY c (fuel + 2) i =
      Flow.next c
        { parser := { parser with toksuper := -1 },
          nodes := some (arrayTok ((parser.pos : Int) + 1) sz :: rest) } := by
  have h0 : ∀ f, close_walk parser (arrayTok (-1) sz :: rest) JX_ARRAY c (f + 1) 0 =
      Flow.next c
        { parser := { parser with toksuper := -1 },
          nodes := some (arrayTok ((parser.pos : Int) + 1) sz :: rest) } := by
    intro f
    simp [close_walk, nodeAt, arrayTok, updNode]
  rcases h with h | ⟨tl, htl, h1, h2, h3⟩
  · rw [h]; exact h0 (fuel + 1)
  · simp only [close_walk, htl]
    rw [if_neg (by omega), if_neg (by omega), h3]
    exact h0 fuel

/-- The round for ']' when every token after the open Array token 0 is a
scanned element of it. -/
theorem close_round (js : List Nat) (len nnodes : Nat) (bits : Int) (Q : Nat) (sz c : Int)
    (done post : List jx_node) (hb : byteAt js Q = 93)
    (hdone : ∀ t ∈ done, 0 ≤ t.start ∧ 0 ≤ t.end_ ∧ t.parent = 0) :
    parse_step js len nnodes c
        { parser := { bits := bits, nnodes := 0, pos := Q, toknext := done.length + 1,
                      toksuper := 0 },
          nodes := some (arrayTok (-1) sz :: (done ++ post)) } =
      Flow.next c
        { parser := { bits := bits, nnodes := 0, pos := Q, toknext := done.length + 1,
                      toksuper := -1 },
          nodes := some (arrayTok ((Q : Int) + 1) sz :: (done ++ post)) } := by
  rw [parse_step_close _ _ _ _ _ (Or.inr hb)]
  unfold case_close
  simp only [hb, show ¬ done.length + 1 < 1 by omega, if_false, List.length_cons,
    show ¬ (93 = 125) by decide]
  rw [close_walk_elem]
  by_cases hd : done = []
  · left; subst hd; simp
  · right
    have hpos : 0 < done.length := List.length_pos.mpr hd
    have hlt : done.length - 1 < done.length := by omega
    refine ⟨done[done.length - 1], ?_, hdone _ (List.getElem_mem _)⟩
    unfold nodeAt
    have hi : ((done.length + 1 : Nat) : Int) - 1 = ((done.length - 1 + 1 : Nat) : Int) := by
      omega
    rw [hi, if_neg (by omega), Int.toNat_ofNat, List.getElem?_cons_succ,
      List.getElem?_append_left hlt, List.getElem?_eq_getElem hlt]

theorem unmatched_closed (ns : List jx_node) :
    ∀ n, n ≤ ns.length → (∀ i, i < n → ∀ t, ns[i]? = some t → t.end_ ≠ -1) →
      unmatched ns n = some false := by
  intro n
  induction n with
  | zero => intro _ _; rfl
  | succ k ih =>
    intro hk h
    obtain ⟨t, ht⟩ : ∃ t, ns[k]? = some t := ⟨ns[k], by simp [show k < ns.length by omega]⟩
    have := h k (by omega) t ht
    simp only [unmatched, ht]
    rw [if_neg (by simp [this])]
    exact ih (by omega) (fun i hi => h i (by omega))

/-- The rounds over `[p1,p2,...,pn` from a fresh state, up to the byte after
the last literal. -/
theorem array_body_rounds (js : List Nat) (len nnodes : Nat) (bits : Int)
    (lits : List (List Nat)) (t0 : jx_node) (post : List jx_node)
    (hne : lits ≠ []) (hdig : ∀ l ∈ lits, l ≠ [] ∧ ∀ b ∈ l, 48 ≤ b ∧ b ≤ 57)
    (hpost : lits.length ≤ post.length) (hcap : lits.length < nnodes)
    (hb : byteAt js 0 = 91) (hseg : SegAt js 1 (commaSep lits))
    (hin : 1 + (commaSep lits).length < len)
    (hd : isDelim (byteAt js (1 + (commaSep lits).length)) = true)
    (hnz : byteAt js (1 + (commaSep lits).length) ≠ 0) :
    Rounds js len nnodes 0 { parser := parser_init bits, nodes := some (t0 :: post) }
      ((lits.length : Int) + 1)
      { parser := { bits := bits, nnodes := 0, pos := 1 + (commaSep lits).length,
                    toknext := lits.length + 1, toksuper := 0 },
        nodes := some (arrayTok (-1) (lits.length : Int) ::
          (numTokens 1 lits ++ post.drop lits.length)) } := by
  have hr1 := Rounds_step_eq js len nnodes 0 0 1 _ _ _
    { parser := { bits := bits, nnodes := 0, pos := 1, toknext := 1, toksuper := 0 },
      nodes := some (arrayTok (-1) 0 :: post) }
    Rounds.refl (by simp only [parser_init]; exact ⟨by omega, by omega⟩)
    (open_round js len nnodes bits t0 post hb (by omega)) (by simp [bump])
  refine Rounds_trans js len nnodes 0 1 _ _ _ _ hr1 ?_
  have := commaSep_rounds js len nnodes bits lits 1 0 1 [] post hne hdig hpost
    (by simpa using hcap) hseg hin hd hnz (1 + (commaSep lits).length) (lits.length + 1)
    (lits.length : Int) ((lits.length : Int) + 1)
    (numTokens 1 lits ++ post.drop lits.length) rfl (by simp; omega) (by simp)
    (by omega) (by simp)
  simpa using this

/-- The end of a call that stands on the closing ']' of an Array whose
elements are the Number tokens of `lits`, the ']' being the last byte. -/
theorem array_finish (js : List Nat) (len nnodes : Nat) (bits : Int)
    (lits : List (List Nat)) (ns rest : List jx_node) (Q : Nat)
    (hR : Rounds js len nnodes 0 { parser := parser_init bits, nodes := some ns }
      ((lits.length : Int) + 1)
      { parser := { bits := bits, nnodes := 0, pos := Q, toknext := lits.length + 1,
                    toksuper := 0 },
        nodes := some (arrayTok (-1) (lits.length : Int) :: (numTokens 1 lits ++ rest)) })
    (hb : byteAt js Q = 93) (hQ : Q + 1 = len) :
    parser_parse (parser_init bits) len js nnodes (some ns) =
      Outcome.ret ((lits.length : Int) + 1)
        { parser := { bits := bits, nnodes := 0, pos := len, toknext := lits.length + 1,
                      toksuper := -1 },
          nodes := some (arrayTok (len : Int) (lits.length : Int) ::
            (numTokens 1 lits ++ rest)) } := by
  obtain ⟨hlen, hspec⟩ := numTokens_spec lits 1
  have hclose := close_round js len nnodes bits Q (lits.length : Int) ((lits.length : Int) + 1)
    (numTokens 1 lits) rest hb (fun t ht => by
      obtain ⟨_, h1, h2, _, h3⟩ := hspec t ht
      exact ⟨h1, h2, h3⟩)
  rw [hlen] at hclose
  have hR2 := Rounds_step_eq js len nnodes 0 _ _ _ _ _
    { parser := { bits := bits, nnodes := 0, pos := len, toknext := lits.length + 1,
                  toksuper := -1 },
      nodes := some (arrayTok (len : Int) (lits.length : Int) :: (numTokens 1 lits ++ rest)) }
    hR (by simp only; rw [hb]; exact ⟨by omega, by decide⟩) hclose
    (by simp only [bump, ← hQ]; push_cast; rfl)
  have hR3 : Rounds js len nnodes (((parser_init bits).toknext : Nat) : Int)
      { parser := parser_init bits, nodes := some ns } ((lits.length : Int) + 1)
      { parser := { bits := bits, nnodes := 0, pos := len, toknext := lits.length + 1,
                    toksuper := -1 },
        nodes := some (arrayTok (len : Int) (lits.length : Int) ::
          (numTokens 1 lits ++ rest)) } := hR2
  rw [run_of_rounds js len nnodes (parser_init bits) (some ns) _ _ hR3
    (by simp only; omega)]
  unfold parse_finish
  simp only
  rw [unmatched_closed _ (lits.length + 1) (by simp [hlen]) (fun i hi t ht => ?_)]
  cases i with
  | zero =>
    simp only [List.getElem?_cons_zero, Option.some.injEq] at ht
    rw [← ht]
    simp only [arrayTok]
    omega
  | succ j =>
    simp only [List.getElem?_cons_succ] at ht
    rw [List.getElem?_append_left (by omega)] at ht
    have := (hspec t (List.getElem?_mem ht)).2.2.1
    omega

/-- C13 (array of primitives): for every list of n >= 1 number literals, each
a non-empty run of digits, a fill-mode call from a fresh state on
`[p1,p2,...,pn]`, with a capacity of at least n+1 and an array that holds the
capacity, returns n+1; token 0 is an Array with size n, parent -1, start 0 and
end the input length; tokens 1..n are the Number tokens of the literals in
input order, each with parent 0, size 0 and the span of its literal; the
entries after them are untouched. -/
theorem array_of_numbers (lits : List (List Nat)) (bits : Int) (nnodes : Nat)
    (ns : List jx_node) (hne : lits ≠ [])
    (hdig : ∀ l ∈ lits, l ≠ [] ∧ ∀ b ∈ l, 48 ≤ b ∧ b ≤ 57)
    (hcap : lits.length + 1 ≤ nnodes) (hlen : nnodes ≤ ns.length) :
    parser_parse (parser_init bits) (in_array lits).length (in_array lits) nnodes (some ns) =
      Outcome.ret ((lits.length : Int) + 1)
        { parser := { bits := bits, nnodes := 0, pos := (in_array lits).length,
                      toknext := lits.length + 1, toksuper := -1 },
          nodes := some (arrayTok ((in_array lits).length : Int) (lits.length : Int) ::
            (numTokens 1 lits ++ ns.drop (lits.length + 1))) } := by
  obtain ⟨t0, post, rfl⟩ : ∃ t0 post, ns = t0 :: post := by
    cases ns with
    | nil => simp at hlen; omega
    | cons t0 post => exact ⟨t0, post, rfl⟩
  simp only [List.length_cons] at hlen
  have hself := SegAt_self (in_array lits)
  unfold in_array at hself
  obtain ⟨hb0, hs1⟩ := SegAt_cons _ 0 _ _ hself
  obtain ⟨hs2, hs3⟩ := SegAt_append _ _ _ _ hs1
  obtain ⟨hb93, _⟩ := SegAt_cons _ _ _ _ hs3
  have hL : (91 :: (commaSep lits ++ [93])).length = (commaSep lits).length + 2 := by simp
  rw [Nat.zero_add] at hs2 hb93
  have hR := array_body_rounds (91 :: (commaSep lits ++ [93])) ((commaSep lits).length + 2)
    nnodes bits lits t0 post hne hdig (by omega) (by omega) hb0 hs2 (by omega)
    (by rw [hb93]; decide) (by rw [hb93]; decide)
  have := array_finish (91 :: (commaSep lits ++ [93])) ((commaSep lits).length + 2) nnodes
    bits lits (t0 :: post) (post.drop lits.length) (1 + (commaSep lits).length) hR hb93
    (by omega)
  unfold in_array
  rw [hL]
  simpa using this

theorem array_of_numbers_witness :
    [[49], [50], [51]] ≠ ([] : List (List Nat)) ∧
      in_array [[49], [50], [51]] = [91, 49, 44, 50, 44, 51, 93] ∧
      numTokens 1 [[49], [50], [51]] =
        [{ type := JX_NUMBER, start := 1, end_ := 2, size := 0, parent := 0 },
         { type := JX_NUMBER, start := 3, end_ := 4, size := 0, parent := 0 },
         { type := JX_NUMBER, start := 5, end_ := 6, size := 0, parent := 0 }] ∧
      parser_parse (parser_init 0) (in_array [[49], [50], [51]]).length
          (in_array [[49], [50], [51]]) 4 (some (List.replicate 4 blank)) =
        Outcome.ret ((([[49], [50], [51]] : List (List Nat)).length : Int) + 1)
          { parser := { bits := 0, nnodes := 0, pos := (in_array [[49], [50], [51]]).length,
                        toknext := ([[49], [50], [51]] : List (List Nat)).length + 1,
                        toksuper := -1 },
            nodes := some
              (arrayTok ((in_array [[49], [50], [51]]).length : Int)
                  (([[49], [50], [51]] : List (List Nat)).length : Int) ::
                (numTokens 1 [[49], [50], [51]] ++
                  (List.replicate 4 blank).drop
                    (([[49], [50], [51]] : List (List Nat)).length + 1))) } :=
  ⟨by decide, by decide, by decide,
    array_of_numbers [[49], [50], [51]] 0 4 (List.replicate 4 blank) (by decide) (by decide)
      (by decide) (by decide)⟩

/-- C14, as stated, fails: `[1,]` scanned into two entries returns 2, with the
Array closed at offset 4 and of size 1, and `{"a":1,}` scanned into three
entries returns 3. -/
theorem trailing_comma_scanned :
    parser_parse (parser_init 0) 4 in_trailing_comma 2 (some [blank, blank]) =
        Outcome.ret 2
          { parser := { bits := 0, nnodes := 0, pos := 4, toknext := 2, toksuper := -1 },
            nodes := some
              [{ type := JX_ARRAY, start := 0, end_ := 4, size := 1, parent := -1 },
               { type := JX_NUMBER, start := 1, end_ := 2, size := 0, parent := 0 }] } ∧
      parser_parse (parser_init 0) 8 in_trailing_member 3 (some [blank, blank, blank]) =
        Outcome.ret 3
          { parser := { bits := 0, nnodes := 0, pos := 8, toknext := 3, toksuper := -1 },
            nodes := some
              [{ type := JX_OBJECT, start := 0, end_ := 8, size := 1, parent := -1 },
               { type := JX_STRING, start := 2, end_ := 3, size := 1, parent := 0 },
               { type := JX_NUMBER, start := 5, end_ := 6, size := 0, parent := 1 }] } := by
  decide

/-- C14 (trailing commas), amended: a ',' directly before the closing bracket
is not refused.  For every list of n >= 1 number literals, each a non-empty run
of digits, a fill-mode call from a fresh state on `[p1,p2,...,pn,]`, with a
capacity of at least n+1 and an array that holds the capacity, returns n+1 and
leaves the tokens it leaves for `[p1,p2,...,pn]`, but for the end of the Array,
which is the input length: the round for the ',' changes nothing. -/
theorem trailing_comma_accepted (lits : List (List Nat)) (bits : Int) (nnodes : Nat)
    (ns : List jx_node) (hne : lits ≠ [])
    (hdig : ∀ l ∈ lits, l ≠ [] ∧ ∀ b ∈ l, 48 ≤ b ∧ b ≤ 57)
    (hcap : lits.length + 1 ≤ nnodes) (hlen : nnodes ≤ ns.length) :
    parser_parse (parser_init bits) (in_array_comma lits).length (in_array_comma lits) nnodes
        (some ns) =
      Outcome.ret ((lits.length : Int) + 1)
        { parser := { bits := bits, nnodes := 0, pos := (in_array_comma lits).length,
                      toknext := lits.length + 1, toksuper := -1 },
          nodes := some (arrayTok ((in_array_comma lits).length : Int) (lits.length : Int) ::
            (numTokens 1 lits ++ ns.drop (lits.length + 1))) } := by
  obtain ⟨t0, post, rfl⟩ : ∃ t0 post, ns = t0 :: post := by
    cases ns with
    | nil => simp at hlen; omega
    | cons t0 post => exact ⟨t0, post, rfl⟩
  simp only [List.length_cons] at hlen
  have hself := SegAt_self (in_array_comma lits)
  unfold in_array_comma at hself
  obtain ⟨hb0, hs1⟩ := SegAt_cons _ 0 _ _ hself
  obtain ⟨hs2, hs3⟩ := SegAt_append _ _ _ _ hs1
  obtain ⟨hb44, hs4⟩ := SegAt_cons _ _ _ _ hs3
  obtain ⟨hb93, _⟩ := SegAt_cons _ _ _ _ hs4
  have hL : (91 :: (commaSep lits ++ [44, 93])).length = (commaSep lits).length + 3 := by simp
  rw [Nat.zero_add] at hs2 hb44 hb93
  have hR := array_body_rounds (91 :: (commaSep lits ++ [44, 93]))
    ((commaSep lits).length + 3) nnodes bits lits t0 post hne hdig (by omega) (by omega) hb0
    hs2 (by omega) (by rw [hb44]; decide) (by rw [hb44]; decide)
  have hR2 := Rounds_step_eq _ _ nnodes 0 _ _ _ _ _
    { parser := { bits := bits, nnodes := 0, pos := 1 + (commaSep lits).length + 1,
                  toknext := lits.length + 1, toksuper := 0 },
      nodes := some (arrayTok (-1) (lits.length : Int) ::
        (numTokens 1 lits ++ post.drop lits.length)) }
    hR (by simp only; rw [hb44]; exact ⟨by omega, by decide⟩)
    (comma_round _ _ nnodes _ _ (-1) (lits.length : Int) _ hb44 rfl) (by simp [bump])
  have := array_finish (91 :: (commaSep lits ++ [44, 93])) ((commaSep lits).length + 3) nnodes
    bits lits (t0 :: post) (post.drop lits.length) (1 + (commaSep lits).length + 1) hR2 hb93
    (by omega)
  unfold in_array_comma
  rw [hL]
  simpa using this

theorem trailing_comma_accepted_witness :
    [[49]] ≠ ([] : List (List Nat)) ∧
      in_array_comma [[49]] = in_trailing_comma ∧
      parser_parse (parser_init 0) (in_array_comma [[49]]).length (in_array_comma [[49]]) 2
          (some [blank, blank]) =
        Outcome.ret ((([[49]] : List (List Nat)).length : Int) + 1)
          { parser := { bits := 0, nnodes := 0, pos := (in_array_comma [[49]]).length,
                        toknext := ([[49]] : List (List Nat)).length + 1, toksuper := -1 },
            nodes := some
              (arrayTok ((in_array_comma [[49]]).length : Int)
                  (([[49]] : List (List Nat)).length : Int) ::
                (numTokens 1 [[49]] ++
                  [blank, blank].drop (([[49]] : List (List Nat)).length + 1))) } :=
  ⟨by decide, by decide,
    trailing_comma_accepted [[49]] 0 2 [blank, blank] (by decide) (by decide) (by decide)
      (by decide)⟩

/-- C15 (key size is 0 or 1), evaluated on `{"a":"b""c"}`: the call succeeds
with 4 tokens and token 1, the key `"a"` (a String whose parent is the Object
token 0), has size 2: the string case attaches `"c"` to the key without looking
at the key's size.  The primitive case does look: on `{"a":"b"1}` the call
returns `JX_INVAL` at the `1`. -/
theorem key_with_two_values :
    parser_parse (parser_init 0) 12 in_two_values 4 (some (List.replicate 4 blank)) =
        Outcome.ret 4
          { parser := { bits := 0, nnodes := 0, pos := 12, toknext := 4, toksuper := -1 },
            nodes := some
              [{ type := JX_OBJECT, start := 0, end_ := 12, size := 1, parent := -1 },
               { type := JX_STRING, start := 2, end_ := 3, size := 2, parent := 0 },
               { type := JX_STRING, start := 6, end_ := 7, size := 0, parent := 1 },
               { type := JX_STRING, start := 9, end_ := 10, size := 0, parent := 1 }] } ∧
      parser_parse (parser_init 0) 10 in_value_number 4 (some (List.replicate 4 blank)) =
        Outcome.ret JX_INVAL
          { parser := { bits := 0, nnodes := 0, pos := 8, toknext := 3, toksuper := 1 },
            nodes := some
              [{ type := JX_OBJECT, start := 0, end_ := -1, size := 1, parent := -1 },
               { type := JX_STRING, start := 2, end_ := 3, size := 1, parent := 0 },
               { type := JX_STRING, start := 6, end_ := 7, size := 0, parent := 1 },
               blank] } := by
  decide

/-! ### The nesting discipline -/

theorem nodeAt_some (ns : List jx_node) (i : Int) (t : jx_node) (h : nodeAt ns i = some t) :
    0 ≤ i ∧ ns[i.toNat]? = some t := by
  unfold nodeAt at h
  split at h
  · simp at h
  · exact ⟨by omega, h⟩

theorem nodeAt_of_getElem? (ns : List jx_node) (i : Nat) (t : jx_node) (h : ns[i]? = some t) :
    nodeAt ns (i : Int) = some t := by
  unfold nodeAt
  rw [if_neg (by omega)]
  simpa using h

/-- The tokens below `n` keep their kind, span ends and parent. -/
theorem GoodChain_mono (ns ns' : List jx_node) (n : Nat)
    (hsame : ∀ i t, i < n → ns[i]? = some t → ∃ t', ns'[i]? = some t' ∧
      t'.type = t.type ∧ t'.start = t.start ∧ t'.end_ = t.end_ ∧ t'.parent = t.parent)
    (hpar : ∀ i t, i < n → ns[i]? = some t → t.parent < (i : Int)) :
    ∀ s, GoodChain ns s → s < (n : Int) → GoodChain ns' s := by
  intro s h
  induction h with
  | root => intro _; exact GoodChain.root
  | link i t hnode hgood _ ih =>
    intro hi
    obtain ⟨h0, hget⟩ := nodeAt_some ns i t hnode
    obtain ⟨t', ht', hty, hst, hen, hpa⟩ := hsame i.toNat t (by omega) hget
    have hp := hpar i.toNat t (by omega) hget
    have hn' : nodeAt ns' i = some t' := by
      have := nodeAt_of_getElem? ns' i.toNat t' ht'
      rwa [Int.toNat_of_nonneg h0] at this
    refine GoodChain.link i t' hn' ?_ ?_
    · unfold isOpen isContainer at hgood ⊢
      rw [hty, hst, hen]
      exact hgood
    · rw [hpa]
      exact ih (by omega)

theorem Via_snoc (ns : List jx_node) (i s : Int) (t : jx_node) (h : Via ns i s)
    (hnode : nodeAt ns s = some t) (hno : ¬ isOpen t) : Via ns i t.parent := by
  induction h with
  | refl i => exact Via.up i t _ hnode hno (Via.refl _)
  | up i t1 s hnode1 hno1 _ ih => exact Via.up i t1 _ hnode1 hno1 (ih hnode)

/-- The first open token on the chain from `i` lies on the chain from any
index the chain from `i` reaches through tokens that are not open. -/
theorem Via_split (ns : List jx_node) (i s T : Int) (tT : jx_node) (h : Via ns i s)
    (hT : Via ns i T) (hnode : nodeAt ns T = some tT) (hopen : isOpen tT) : Via ns s T := by
  induction h with
  | refl i => exact hT
  | up i t s hnode1 hno1 _ ih =>
    cases hT with
    | refl =>
      rw [hnode1] at hnode
      injection hnode with hnode
      subst hnode
      exact absurd hopen hno1
    | up _ t2 _ hnode2 _ hrest =>
      rw [hnode1] at hnode2
      injection hnode2 with hnode2
      subst hnode2
      exact ih hrest

theorem GoodChain_parent (ns : List jx_node) (i : Int) (t : jx_node) (h : GoodChain ns i)
    (hnode : nodeAt ns i = some t) : GoodChain ns t.parent := by
  cases h with
  | root => simp [nodeAt] at hnode
  | link _ t1 hnode1 _ hrest =>
    rw [hnode1] at hnode
    injection hnode with hnode
    subst hnode
    exact hrest

theorem GoodChain_via (ns : List jx_node) (s T : Int) (h : Via ns s T)
    (hg : GoodChain ns s) : GoodChain ns T := by
  induction h with
  | refl i => exact hg
  | up i t s hnode _ _ ih => exact ih (GoodChain_parent ns i t hg hnode)

/-- Closing the token the walk stops at extends the path to its parent. -/
theorem Via_close (ns ns' : List jx_node) (i T : Int) (t' : jx_node) (h : Via ns i T)
    (hsame : ∀ j, j ≠ T → nodeAt ns' j = nodeAt ns j)
    (hnode : nodeAt ns' T = some t') (hno : ¬ isOpen t') : Via ns' i t'.parent := by
  induction h with
  | refl i => exact Via.up i t' _ hnode hno (Via.refl _)
  | up i t s hnode1 hno1 _ ih =>
    by_cases hi : i = s
    · subst hi
      exact Via.up i t' _ hnode hno (Via.refl _)
    · exact Via.up i t _ (by rw [hsame i hi]; exact hnode1) hno1 (ih hsame hnode)

/-- What the walk of the closing-bracket case does when it ends by `break`:
nothing, or it closes the first open token on the chain of parents and makes
that token's parent the `toksuper`. -/
theorem close_walk_next (parser : jx_parser_st) (ns : List jx_node) (type : jx_type)
    (c : Int) : ∀ fuel i c' m',
    close_walk parser ns type c fuel i = Flow.next c' m' →
      m' = { parser := parser, nodes := some ns } ∨
      ∃ (T : Int) (tT : jx_node), Via ns i T ∧ nodeAt ns T = some tT ∧ isOpen tT ∧
        m' = { parser := { parser with toksuper := tT.parent },
               nodes := some (updNode (fun t => { t with end_ := (parser.pos : Int) + 1 })
                 ns T.toNat) } := by
  intro fuel
  induction fuel with
  | zero => intro i c' m' h; simp [close_walk] at h
  | succ n ih =>
    intro i c' m' h
    simp only [close_walk] at h
    split at h
    · simp at h
    · rename_i token hnode
      split at h
      · rename_i hopen
        split at h
        · simp at h
        · simp only [Flow.next.injEq] at h
          exact Or.inr ⟨i, token, Via.refl i, hnode, hopen, h.2.symm⟩
      · rename_i hno
        split at h
        · split at h
          · simp at h
          · simp only [Flow.next.injEq] at h
            exact Or.inl h.2.symm
        · rcases ih _ _ _ h with h1 | ⟨T, tT, hvia, hT, hopen, hm⟩
          · exact Or.inl h1
          · exact Or.inr ⟨T, tT, Via.up i token T hnode hno hvia, hT, hopen, hm⟩

theorem Safe_parent_lt (nnodes : Nat) (p : jx_parser_st) (ns : List jx_node)
    (hS : Safe nnodes p ns) :
    ∀ i t, i < p.toknext → ns[i]? = some t → t.parent < (i : Int) := by
  intro i t hi hit
  obtain ⟨t', ht', _, hp, _⟩ := hS.2.2.2.2 i hi
  rw [hit] at ht'
  injection ht' with ht'
  subst ht'
  exact hp

theorem Via_le (nnodes : Nat) (p : jx_parser_st) (ns : List jx_node)
    (hS : Safe nnodes p ns) : ∀ i T, Via ns i T → i < (p.toknext : Int) → T ≤ i := by
  intro i T h
  induction h with
  | refl i => intro _; exact le_refl _
  | up i t s hnode _ _ ih =>
    intro hi
    obtain ⟨h0, hget⟩ := nodeAt_some ns i t hnode
    have := Safe_parent_lt nnodes p ns hS i.toNat t (by omega) hget
    have := ih (by omega)
    omega

/-- A round that opens a container keeps the nesting discipline. -/
theorem Chained_open (nnodes : Nat) (p p' : jx_parser_st) (ns ns' : List jx_node)
    (hS : Safe nnodes p ns) (hC : Chained p ns)
    (hsame : ∀ i t, i < p.toknext → ns[i]? = some t → ∃ t', ns'[i]? = some t' ∧
      t'.type = t.type ∧ t'.start = t.start ∧ t'.end_ = t.end_ ∧ t'.parent = t.parent)
    (tk : jx_node) (hnew : ns'[p.toknext]? = some tk) (hopen : isOpen tk)
    (hcont : isContainer tk) (hpar : tk.parent = p.toksuper)
    (htn : p'.toknext = p.toknext + 1) (hsup : p'.toksuper = (p.toknext : Int)) :
    Chained p' ns' := by
  obtain ⟨hO, hG, _⟩ := hC
  have hlt := Safe_parent_lt nnodes p ns hS
  refine ⟨fun i t hi hit hop => ?_, ?_, ?_⟩
  · rw [htn] at hi
    by_cases hi' : i < p.toknext
    · obtain ⟨t0, ht0, _⟩ := hS.2.2.2.2 i hi'
      obtain ⟨t', ht', hty, hst, hen, _⟩ := hsame i t0 hi' ht0
      rw [hit] at ht'
      injection ht' with ht'
      subst ht'
      have := hO i t0 hi' ht0 (by unfold isOpen at hop ⊢; rw [← hst, ← hen]; exact hop)
      unfold isContainer at this ⊢
      rw [hty]
      exact this
    · have : i = p.toknext := by omega
      subst this
      rw [hit] at hnew
      injection hnew with hnew
      subst hnew
      exact hcont
  · rw [hsup]
    refine GoodChain.link _ tk (nodeAt_of_getElem? ns' _ tk hnew) (Or.inl hopen) ?_
    rw [hpar]
    exact GoodChain_mono ns ns' p.toknext hsame hlt _ hG hS.2.2.2.1
  · rw [htn, hsup]
    have : ((p.toknext + 1 : Nat) : Int) - 1 = (p.toknext : Int) := by omega
    rw [this]
    exact Via.refl _

/-- A round that scans a String or primitive token keeps the nesting
discipline. -/
theorem Chained_scalar (nnodes : Nat) (p p' : jx_parser_st) (ns ns' : List jx_node)
    (hS : Safe nnodes p ns) (hC : Chained p ns)
    (hsame : ∀ i t, i < p.toknext → ns[i]? = some t → ∃ t', ns'[i]? = some t' ∧
      t'.type = t.type ∧ t'.start = t.start ∧ t'.end_ = t.end_ ∧ t'.parent = t.parent)
    (tk : jx_node) (hnew : ns'[p.toknext]? = some tk) (hno : ¬ isOpen tk)
    (hpar : tk.parent = p.toksuper)
    (htn : p'.toknext = p.toknext + 1) (hsup : p'.toksuper = p.toksuper) :
    Chained p' ns' := by
  obtain ⟨hO, hG, _⟩ := hC
  have hlt := Safe_parent_lt nnodes p ns hS
  refine ⟨fun i t hi hit hop => ?_, ?_, ?_⟩
  · rw [htn] at hi
    by_cases hi' : i < p.toknext
    · obtain ⟨t0, ht0, _⟩ := hS.2.2.2.2 i hi'
      obtain ⟨t', ht', hty, hst, hen, _⟩ := hsame i t0 hi' ht0
      rw [hit] at ht'
      injection ht' with ht'
      subst ht'
      have := hO i t0 hi' ht0 (by unfold isOpen at hop ⊢; rw [← hst, ← hen]; exact hop)
      unfold isContainer at this ⊢
      rw [hty]
      exact this
    · have : i = p.toknext := by omega
      subst this
      rw [hit] at hnew
      injection hnew with hnew
      subst hnew
      exact absurd hop hno
  · rw [hsup]
    exact GoodChain_mono ns ns' p.toknext hsame hlt _ hG hS.2.2.2.1
  · rw [htn, hsup]
    have : ((p.toknext + 1 : Nat) : Int) - 1 = (p.toknext : Int) := by omega
    rw [this]
    refine Via.up _ tk _ (nodeAt_of_getElem? ns' _ tk hnew) hno ?_
    rw [hpar]
    exact Via.refl _

theorem chain_open (nnodes : Nat) (c : Int) (b : Nat) (parser : jx_parser_st)
    (ns : List jx_node) (hS : Safe nnodes parser ns) (hC : Chained parser ns) :
    StepChained (case_open b nnodes c { parser := parser, nodes := some ns }) := by
  have hS' := hS
  obtain ⟨hcap0, htk, hs1, hs2, htok⟩ := hS
  have hcont : isContainer
      { type := if b = 123 then JX_OBJECT else JX_ARRAY, start := (parser.pos : Int),
        end_ := -1, size := 0, parent := parser.toksuper } := by
    unfold isContainer
    simp only
    split
    · exact Or.inl rfl
    · exact Or.inr rfl
  unfold case_open node_alloc
  simp only
  by_cases hcap : parser.toknext ≥ nnodes
  · rw [if_pos hcap]
    trivial
  · rw [if_neg hcap, if_pos (by omega)]
    simp only
    have hlt : parser.toknext < ns.length := by omega
    obtain ⟨t0, ht0⟩ : ∃ t0, ns[parser.toknext]? = some t0 :=
      ⟨ns[parser.toknext], by simp [hlt]⟩
    split
    · rename_i hsup
      have hsup2 : parser.toksuper ≠ (parser.toknext : Int) := by omega
      obtain ⟨t, ht, ht', _⟩ := Safe_nodeAt nnodes parser ns hS' parser.toksuper (by omega) hs2
      simp only [nodeAt_updNode, if_neg hsup2, ht]
      split
      · trivial
      · refine ⟨_, rfl, Chained_open nnodes parser _ ns _ hS' hC ?_
          { type := if b = 123 then JX_OBJECT else JX_ARRAY, start := (parser.pos : Int),
            end_ := -1, size := 0, parent := parser.toksuper } ?_ ?_ hcont rfl rfl
          (by simp only; omega)⟩
        · intro i t hi hit
          have hne : i ≠ parser.toknext := by omega
          simp only [getElem?_updNode, if_neg hne, hit]
          split
          · exact ⟨_, rfl, rfl, rfl, rfl, rfl⟩
          · exact ⟨t, rfl, rfl, rfl, rfl, rfl⟩
        · have hne : parser.toknext ≠ parser.toksuper.toNat := by omega
          simp [getElem?_updNode, ht0, hne]
        · unfold isOpen
          refine ⟨?_, rfl⟩
          simp only
          omega
    · rename_i hsup
      simp only [ne_eq, not_not] at hsup
      refine ⟨_, rfl, Chained_open nnodes parser _ ns _ hS' hC ?_
        { type := if b = 123 then JX_OBJECT else JX_ARRAY, start := (parser.pos : Int),
          end_ := -1, size := 0, parent := -1 } ?_ ?_ ?_ hsup.symm rfl
        (by simp only; omega)⟩
      · intro i t hi hit
        have hne : i ≠ parser.toknext := by omega
        simp only [getElem?_updNode, if_neg hne, hit]
        exact ⟨t, rfl, rfl, rfl, rfl, rfl⟩
      · simp [getElem?_updNode, ht0]
      · unfold isOpen
        refine ⟨?_, rfl⟩
        simp only
        omega
      · unfold isContainer
        simp only
        split
        · exact Or.inl rfl
        · exact Or.inr rfl

theorem chain_child (nnodes : Nat) (c : Int) (parser : jx_parser_st) (ns : List jx_node)
    (hS : Safe nnodes parser ns) (hC : Chained parser ns) (hcap : parser.toknext < nnodes)
    (q : Nat) (ty : jx_type) (st en : Int) (hen : 0 ≤ en) :
    StepChained
      (count_child c
        { parser := { parser with pos := q, toknext := parser.toknext + 1 },
          nodes := some (updNode
            (fun t => { fill_node t ty st en with parent := parser.toksuper })
            (updNode (fun t => { t with start := -1, end_ := -1, size := 0, parent := -1 })
              ns parser.toknext) parser.toknext) }) := by
  have hS' := hS
  obtain ⟨hcap0, htk, hs1, hs2, htok⟩ := hS
  have hlt : parser.toknext < ns.length := by omega
  obtain ⟨t0, ht0⟩ : ∃ t0, ns[parser.toknext]? = some t0 :=
    ⟨ns[parser.toknext], by simp [hlt]⟩
  have hno : ¬ isOpen
      { type := ty, start := st, end_ := en, size := 0, parent := parser.toksuper } := by
    unfold isOpen
    simp only
    omega
  unfold count_child
  simp only
  split
  · rename_i hsup
    have hsup2 : parser.toksuper ≠ (parser.toknext : Int) := by omega
    obtain ⟨t, ht, ht', _⟩ := Safe_nodeAt nnodes parser ns hS' parser.toksuper (by omega) hs2
    simp only [nodeAt_updNode, if_neg hsup2, ht]
    refine ⟨_, rfl, Chained_scalar nnodes parser _ ns _ hS' hC ?_
      { type := ty, start := st, end_ := en, size := 0, parent := parser.toksuper } ?_ hno
      rfl rfl rfl⟩
    · intro i t hi hit
      have hne : i ≠ parser.toknext := by omega
      simp only [getElem?_updNode, if_neg hne, hit]
      split
      · exact ⟨_, rfl, rfl, rfl, rfl, rfl⟩
      · exact ⟨t, rfl, rfl, rfl, rfl, rfl⟩
    · have hne : parser.toknext ≠ parser.toksuper.toNat := by omega
      simp [getElem?_updNode, ht0, hne, fill_node]
  · rename_i hsup
    refine ⟨_, rfl, Chained_scalar nnodes parser _ ns _ hS' hC ?_
      { type := ty, start := st, end_ := en, size := 0, parent := parser.toksuper } ?_ hno
      rfl rfl rfl⟩
    · intro i t hi hit
      have hne : i ≠ parser.toknext := by omega
      simp only [getElem?_updNode, if_neg hne, hit]
      exact ⟨t, rfl, rfl, rfl, rfl, rfl⟩
    · simp [getElem?_updNode, ht0, fill_node]

theorem chain_string (js : List Nat) (len nnodes : Nat) (c : Int) (parser : jx_parser_st)
    (ns : List jx_node) (hS : Safe nnodes parser ns) (hC : Chained parser ns) :
    StepChained (case_string js len nnodes c { parser := parser, nodes := some ns }) := by
  have hS' := hS
  obtain ⟨hcap0, htk, hs1, hs2, htok⟩ := hS
  unfold case_string
  rw [parse_string_eq]
  simp only
  cases hSc : string_scan js len (len - (parser.pos + 1)) (parser.pos + 1) with
  | hang => trivial
  | inval =>
    simp only [show JX_INVAL < 0 by decide, if_true]
    trivial
  | found q =>
    simp only [string_close, node_alloc]
    by_cases hcap : parser.toknext ≥ nnodes
    · rw [if_pos hcap]
      simp only [show JX_NOMEM < 0 by decide, if_true]
      trivial
    · rw [if_neg hcap, if_pos (by omega)]
      simp only [show ¬ ((0 : Int) < 0) by omega, if_false]
      exact chain_child nnodes c parser ns hS' hC (by omega) q JX_STRING _ _ (by omega)

theorem chain_primitive (js : List Nat) (len nnodes : Nat) (c : Int) (parser : jx_parser_st)
    (ns : List jx_node) (hS : Safe nnodes parser ns) (hC : Chained parser ns)
    (hb : isPrimStart (byteAt js parser.pos)) :
    StepChained (case_primitive js len nnodes c { parser := parser, nodes := some ns }) := by
  have hS' := hS
  obtain ⟨hcap0, htk, hs1, hs2, htok⟩ := hS
  unfold case_primitive
  cases hpl : placed { parser := parser, nodes := some ns } with
  | none => trivial
  | some b =>
    cases b with
    | false => trivial
    | true =>
      simp only [parse_primitive]
      cases hSc : primitive_loop js len (len - parser.pos) parser.pos with
      | hang => trivial
      | inval =>
        simp only [show JX_INVAL < 0 by decide, if_true]
        trivial
      | found q =>
        simp only [node_alloc]
        by_cases hcap : parser.toknext ≥ nnodes
        · rw [if_pos hcap]
          simp only [show JX_NOMEM < 0 by decide, if_true]
          trivial
        · rw [if_neg hcap, if_pos (by omega)]
          obtain ⟨ty, hty, _⟩ := primitive_type_some _ hb
          simp only [hty, show ¬ ((0 : Int) < 0) by omega, if_false]
          exact chain_child nnodes c parser ns hS' hC (by omega) (q - 1) ty _ _ (by omega)

theorem chain_comma (nnodes : Nat) (c : Int) (parser : jx_parser_st) (ns : List jx_node)
    (hS : Safe nnodes parser ns) (hC : Chained parser ns) :
    StepChained (case_comma c { parser := parser, nodes := some ns }) := by
  have hS' := hS
  obtain ⟨hcap0, htk, hs1, hs2, htok⟩ := hS
  obtain ⟨hO, hG, hV⟩ := hC
  unfold case_comma
  simp only
  split
  · obtain ⟨t, ht, ht', hp1, hp2⟩ :=
      Safe_nodeAt nnodes parser ns hS' parser.toksuper (by omega) hs2
    simp only [ht]
    split
    · rename_i hnc
      have hno : ¬ isOpen t := by
        intro hop
        have := hO parser.toksuper.toNat t (by omega) ht' hop
        unfold isContainer at this
        rcases this with h | h
        · exact hnc.2 h
        · exact hnc.1 h
      exact ⟨ns, rfl, hO, GoodChain_parent ns _ t hG ht, Via_snoc ns _ _ t hV ht hno⟩
    · exact ⟨ns, rfl, hO, hG, hV⟩
  · exact ⟨ns, rfl, hO, hG, hV⟩

theorem chain_colon (parser : jx_parser_st) (ns : List jx_node) (hC : Chained parser ns)
    (hA : AfterScalar { parser := parser, nodes := some ns }) :
    Chained { parser with toksuper := (parser.toknext : Int) - 1 } ns := by
  obtain ⟨hO, hG, _⟩ := hC
  unfold AfterScalar at hA
  simp only at hA
  split at hA
  · exact absurd hA id
  · rename_i t ht
    exact ⟨hO, GoodChain.link _ t ht (Or.inr hA.1) (by rw [hA.2]; exact hG), Via.refl _⟩

theorem chain_close (nnodes : Nat) (c : Int) (b : Nat) (parser : jx_parser_st)
    (ns : List jx_node) (hS : Safe nnodes parser ns) (hC : Chained parser ns) :
    StepChained (case_close b c { parser := parser, nodes := some ns }) := by
  have hS' := hS
  obtain ⟨hcap0, htk, hs1, hs2, htok⟩ := hS
  have hC' := hC
  obtain ⟨hO, hG, hV⟩ := hC
  unfold case_close
  simp only
  split
  · trivial
  · rename_i h1
    cases hw : close_walk parser ns (if b = 125 then JX_OBJECT else JX_ARRAY) c
        (ns.length + 1) ((parser.toknext : Int) - 1) with
    | stop o => trivial
    | next c' m' =>
      rcases close_walk_next parser ns _ c _ _ c' m' hw with hm | ⟨T, tT, hvia, hT, hopen, hm⟩
      · subst hm
        exact ⟨ns, rfl, hC'⟩
      · subst hm
        have hTle := Via_le nnodes parser ns hS' _ _ hvia (by omega)
        obtain ⟨hT0, hTget⟩ := nodeAt_some ns T tT hT
        have hplt := Safe_parent_lt nnodes parser ns hS' T.toNat tT (by omega) hTget
        have hGT : GoodChain ns tT.parent :=
          GoodChain_parent ns T tT
            (GoodChain_via ns _ T (Via_split ns _ _ T tT hV hvia hT hopen) hG) hT
        have hno : ¬ isOpen { tT with end_ := (parser.pos : Int) + 1 } := by
          unfold isOpen
          simp only
          omega
        refine ⟨_, rfl, fun i t hi hit hop => ?_, ?_, ?_⟩
        · simp only [getElem?_updNode] at hit
          split at hit
          · rename_i hiT
            subst hiT
            rw [hTget] at hit
            simp only [Option.map_some', Option.some.injEq] at hit
            subst hit
            exact absurd hop hno
          · exact hO i t hi hit hop
        · refine GoodChain_mono ns _ T.toNat (fun i t hi hit => ?_)
            (fun i t hi hit => Safe_parent_lt nnodes parser ns hS' i t (by omega) hit)
            tT.parent hGT hplt
          have hne : i ≠ T.toNat := by omega
          simp only [getElem?_updNode, if_neg hne, hit]
          exact ⟨t, rfl, rfl, rfl, rfl, rfl⟩
        · refine Via_close ns _ _ T { tT with end_ := (parser.pos : Int) + 1 } hvia
            (fun j hj => ?_) ?_ hno
          · rw [nodeAt_updNode, if_neg (by omega)]
          · rw [nodeAt_updNode, if_pos (by omega), hT]
            rfl

/-- One round of the main loop keeps the nesting discipline, in fill mode from
an index-safe memory, when it ends by `break`; a round for ':' is asked to come
right after a String or primitive token. -/
theorem step_chained (js : List Nat) (len nnodes : Nat) (c : Int) (parser : jx_parser_st)
    (ns : List jx_node) (hS : Safe nnodes parser ns) (hC : Chained parser ns)
    (hcolon : byteAt js parser.pos = 58 → AfterScalar { parser := parser, nodes := some ns }) :
    StepChained (parse_step js len nnodes c { parser := parser, nodes := some ns }) := by
  unfold parse_step
  simp only
  split
  · exact chain_open nnodes c _ parser ns hS hC
  · split
    · exact chain_close nnodes c _ parser ns hS hC
    · split
      · exact chain_string js len nnodes c parser ns hS hC
      · split
        · exact ⟨ns, rfl, hC⟩
        · split
          · rename_i h58
            exact ⟨ns, rfl, chain_colon parser ns hC (hcolon h58)⟩
          · split
            · exact chain_comma nnodes c parser ns hS hC
            · split
              · rename_i hp
                exact chain_primitive js len nnodes c parser ns hS hC hp
              · trivial

theorem SameSuper_refl (m : Mem) : SameSuper m m :=
  ⟨rfl, fun ns hn => ⟨ns, hn, fun _ _ => rfl⟩⟩

theorem case_open_same (b nnodes : Nat) (c r : Int) (m m' : Mem)
    (h : case_open b nnodes c m = Flow.stop (Outcome.ret r m')) : SameSuper m m' := by
  obtain ⟨parser, nodes⟩ := m
  cases nodes with
  | none => simp [case_open] at h
  | some ns =>
    unfold case_open node_alloc at h
    simp only at h
    by_cases h1 : parser.toknext ≥ nnodes
    · simp [h1] at h; rw [← h.2]; exact SameSuper_refl _
    · by_cases h2 : parser.toknext < ns.length
      · simp only [if_neg h1, if_pos h2] at h
        split at h
        · split at h
          · simp at h
          · split at h
            · simp only [Flow.stop.injEq, Outcome.ret.injEq] at h
              rw [← h.2]
              refine ⟨rfl, fun ns0 hn => ?_⟩
              simp only [Option.some.injEq] at hn
              subst hn
              refine ⟨_, rfl, fun i hi => ?_⟩
              simp only at hi
              rw [getElem?_updNode, if_neg hi]
            · simp at h
        · simp at h
      · simp [h1, h2] at h

theorem parse_string_same (js : List Nat) (len nnodes : Nat) (r : Int) (m m' : Mem)
    (h : parse_string m js len nnodes = Outcome.ret r m') (hr : r < 0) : SameSuper m m' := by
  obtain ⟨parser, nodes⟩ := m
  rw [parse_string_eq] at h
  split at h
  · simp at h
  · simp at h; rw [← h.2]; exact SameSuper_refl _
  · cases nodes with
    | none => simp [string_close] at h; omega
    | some ns =>
      unfold string_close node_alloc at h
      simp only at h
      by_cases h1 : parser.toknext ≥ nnodes
      · simp [h1] at h; rw [← h.2]; exact SameSuper_refl _
      · by_cases h2 : parser.toknext < ns.length
        · simp [h1, h2] at h; omega
        · simp [h1, h2] at h

theorem parse_primitive_same (js : List Nat) (len nnodes : Nat) (r : Int) (m m' : Mem)
    (h : parse_primitive m js len nnodes = Outcome.ret r m') (hr : r < 0) :
    SameSuper m m' := by
  obtain ⟨parser, nodes⟩ := m
  unfold parse_primitive at h
  simp only at h
  split at h
  · simp at h
  · simp at h; rw [← h.2]; exact SameSuper_refl _
  · cases nodes with
    | none => simp at h; omega
    | some ns =>
      unfold node_alloc at h
      simp only at h
      by_cases h1 : parser.toknext ≥ nnodes
      · simp [h1] at h; rw [← h.2]; exact SameSuper_refl _
      · by_cases h2 : parser.toknext < ns.length
        · simp only [if_neg h1, if_pos h2] at h
          split at h
          · simp at h
          · simp at h; omega
        · simp [h1, h2] at h

/-- A return from inside the `switch` leaves `toksuper` and the written tokens
as the round found them. -/
theorem step_stop_same (js : List Nat) (len nnodes : Nat) (c r : Int) (m m' : Mem)
    (h : parse_step js len nnodes c m = Flow.stop (Outcome.ret r m')) : SameSuper m m' := by
  unfold parse_step at h
  simp only at h
  split at h
  · exact case_open_same _ _ _ _ _ _ h
  · split at h
    · unfold case_close at h
      simp only at h
      split at h
      · simp at h
      · split at h
        · simp at h; rw [← h.2]; exact SameSuper_refl _
        · rename_i ns hn _
          rw [close_walk_stop _ _ _ _ _ _ _ _ h]
          exact ⟨rfl, fun ns0 hn0 => ⟨ns, rfl, fun i _ => by
            rw [hn] at hn0
            injection hn0 with hn0
            rw [hn0]⟩⟩
    · split at h
      · unfold case_string at h
        split at h
        · simp at h
        · simp at h
        · rename_i r1 m1 heq
          split at h
          · rename_i hneg
            simp only [Flow.stop.injEq, Outcome.ret.injEq] at h
            obtain ⟨_, hm⟩ := h
            subst hm
            exact parse_string_same js len nnodes r1 m m1 heq hneg
          · exact absurd h (count_child_stop _ _ _ _)
      · split at h
        · simp at h
        · split at h
          · simp at h
          · split at h
            · unfold case_comma at h
              simp only at h
              split at h
              · simp at h
              · split at h
                · split at h
                  · simp at h
                  · split at h <;> simp at h
                · simp at h
            · split at h
              · unfold case_primitive at h
                split at h
                · simp at h
                · simp at h; rw [← h.2]; exact SameSuper_refl _
                · split at h
                  · simp at h
                  · simp at h
                  · rename_i r1 m1 heq
                    split at h
                    · rename_i hneg
                      simp only [Flow.stop.injEq, Outcome.ret.injEq] at h
                      obtain ⟨_, hm⟩ := h
                      subst hm
                      exact parse_primitive_same js len nnodes r1 m m1 heq hneg
                    · exact absurd h (count_child_stop _ _ _ _)
              · simp at h; rw [← h.2]; exact SameSuper_refl _

theorem KeyRounds_rounds (js : List Nat) (len nnodes : Nat) (c c1 : Int) (m m1 : Mem)
    (h : KeyRounds js len nnodes c m c1 m1) : Rounds js len nnodes c m c1 m1 := by
  induction h with
  | refl => exact Rounds.refl
  | step c3 m3 c4 m4 _ hc3 hs3 _ ih => exact Rounds.step c3 m3 c4 m4 ih hc3 hs3

theorem KeyRounds_chained (js : List Nat) (len nnodes : Nat) (c c1 : Int) (m m1 : Mem)
    (h : KeyRounds js len nnodes c m c1 m1) (ns : List jx_node) (hn : m.nodes = some ns)
    (hS : Safe nnodes m.parser ns) (hC : Chained m.parser ns) :
    ∃ ns1, m1.nodes = some ns1 ∧ Safe nnodes m1.parser ns1 ∧ Chained m1.parser ns1 := by
  induction h with
  | refl => exact ⟨ns, hn, hS, hC⟩
  | step c3 m3 c4 m4 _ hc3 hs3 hcolon ih =>
    obtain ⟨ns3, hn3, hS3, hC3⟩ := ih
    obtain ⟨p3, n3⟩ := m3
    simp only at hn3 hS3 hC3 hcolon
    subst hn3
    have h1 := step_safe js len nnodes c3 { parser := p3, nodes := some ns3 } ⟨ns3, rfl, hS3⟩
    have h2 := step_chained js len nnodes c3 p3 ns3 hS3 hC3 hcolon
    rw [hs3] at h1 h2
    obtain ⟨ns4, hn4, hS4⟩ := h1
    obtain ⟨ns4', hn4', hC4⟩ := h2
    rw [hn4] at hn4'
    injection hn4' with hn4'
    subst hn4'
    exact ⟨ns4, hn4, hS4, hC4⟩

theorem GoodChain_head (ns : List jx_node) (i : Int) (h : GoodChain ns i) :
    i = -1 ∨ ∃ t, nodeAt ns i = some t ∧ (isOpen t ∨ ¬ isContainer t) := by
  cases h with
  | root => exact Or.inl rfl
  | link _ t hnode hgood _ => exact Or.inr ⟨t, hnode, hgood⟩

theorem Chained_init (bits : Int) (ns : List jx_node) : Chained (parser_init bits) ns := by
  refine ⟨fun i t hi => ?_, GoodChain.root, ?_⟩
  · simp [parser_init] at hi
  · have : (((parser_init bits).toknext : Nat) : Int) - 1 = (parser_init bits).toksuper := by
      simp [parser_init]
    rw [this]
    exact Via.refl _

/-- C17, as stated, fails: on `[]:` scanned into one entry the call returns 1
and leaves `toksuper = 0`, the index of the Array token whose `end` has been
set to 2: the round for ':' makes the token allocated last the `toksuper`
without looking at it. -/
theorem closed_container_current :
    parser_parse (parser_init 0) 3 in_closed_colon 1 (some [blank]) =
        Outcome.ret 1
          { parser := { bits := 0, nnodes := 0, pos := 3, toknext := 1, toksuper := 0 },
            nodes := some [{ type := JX_ARRAY, start := 0, end_ := 2, size := 0,
                             parent := -1 }] } ∧
      isContainer { type := JX_ARRAY, start := 0, end_ := 2, size := 0, parent := -1 } ∧
      ¬ isOpen { type := JX_ARRAY, start := 0, end_ := 2, size := 0, parent := -1 } := by
  decide

/-- C17 (current-container invariant), amended: in every loop-head state of a
fill-mode call started from a fresh state, over an array that holds the
capacity (the state a successful call returns is one), `toksuper` is -1 or the
index of a written token; and when every ':' the call has processed came right
after a String or primitive token (the token allocated last, `toksuper` still
being its parent), that token is open (`start` set, `end` unset) or is a String
or primitive token: it is no Object or Array whose `end` has been set.  The
same holds of the memory a return from inside the `switch` leaves, which is
the memory a failing call leaves. -/
theorem current_container (js : List Nat) (len nnodes : Nat) (bits : Int)
    (ns : List jx_node) (c1 : Int) (m1 : Mem) (hcap : nnodes ≤ ns.length)
    (hR : KeyRounds js len nnodes 0 { parser := parser_init bits, nodes := some ns } c1 m1) :
    Rounds js len nnodes 0 { parser := parser_init bits, nodes := some ns } c1 m1 ∧
      (∃ toks, m1.nodes = some toks ∧
        -1 ≤ m1.parser.toksuper ∧ m1.parser.toksuper < (m1.parser.toknext : Int) ∧
        (m1.parser.toksuper = -1 ∨
          ∃ t, nodeAt toks m1.parser.toksuper = some t ∧ (isOpen t ∨ ¬ isContainer t))) ∧
      ∀ r m', parse_step js len nnodes c1 m1 = Flow.stop (Outcome.ret r m') →
        ∃ toks', m'.nodes = some toks' ∧
          (m'.parser.toksuper = -1 ∨
            ∃ t, nodeAt toks' m'.parser.toksuper = some t ∧ (isOpen t ∨ ¬ isContainer t)) := by
  refine ⟨KeyRounds_rounds js len nnodes 0 c1 _ m1 hR, ?_⟩
  have hS0 : Safe nnodes (parser_init bits) ns :=
    Reach_safe nnodes _ ns (Reach.init bits ns hcap)
  obtain ⟨toks, hn, hS, _, hG, _⟩ :=
    KeyRounds_chained js len nnodes 0 c1 _ m1 hR ns rfl hS0 (Chained_init bits ns)
  have hJ := GoodChain_head toks _ hG
  refine ⟨⟨toks, hn, hS.2.2.1, hS.2.2.2.1, hJ⟩, fun r m' hstop => ?_⟩
  obtain ⟨hsup, hnodes⟩ := step_stop_same js len nnodes c1 r m1 m' hstop
  obtain ⟨toks', hn', hsame⟩ := hnodes toks hn
  refine ⟨toks', hn', ?_⟩
  rw [hsup]
  rcases hJ with hJ | ⟨t, ht, hgood⟩
  · exact Or.inl hJ
  · refine Or.inr ⟨t, ?_, hgood⟩
    obtain ⟨h0, hget⟩ := nodeAt_some toks _ t ht
    have hlt := hS.2.2.2.1
    unfold nodeAt
    rw [if_neg (by omega), hsame _ (by omega)]
    exact hget

theorem current_container_witness :
    5 ≤ (List.replicate 5 blank).length ∧
      KeyRounds in_members 15 5 0
        { parser := parser_init 0, nodes := some (List.replicate 5 blank) } 2 mem_at_value ∧
      Rounds in_members 15 5 0
        { parser := parser_init 0, nodes := some (List.replicate 5 blank) } 2 mem_at_value ∧
      ∃ toks, mem_at_value.nodes = some toks ∧
        -1 ≤ mem_at_value.parser.toksuper ∧
        mem_at_value.parser.toksuper < (mem_at_value.parser.toknext : Int) ∧
        (mem_at_value.parser.toksuper = -1 ∨
          ∃ t, nodeAt toks mem_at_value.parser.toksuper = some t ∧
            (isOpen t ∨ ¬ isContainer t)) :=
  have hK : KeyRounds in_members 15 5 0
      { parser := parser_init 0, nodes := some (List.replicate 5 blank) } 2 mem_at_value :=
    KeyRounds.step 2 _ 2 _
      (KeyRounds.step 1 _ 2 _
        (KeyRounds.step 0 _ 1 _ KeyRounds.refl (by decide)
          (by decide : parse_step in_members 15 5 0
            { parser := parser_init 0, nodes := some (List.replicate 5 blank) } = Flow.next 1
              { parser := { bits := 0, nnodes := 0, pos := 0, toknext := 1, toksuper := 0 },
                nodes := some
                  [{ type := JX_OBJECT, start := 0, end_ := -1, size := 0, parent := -1 },
                   blank, blank, blank, blank] })
          (by decide))
        (by decide)
        (by decide : parse_step in_members 15 5 1 _ = Flow.next 2
            { parser := { bits := 0, nnodes := 0, pos := 3, toknext := 2, toksuper := 0 },
              nodes := some
                [{ type := JX_OBJECT, start := 0, end_ := -1, size := 1, parent := -1 },
                 { type := JX_STRING, start := 2, end_ := 3, size := 0, parent := 0 },
                 blank, blank, blank] })
        (by decide))
      (by decide)
      (by decide : parse_step in_members 15 5 2 _ = Flow.next 2
          { parser := { bits := 0, nnodes := 0, pos := 4, toknext := 2, toksuper := 1 },
            nodes := some
              [{ type := JX_OBJECT, start := 0, end_ := -1, size := 1, parent := -1 },
               { type := JX_STRING, start := 2, end_ := 3, size := 0, parent := 0 },
               blank, blank, blank] })
      (by decide)
  ⟨by decide, hK,
    (current_container in_members 15 5 0 (List.replicate 5 blank) 2 mem_at_value (by decide)
      hK).1,
    (current_container in_members 15 5 0 (List.replicate 5 blank) 2 mem_at_value (by decide)
      hK).2.1⟩

end Jx
